import Mathlib

/-!
Bilinear resize kernel (`mace/kernels/resize_bilinear.h`)

A shallow embedding of the CPU bilinear resize kernel and of the functor that
drives it, followed by the properties established about them.

Conventions of the embedding.

* `index_t` (a 64-bit signed integer) is `Int`.  Every index the kernel forms
  is an offset into a buffer that exists in memory, so no product reaches
  `2^63` and wrap-around plays no part.
* `float` is read in two ways.  The definitions directly in `mace.kernels`
  take it as `ℚ` with exact arithmetic; they carry the properties that do not
  depend on rounding: the checks, the structure of the loops, the formula the
  code evaluates, and closed instances on which exact and binary32 arithmetic
  give the same values.  The definitions in
  `mace.kernels.binary32` take it as IEEE 754 binary32: every operation
  returns the exact result rounded to the nearest value, ties to even, with
  gradual underflow, overflow to infinity and NaN; each operation is rounded
  on its own (no fused multiply-add, no wider intermediate format), and the
  two zeros are identified.  The conversion `static_cast<index_t>` is defined
  there only for finite values inside the range of `index_t`.  Every property
  that depends on rounding, on overflow or on the range of that conversion is
  stated over `binary32`.
* Raw pointers are offsets (`Int`) into a buffer (`List`).  Every read and
  write is checked: an access outside the buffer (undefined behaviour in the
  source) makes the embedded function return `none`.
* `MACE_CHECK` aborts the call; the embedding records which check failed and
  the state of the output tensor at that moment.
* `Tensor::MappingGuard` does nothing on the CPU device and is left out.
-/

namespace mace.kernels

/-! ## Buffers -/

/-- Checked read `buf[i]` through a pointer offset. -/
def readAt {α : Type} (buf : List α) (i : Int) : Option α :=
  if 0 ≤ i then buf[i.toNat]? else none

/-- Checked write `buf[i] = v` through a pointer offset. -/
def writeAt {α : Type} (buf : List α) (i : Int) (v : α) : Option (List α) :=
  if 0 ≤ i ∧ i.toNat < buf.length then some (buf.set i.toNat v) else none

/-- Conversion `static_cast<index_t>(float)` in exact arithmetic: truncation
toward zero (the range of `index_t` is left out; see `binary32.toIndex`). -/
def truncToIndex (q : ℚ) : Int :=
  if 0 ≤ q then ⌊q⌋ else ⌈q⌉

/-! ## The interpolation tables -/

/-- Record `CachedInterpolation`: the two source indices and the blend fraction. -/
structure CachedInterpolation where
  lower : Int
  upper : Int
  lerp : ℚ
deriving DecidableEq, Repr

/-- Function `CalculateResizeScale`, in exact arithmetic. -/
def CalculateResizeScale (in_size out_size : Int) (align_corners : Bool) : ℚ :=
  if align_corners && decide (out_size > 1) then
    ((in_size - 1 : Int) : ℚ) / ((out_size - 1 : Int) : ℚ)
  else
    (in_size : ℚ) / (out_size : ℚ)

/-- The record the loop body of `ComputeInterpolationWeights` stores at index
`i`, in exact arithmetic. -/
def ComputeInterpolationWeights.entry (in_size : Int) (scale : ℚ) (i : Nat) :
    CachedInterpolation :=
  let inn : ℚ := (i : ℚ) * scale
  let lower : Int := truncToIndex inn
  { lower := lower
    upper := min (lower + 1) (in_size - 1)
    lerp := inn - (lower : ℚ) }

/-- The loop `for (i = out_size - 1; i >= 0; --i)` of `ComputeInterpolationWeights`:
`ComputeInterpolationWeights.loop in_size scale n t` runs the iterations
`i = n - 1, n - 2, ..., 0` in that order on the table `t`. -/
def ComputeInterpolationWeights.loop (in_size : Int) (scale : ℚ) :
    Nat → List CachedInterpolation → Option (List CachedInterpolation)
  | 0, t => some t
  | i + 1, t =>
    if i < t.length then
      ComputeInterpolationWeights.loop in_size scale i
        (t.set i (ComputeInterpolationWeights.entry in_size scale i))
    else none

/-- Function `ComputeInterpolationWeights`, on the table behind the pointer
`interpolation`: first the two stores into record `out_size`, then the loop. -/
def ComputeInterpolationWeights (out_size in_size : Int) (scale : ℚ)
    (interpolation : List CachedInterpolation) : Option (List CachedInterpolation) :=
  match readAt interpolation out_size with
  | none => none
  | some r =>
    ComputeInterpolationWeights.loop in_size scale out_size.toNat
      (interpolation.set out_size.toNat { r with lower := 0, upper := 0 })

/-- Function `ComputeLerp`. -/
def ComputeLerp (top_left top_right bottom_left bottom_right x_lerp y_lerp : ℚ) : ℚ :=
  let top := top_left + (top_right - top_left) * x_lerp
  let bottom := bottom_left + (bottom_right - bottom_left) * x_lerp
  top + (bottom - top) * y_lerp

/-! ## The resize loop -/

/-- Body of the `x` loop of `ResizeImage`: four reads, one blend, one write to
`output_ptr[x]`. -/
def ResizeImage.xStep (images : List ℚ) (xs : List CachedInterpolation)
    (ys_input_lower_ptr ys_input_upper_ptr : Int) (ys_lerp : ℚ) (output_ptr : Int)
    (output : List ℚ) (x : Nat) : Option (List ℚ) :=
  match xs[x]? with
  | none => none
  | some cx =>
    match readAt images (ys_input_lower_ptr + cx.lower),
          readAt images (ys_input_lower_ptr + cx.upper),
          readAt images (ys_input_upper_ptr + cx.lower),
          readAt images (ys_input_upper_ptr + cx.upper) with
    | some top_left, some top_right, some bottom_left, some bottom_right =>
      writeAt output (output_ptr + (x : Int))
        (ComputeLerp top_left top_right bottom_left bottom_right cx.lerp ys_lerp)
    | _, _, _, _ => none

/-- Body of the `y` loop of `ResizeImage`.  The loop state is the moving
pointer `output_ptr` together with the output buffer; the body ends with
`output_ptr += out_width`. -/
def ResizeImage.yStep (images : List ℚ) (in_width out_width : Int)
    (xs ys : List CachedInterpolation) (input_ptr : Int)
    (st : Int × List ℚ) (y : Nat) : Option (Int × List ℚ) :=
  match ys[y]? with
  | none => none
  | some cy =>
    match (List.range out_width.toNat).foldlM
        (ResizeImage.xStep images xs (input_ptr + cy.lower * in_width)
          (input_ptr + cy.upper * in_width) cy.lerp st.1) st.2 with
    | none => none
    | some out => some (st.1 + out_width, out)

/-- Body of the collapsed `(b, c)` loops of `ResizeImage`: one channel plane. -/
def ResizeImage.cell (images : List ℚ) (in_height in_width out_height out_width channels : Int)
    (xs ys : List CachedInterpolation) (output : List ℚ) (b c : Nat) : Option (List ℚ) :=
  let in_channel_size := in_height * in_width
  let in_batch_num_values := channels * in_channel_size
  let out_channel_size := out_height * out_width
  let out_batch_num_values := channels * out_channel_size
  let input_ptr := in_batch_num_values * (b : Int) + in_channel_size * (c : Int)
  let output_ptr := out_batch_num_values * (b : Int) + out_channel_size * (c : Int)
  match (List.range out_height.toNat).foldlM
      (ResizeImage.yStep images in_width out_width xs ys input_ptr) (output_ptr, output) with
  | none => none
  | some st => some st.2

/-- Function `ResizeImage`, the cells taken in the sequential order of the loops. -/
def ResizeImage (images : List ℚ) (batch_size in_height in_width out_height out_width
    channels : Int) (xs_vec ys : List CachedInterpolation) (output : List ℚ) :
    Option (List ℚ) :=
  (List.range batch_size.toNat).foldlM
    (fun out b =>
      (List.range channels.toNat).foldlM
        (fun out c =>
          ResizeImage.cell images in_height in_width out_height out_width channels
            xs_vec ys out b c)
        out)
    output

/-! ## Tensors and the functor -/

/-- Modelled from the spec: the `Tensor` class of `mace/core/tensor.h`, which is
not among the sources.  A tensor is a list of dimension extents together with a
contiguous row-major buffer. -/
structure Tensor (α : Type) where
  shape : List Int
  data : List α
deriving DecidableEq, Repr

/-- Modelled from the spec: `Tensor::dim_size`, the rank. -/
def Tensor.dim_size {α : Type} (t : Tensor α) : Int := (t.shape.length : Int)

/-- Modelled from the spec: `Tensor::dim`, the extent of one axis. -/
def Tensor.dim {α : Type} (t : Tensor α) (i : Nat) : Int := t.shape.getD i 0

/-- Number of elements of a shape. -/
def NumElements (shape : List Int) : Int := shape.prod

/-- Modelled from the spec: `Tensor::Resize`.  The shape is replaced; the backing
storage is kept when the number of elements is unchanged and is otherwise a new
buffer of the right length whose contents are whatever the allocator hands out
(`fill`). -/
def Tensor.Resize {α : Type} (fill : Nat → α) (t : Tensor α) (shape : List Int) : Tensor α :=
  if (NumElements shape).toNat = t.data.length then
    { shape := shape, data := t.data }
  else
    { shape := shape, data := (List.range (NumElements shape).toNat).map fill }

/-- Why a call stopped. -/
inductive Failure
  -- MACE_CHECK(resize_dims != nullptr && resize_dims->dim_size() == 1)
  | dimsCheck
  -- MACE_CHECK(out_height > 0 && out_width > 0)
  | sizeCheck
  -- an access outside a buffer
  | outOfRange
deriving DecidableEq, Repr

/-- How a call ended. -/
inductive Status
  | ok
  | failed (why : Failure)
deriving DecidableEq, Repr

/-- Class `ResizeBilinearFunctor`: its two members. -/
structure ResizeBilinearFunctor where
  align_corners_ : Bool
  size_ : List Int
deriving DecidableEq, Repr

/-- Method `ResizeBilinearFunctor::GetOutputSize`.  The condition
`size_[0] < 0 || size_[1] < 0` short-circuits, so `size_[1]` is read only when
`size_[0]` is non-negative. -/
def ResizeBilinearFunctor.GetOutputSize (f : ResizeBilinearFunctor)
    (resize_dims : Option (Tensor Int)) : Except Failure (Int × Int) :=
  let dynamic (_ : Unit) : Except Failure (Int × Int) :=
    match resize_dims with
    | none => .error .dimsCheck
    | some d =>
      if d.dim_size = 1 then
        match d.data[0]?, d.data[1]? with
        | some h, some w => .ok (h, w)
        | _, _ => .error .outOfRange
      else .error .dimsCheck
  match f.size_[0]? with
  | none => .error .outOfRange
  | some s0 =>
    if s0 < 0 then dynamic ()
    else
      match f.size_[1]? with
      | none => .error .outOfRange
      | some s1 => if s1 < 0 then dynamic () else .ok (s0, s1)

/-- The call `std::copy(first, first + n, d_first)`: `n` elements, in order. -/
def stdCopy {α : Type} (src : List α) (n : Int) (dst : List α) : Option (List α) :=
  (List.range n.toNat).foldlM
    (fun (out : List α) (k : Nat) =>
      match readAt src (k : Int) with
      | none => none
      | some v => writeAt out (k : Int) v)
    dst

/-- Method `ResizeBilinearFunctor::operator()` for `T = float` on the CPU device.
The result is how the call ended and the output tensor as the call left it.
`fill` supplies the contents of newly allocated storage.  After an access
outside a buffer the source fixes nothing; the embedding then reports the tensor
as resized. -/
def ResizeBilinearFunctor.operatorCall (fill : Nat → ℚ) (f : ResizeBilinearFunctor)
    (input : Tensor ℚ) (resize_dims : Option (Tensor Int)) (output : Tensor ℚ) :
    Status × Tensor ℚ :=
  let batch := input.dim 0
  let channels := input.dim 1
  let in_height := input.dim 2
  let in_width := input.dim 3
  match f.GetOutputSize resize_dims with
  | .error e => (.failed e, output)
  | .ok (out_height, out_width) =>
    if out_height > 0 ∧ out_width > 0 then
      let resized := output.Resize fill [batch, channels, out_height, out_width]
      if out_height = in_height ∧ out_width = in_width then
        match stdCopy input.data (channels * in_height * in_width) resized.data with
        | none => (.failed .outOfRange, resized)
        | some d => (.ok, { resized with data := d })
      else
        let height_scale := CalculateResizeScale in_height out_height f.align_corners_
        let width_scale := CalculateResizeScale in_width out_width f.align_corners_
        let ys0 := List.replicate (out_height + 1).toNat (CachedInterpolation.mk 0 0 0)
        let xs0 := List.replicate (out_width + 1).toNat (CachedInterpolation.mk 0 0 0)
        match ComputeInterpolationWeights out_height in_height height_scale ys0,
              ComputeInterpolationWeights out_width in_width width_scale xs0 with
        | some ys, some xs =>
          match ResizeImage input.data batch in_height in_width out_height out_width
              channels xs ys resized.data with
          | none => (.failed .outOfRange, resized)
          | some d => (.ok, { resized with data := d })
        | _, _ => (.failed .outOfRange, resized)
    else (.failed .sizeCheck, output)

/-! ## Reference values -/

/-- Element of the input buffer at row `r`, column `q` of plane `(b, c)`, at
the address `ResizeImage` forms for it (`0` when that address is outside the
buffer). -/
def inputAt (images : List ℚ) (in_height in_width channels : Int) (b c : Nat) (r q : Int) : ℚ :=
  (readAt images (channels * (in_height * in_width) * (b : Int)
    + in_height * in_width * (c : Int) + r * in_width + q)).getD 0

/-- Value `ResizeImage` blends for output pixel `(b, c, y, x)`. -/
def ResizeImage.pixelValue (images : List ℚ) (in_height in_width channels : Int)
    (xs ys : List CachedInterpolation) (b c y x : Nat) : ℚ :=
  let cy := ys[y]?.getD ⟨0, 0, 0⟩
  let cx := xs[x]?.getD ⟨0, 0, 0⟩
  ComputeLerp (inputAt images in_height in_width channels b c cy.lower cx.lower)
    (inputAt images in_height in_width channels b c cy.lower cx.upper)
    (inputAt images in_height in_width channels b c cy.upper cx.lower)
    (inputAt images in_height in_width channels b c cy.upper cx.upper)
    cx.lerp cy.lerp

/-- A table whose first `n` records exist and hold indices inside `[0, size)`. -/
def TableInRange (t : List CachedInterpolation) (n size : Nat) : Prop :=
  ∀ i, i < n → ∃ r, t[i]? = some r ∧
    0 ≤ r.lower ∧ r.lower < (size : Int) ∧ 0 ≤ r.upper ∧ r.upper < (size : Int)

/-- The table `operator()` builds for one axis: a zero-initialised vector of
`out_size + 1` records passed through `ComputeInterpolationWeights` with the
scale of `CalculateResizeScale` (empty if a store fell outside the vector). -/
def weightTable (out_size in_size : Int) (align_corners : Bool) : List CachedInterpolation :=
  (ComputeInterpolationWeights out_size in_size
    (CalculateResizeScale in_size out_size align_corners)
    (List.replicate (out_size + 1).toNat (CachedInterpolation.mk 0 0 0))).getD []

/-! ## Schedules -/

/-- The cells `(b, c)` of the two collapsed loops of `ResizeImage`, in the
sequential order of the source. -/
def ResizeImage.cells (batch_size channels : Nat) : List (Nat × Nat) :=
  List.product (List.range batch_size) (List.range channels)

/-- Function `ResizeImage` with the cells of its
`#pragma omp parallel for collapse(2)` loops processed in the order `schedule`. -/
def ResizeImage.scheduled (images : List ℚ) (in_height in_width out_height out_width
    channels : Int) (xs_vec ys : List CachedInterpolation) (output : List ℚ)
    (schedule : List (Nat × Nat)) : Option (List ℚ) :=
  schedule.foldlM
    (fun (out : List ℚ) (p : Nat × Nat) =>
      ResizeImage.cell images in_height in_width out_height out_width channels
        xs_vec ys out p.1 p.2)
    output

/-! ## The kernel in binary32 arithmetic -/

namespace binary32

/-- Power of two `2^e` for an integer exponent. -/
def pow2 (e : Int) : ℚ :=
  if 0 ≤ e then ((2 ^ e.toNat : Nat) : ℚ) else 1 / ((2 ^ (-e).toNat : Nat) : ℚ)

/-- Binary logarithm of a natural number, rounded down, by repeated halving
(`fuel` bounds the number of halvings). -/
def log2Aux : Nat → Nat → Nat
  | 0, _ => 0
  | fuel + 1, n => if n < 2 then 0 else log2Aux fuel (n / 2) + 1

/-- Exponent of a positive rational: the `e` with `2^e ≤ a < 2^(e+1)`. -/
def ilog2 (a : ℚ) : Int :=
  let e0 : Int := (log2Aux a.num.natAbs a.num.natAbs : Int) - (log2Aux a.den a.den : Int)
  if a < pow2 e0 then e0 - 1 else e0

/-- Nearest integer to a non-negative rational, ties to the even one. -/
def roundNearestEven (x : ℚ) : Int :=
  if x - (⌊x⌋ : ℚ) < 1 / 2 then ⌊x⌋
  else if 1 / 2 < x - (⌊x⌋ : ℚ) then ⌊x⌋ + 1
  else if ⌊x⌋ % 2 = 0 then ⌊x⌋ else ⌊x⌋ + 1

/-- A value of the type `float` (IEEE 754 binary32): a finite number, an
infinity with its sign, or a NaN.  The two zeros are identified: the kernel
divides only by converted positive sizes and never tests a sign, so the sign of
a zero can change a result only in the sign of a zero.  Equality of two values
of this type is equality of numbers. -/
inductive F32
  | fin (q : ℚ)
  | inf (negative : Bool)
  | nan
deriving DecidableEq, Repr

/-- Rounding of a real result to binary32, nearest value with ties to even:
24 significant bits, gradual underflow below `2^-126`, overflow to infinity
from `2^128 - 2^103` on. -/
def round32 (q : ℚ) : F32 :=
  if q = 0 then .fin 0
  else
    let p : Int := max (ilog2 |q|) (-126) - 23
    let v : ℚ := (roundNearestEven (|q| / pow2 p) : ℚ) * pow2 p
    if pow2 128 ≤ v then .inf (decide (q < 0))
    else .fin (if q < 0 then -v else v)

/-- Negation. -/
def F32.neg : F32 → F32
  | .fin q => .fin (-q)
  | .inf s => .inf (!s)
  | .nan => .nan

/-- Operator `+` on `float`. -/
def F32.add : F32 → F32 → F32
  | .fin a, .fin b => round32 (a + b)
  | .fin _, .inf s => .inf s
  | .inf s, .fin _ => .inf s
  | .inf s, .inf t => if s = t then .inf s else .nan
  | _, _ => .nan

/-- Operator `-` on `float`. -/
def F32.sub (a b : F32) : F32 := F32.add a (F32.neg b)

/-- Operator `*` on `float`. -/
def F32.mul : F32 → F32 → F32
  | .fin a, .fin b => round32 (a * b)
  | .fin a, .inf s => if a = 0 then .nan else .inf (xor (decide (a < 0)) s)
  | .inf s, .fin b => if b = 0 then .nan else .inf (xor s (decide (b < 0)))
  | .inf s, .inf t => .inf (xor s t)
  | _, _ => .nan

/-- Operator `/` on `float`.  A zero divisor is the conversion of the integer
0, a positive zero. -/
def F32.div : F32 → F32 → F32
  | .fin a, .fin b =>
    if b = 0 then (if a = 0 then .nan else .inf (decide (a < 0))) else round32 (a / b)
  | .fin _, .inf _ => .fin 0
  | .inf s, .fin b => .inf (xor s (decide (b < 0)))
  | _, _ => .nan

/-- Conversion of an `index_t` to `float`. -/
def ofInt (n : Int) : F32 := round32 (n : ℚ)

/-- Conversion `static_cast<index_t>(float)`: truncation toward zero; undefined
(`none`) for a NaN, an infinity, or a value outside the range of `index_t`. -/
def toIndex : F32 → Option Int
  | .fin q =>
    let t : Int := if 0 ≤ q then ⌊q⌋ else ⌈q⌉
    if -(2 ^ 63 : Int) ≤ t ∧ t < (2 ^ 63 : Int) then some t else none
  | _ => none

/-- Record `CachedInterpolation`, the fraction a `float`. -/
structure CachedInterpolation where
  lower : Int
  upper : Int
  lerp : F32
deriving DecidableEq, Repr

/-- Function `CalculateResizeScale`, in `float` arithmetic. -/
def CalculateResizeScale (in_size out_size : Int) (align_corners : Bool) : F32 :=
  if align_corners && decide (out_size > 1) then
    F32.div (ofInt (in_size - 1)) (ofInt (out_size - 1))
  else
    F32.div (ofInt in_size) (ofInt out_size)

/-- The record the loop body of `ComputeInterpolationWeights` stores at index
`i`: `in = i * scale` in `float`, `lower` its conversion to `index_t`. -/
def ComputeInterpolationWeights.entry (in_size : Int) (scale : F32) (i : Nat) :
    Option CachedInterpolation :=
  match toIndex (F32.mul (ofInt (i : Int)) scale) with
  | none => none
  | some lower =>
    some { lower := lower
           upper := min (lower + 1) (in_size - 1)
           lerp := F32.sub (F32.mul (ofInt (i : Int)) scale) (ofInt lower) }

/-- Function `ComputeLerp`, in `float` arithmetic. -/
def ComputeLerp (top_left top_right bottom_left bottom_right x_lerp y_lerp : F32) : F32 :=
  let top := F32.add top_left (F32.mul (F32.sub top_right top_left) x_lerp)
  let bottom := F32.add bottom_left (F32.mul (F32.sub bottom_right bottom_left) x_lerp)
  F32.add top (F32.mul (F32.sub bottom top) y_lerp)

/-- The loop `for (i = out_size - 1; i >= 0; --i)` of
`ComputeInterpolationWeights`, iterations `i = n - 1, ..., 0`. -/
def ComputeInterpolationWeights.loop (in_size : Int) (scale : F32) :
    Nat → List CachedInterpolation → Option (List CachedInterpolation)
  | 0, t => some t
  | i + 1, t =>
    match ComputeInterpolationWeights.entry in_size scale i with
    | none => none
    | some r =>
      if i < t.length then ComputeInterpolationWeights.loop in_size scale i (t.set i r)
      else none

/-- Function `ComputeInterpolationWeights`, in `float` arithmetic. -/
def ComputeInterpolationWeights (out_size in_size : Int) (scale : F32)
    (interpolation : List CachedInterpolation) : Option (List CachedInterpolation) :=
  match readAt interpolation out_size with
  | none => none
  | some r =>
    ComputeInterpolationWeights.loop in_size scale out_size.toNat
      (interpolation.set out_size.toNat { r with lower := 0, upper := 0 })

/-- Function `ComputeInterpolationWeights` with its loop run in ascending order. -/
def ComputeInterpolationWeights.ascending (out_size in_size : Int) (scale : F32)
    (interpolation : List CachedInterpolation) : Option (List CachedInterpolation) :=
  match readAt interpolation out_size with
  | none => none
  | some r =>
    (List.range out_size.toNat).foldlM
      (fun (t : List CachedInterpolation) (i : Nat) =>
        match ComputeInterpolationWeights.entry in_size scale i with
        | none => none
        | some e => if i < t.length then some (t.set i e) else none)
      (interpolation.set out_size.toNat { r with lower := 0, upper := 0 })

/-- Body of the `x` loop of `ResizeImage`. -/
def ResizeImage.xStep (images : List F32) (xs : List CachedInterpolation)
    (ys_input_lower_ptr ys_input_upper_ptr : Int) (ys_lerp : F32) (output_ptr : Int)
    (output : List F32) (x : Nat) : Option (List F32) :=
  match xs[x]? with
  | none => none
  | some cx =>
    match readAt images (ys_input_lower_ptr + cx.lower),
          readAt images (ys_input_lower_ptr + cx.upper),
          readAt images (ys_input_upper_ptr + cx.lower),
          readAt images (ys_input_upper_ptr + cx.upper) with
    | some top_left, some top_right, some bottom_left, some bottom_right =>
      writeAt output (output_ptr + (x : Int))
        (ComputeLerp top_left top_right bottom_left bottom_right cx.lerp ys_lerp)
    | _, _, _, _ => none

/-- Body of the `y` loop of `ResizeImage`. -/
def ResizeImage.yStep (images : List F32) (in_width out_width : Int)
    (xs ys : List CachedInterpolation) (input_ptr : Int)
    (st : Int × List F32) (y : Nat) : Option (Int × List F32) :=
  match ys[y]? with
  | none => none
  | some cy =>
    match (List.range out_width.toNat).foldlM
        (ResizeImage.xStep images xs (input_ptr + cy.lower * in_width)
          (input_ptr + cy.upper * in_width) cy.lerp st.1) st.2 with
    | none => none
    | some out => some (st.1 + out_width, out)

/-- Body of the collapsed `(b, c)` loops of `ResizeImage`. -/
def ResizeImage.cell (images : List F32) (in_height in_width out_height out_width channels : Int)
    (xs ys : List CachedInterpolation) (output : List F32) (b c : Nat) : Option (List F32) :=
  let in_channel_size := in_height * in_width
  let in_batch_num_values := channels * in_channel_size
  let out_channel_size := out_height * out_width
  let out_batch_num_values := channels * out_channel_size
  let input_ptr := in_batch_num_values * (b : Int) + in_channel_size * (c : Int)
  let output_ptr := out_batch_num_values * (b : Int) + out_channel_size * (c : Int)
  match (List.range out_height.toNat).foldlM
      (ResizeImage.yStep images in_width out_width xs ys input_ptr) (output_ptr, output) with
  | none => none
  | some st => some st.2

/-- Function `ResizeImage` on `float` buffers. -/
def ResizeImage (images : List F32) (batch_size in_height in_width out_height out_width
    channels : Int) (xs_vec ys : List CachedInterpolation) (output : List F32) :
    Option (List F32) :=
  (List.range batch_size.toNat).foldlM
    (fun (out : List F32) (b : Nat) =>
      (List.range channels.toNat).foldlM
        (fun (out : List F32) (c : Nat) =>
          ResizeImage.cell images in_height in_width out_height out_width channels
            xs_vec ys out b c)
        out)
    output

/-- Method `ResizeBilinearFunctor::operator()` for `T = float`, in `float`
arithmetic.  Undefined behaviour of the source, an access outside a buffer or a
conversion to `index_t` out of range, ends the call with `Failure.outOfRange`. -/
def operatorCall (fill : Nat → F32) (f : ResizeBilinearFunctor)
    (input : Tensor F32) (resize_dims : Option (Tensor Int)) (output : Tensor F32) :
    Status × Tensor F32 :=
  let batch := input.dim 0
  let channels := input.dim 1
  let in_height := input.dim 2
  let in_width := input.dim 3
  match f.GetOutputSize resize_dims with
  | .error e => (.failed e, output)
  | .ok (out_height, out_width) =>
    if out_height > 0 ∧ out_width > 0 then
      let resized := output.Resize fill [batch, channels, out_height, out_width]
      if out_height = in_height ∧ out_width = in_width then
        match stdCopy input.data (channels * in_height * in_width) resized.data with
        | none => (.failed .outOfRange, resized)
        | some d => (.ok, { resized with data := d })
      else
        let height_scale := CalculateResizeScale in_height out_height f.align_corners_
        let width_scale := CalculateResizeScale in_width out_width f.align_corners_
        let ys0 := List.replicate (out_height + 1).toNat (CachedInterpolation.mk 0 0 (.fin 0))
        let xs0 := List.replicate (out_width + 1).toNat (CachedInterpolation.mk 0 0 (.fin 0))
        match ComputeInterpolationWeights out_height in_height height_scale ys0,
              ComputeInterpolationWeights out_width in_width width_scale xs0 with
        | some ys, some xs =>
          match ResizeImage input.data batch in_height in_width out_height out_width
              channels xs ys resized.data with
          | none => (.failed .outOfRange, resized)
          | some d => (.ok, { resized with data := d })
        | _, _ => (.failed .outOfRange, resized)
    else (.failed .sizeCheck, output)

/-- Element of the input buffer at row `r`, column `q` of plane `(b, c)`, at the
address `ResizeImage` forms for it (`0` when that address is outside the buffer). -/
def inputAt (images : List F32) (in_height in_width channels : Int) (b c : Nat) (r q : Int) :
    F32 :=
  (readAt images (channels * (in_height * in_width) * (b : Int)
    + in_height * in_width * (c : Int) + r * in_width + q)).getD (.fin 0)

/-- Value `ResizeImage` blends for output pixel `(b, c, y, x)`. -/
def ResizeImage.pixelValue (images : List F32) (in_height in_width channels : Int)
    (xs ys : List CachedInterpolation) (b c y x : Nat) : F32 :=
  let cy := ys[y]?.getD ⟨0, 0, .fin 0⟩
  let cx := xs[x]?.getD ⟨0, 0, .fin 0⟩
  ComputeLerp (inputAt images in_height in_width channels b c cy.lower cx.lower)
    (inputAt images in_height in_width channels b c cy.lower cx.upper)
    (inputAt images in_height in_width channels b c cy.upper cx.lower)
    (inputAt images in_height in_width channels b c cy.upper cx.upper)
    cx.lerp cy.lerp

/-- A table whose first `n` records exist and hold indices inside `[0, size)`. -/
def TableInRange (t : List CachedInterpolation) (n size : Nat) : Prop :=
  ∀ i, i < n → ∃ r, t[i]? = some r ∧
    0 ≤ r.lower ∧ r.lower < (size : Int) ∧ 0 ≤ r.upper ∧ r.upper < (size : Int)

/-- The table `operator()` builds for one axis (empty if the build stopped). -/
def weightTable (out_size in_size : Int) (align_corners : Bool) : List CachedInterpolation :=
  (ComputeInterpolationWeights out_size in_size
    (CalculateResizeScale in_size out_size align_corners)
    (List.replicate (out_size + 1).toNat (CachedInterpolation.mk 0 0 (.fin 0)))).getD []

/-- Transpose of a row-major plane of `rows` rows and `cols` columns. -/
def transposePlane (P : List F32) (rows cols : Nat) : List F32 :=
  (List.range (cols * rows)).map (fun k => P.getD ((k % rows) * cols + k / rows) (.fin 0))

/-- Executable form of `TableInRange`. -/
def tableInRangeCheck (t : List CachedInterpolation) (n size : Nat) : Bool :=
  (List.range n).all (fun i =>
    match t[i]? with
    | none => false
    | some r => decide (0 ≤ r.lower ∧ r.lower < (size : Int) ∧ 0 ≤ r.upper ∧ r.upper < (size : Int)))

/-- A sample that is a finite binary32 value of magnitude at most `2 ^ 126`:
the difference of two such samples does not overflow. -/
def F32.tame : F32 → Bool
  | .fin v => decide (round32 v = .fin v) && decide (|v| ≤ (2 : ℚ) ^ (126 : Int))
  | _ => false

end binary32

/-! ## Loops that fill consecutive blocks of a buffer -/

theorem lt_mul_add {a N r H : Nat} (ha : a < N) (hr : r < H) : a * H + r < N * H := by
  have h1 : (a + 1) * H ≤ N * H := Nat.mul_le_mul_right H ha
  have h2 : (a + 1) * H = a * H + H := by ring
  omega

/-- A loop of `n` steps whose step `i` rewrites only block `[p + i*m, p + (i+1)*m)`
of the buffer and establishes `Q i` there: the loop succeeds, every `Q i` holds at
the end, and nothing outside `[p, p + n*m)` has changed. -/
theorem foldlM_range_blocks {α : Type} (step : List α → Nat → Option (List α))
    (L p m : Nat) (Q : Nat → List α → Prop)
    (hQ : ∀ i o o', Q i o →
      (∀ j, p + i * m ≤ j → j < p + (i + 1) * m → o'[j]? = o[j]?) → Q i o')
    (n : Nat)
    (hstep : ∀ i, i < n → ∀ o : List α, o.length = L →
      ∃ o', step o i = some o' ∧ o'.length = L ∧ Q i o' ∧
        ∀ j, (j < p + i * m ∨ p + (i + 1) * m ≤ j) → o'[j]? = o[j]?)
    (o : List α) (ho : o.length = L) :
    ∃ o', (List.range n).foldlM step o = some o' ∧ o'.length = L ∧
      (∀ i, i < n → Q i o') ∧ ∀ j, (j < p ∨ p + n * m ≤ j) → o'[j]? = o[j]? := by
  induction n with
  | zero => exact ⟨o, by simp, ho, by intro i hi; omega, by intro j _; rfl⟩
  | succ n ih =>
    obtain ⟨o1, hfold, hlen1, hQ1, hframe1⟩ := ih (fun i hi => hstep i (by omega))
    obtain ⟨o2, hs, hlen2, hQ2, hframe2⟩ := hstep n (by omega) o1 hlen1
    have hmul : (n + 1) * m = n * m + m := by ring
    refine ⟨o2, ?_, hlen2, ?_, ?_⟩
    · rw [List.range_succ, List.foldlM_append, hfold]
      simpa using hs
    · intro i hi
      by_cases hin : i = n
      · subst hin; exact hQ2
      · have hlt : i < n := by omega
        have hb : (i + 1) * m ≤ n * m := Nat.mul_le_mul_right m hlt
        exact hQ i o1 o2 (hQ1 i hlt) (fun j _ hj => hframe2 j (Or.inl (by omega)))
    · intro j hj
      rw [hframe2 j (by omega), hframe1 j (by omega)]

/-! ## Reads and writes inside the buffers -/

theorem readAt_natCast {α : Type} (buf : List α) (k : Nat) : readAt buf (k : Int) = buf[k]? := by
  simp [readAt]

theorem writeAt_natCast {α : Type} (buf : List α) (k : Nat) (v : α) (hk : k < buf.length) :
    writeAt buf (k : Int) v = some (buf.set k v) := by
  simp [writeAt, hk]

/-- Inside the input buffer the kernel's address is a valid one: the read
returns the element `inputAt` names. -/
theorem readAt_inputAt (images : List ℚ) (B C H W b c : Nat) (r q : Int)
    (himg : B * C * H * W ≤ images.length) (hb : b < B) (hc : c < C)
    (hr0 : 0 ≤ r) (hr : r < (H : Int)) (hq0 : 0 ≤ q) (hq : q < (W : Int)) :
    readAt images ((C : Int) * ((H : Int) * (W : Int)) * (b : Int)
        + (H : Int) * (W : Int) * (c : Int) + r * (W : Int) + q)
      = some (inputAt images H W C b c r q) := by
  obtain ⟨r', rfl⟩ := Int.eq_ofNat_of_zero_le hr0
  obtain ⟨q', rfl⟩ := Int.eq_ofNat_of_zero_le hq0
  have hr' : r' < H := by exact_mod_cast hr
  have hq' : q' < W := by exact_mod_cast hq
  have hidx : (C : Int) * ((H : Int) * (W : Int)) * (b : Int)
        + (H : Int) * (W : Int) * (c : Int) + (r' : Int) * (W : Int) + (q' : Int)
      = ((((b * C + c) * H + r') * W + q' : Nat) : Int) := by
    push_cast; ring
  have hlt : ((b * C + c) * H + r') * W + q' < B * C * H * W :=
    lt_mul_add (lt_mul_add (lt_mul_add hb hc) hr') hq'
  unfold inputAt
  rw [hidx, readAt_natCast, List.getElem?_eq_getElem (by omega)]
  rfl

/-! ## The loops of `ResizeImage` -/

/-- The `x` loop fills one output row of `w` pixels starting at offset `p`. -/
theorem xLoop_spec (images : List ℚ) (B C H W w : Nat) (xs : List CachedInterpolation)
    (b c : Nat) (cy : CachedInterpolation)
    (himg : B * C * H * W ≤ images.length) (hb : b < B) (hc : c < C)
    (hxs : TableInRange xs w W)
    (hl0 : 0 ≤ cy.lower) (hl : cy.lower < (H : Int))
    (hu0 : 0 ≤ cy.upper) (hu : cy.upper < (H : Int))
    (p L : Nat) (hp : p + w ≤ L) (o : List ℚ) (ho : o.length = L) :
    ∃ o', (List.range w).foldlM
        (ResizeImage.xStep images xs
          ((C : Int) * ((H : Int) * (W : Int)) * (b : Int) + (H : Int) * (W : Int) * (c : Int)
            + cy.lower * (W : Int))
          ((C : Int) * ((H : Int) * (W : Int)) * (b : Int) + (H : Int) * (W : Int) * (c : Int)
            + cy.upper * (W : Int))
          cy.lerp (p : Int)) o = some o' ∧
      o'.length = L ∧
      (∀ x, x < w → o'[p + x]? = some
        (ComputeLerp
          (inputAt images H W C b c cy.lower (xs[x]?.getD ⟨0, 0, 0⟩).lower)
          (inputAt images H W C b c cy.lower (xs[x]?.getD ⟨0, 0, 0⟩).upper)
          (inputAt images H W C b c cy.upper (xs[x]?.getD ⟨0, 0, 0⟩).lower)
          (inputAt images H W C b c cy.upper (xs[x]?.getD ⟨0, 0, 0⟩).upper)
          (xs[x]?.getD ⟨0, 0, 0⟩).lerp cy.lerp)) ∧
      ∀ j, (j < p ∨ p + w ≤ j) → o'[j]? = o[j]? := by
  have key := foldlM_range_blocks
    (ResizeImage.xStep images xs
      ((C : Int) * ((H : Int) * (W : Int)) * (b : Int) + (H : Int) * (W : Int) * (c : Int)
        + cy.lower * (W : Int))
      ((C : Int) * ((H : Int) * (W : Int)) * (b : Int) + (H : Int) * (W : Int) * (c : Int)
        + cy.upper * (W : Int))
      cy.lerp (p : Int)) L p 1
    (fun x o' => o'[p + x]? = some
        (ComputeLerp
          (inputAt images H W C b c cy.lower (xs[x]?.getD ⟨0, 0, 0⟩).lower)
          (inputAt images H W C b c cy.lower (xs[x]?.getD ⟨0, 0, 0⟩).upper)
          (inputAt images H W C b c cy.upper (xs[x]?.getD ⟨0, 0, 0⟩).lower)
          (inputAt images H W C b c cy.upper (xs[x]?.getD ⟨0, 0, 0⟩).upper)
          (xs[x]?.getD ⟨0, 0, 0⟩).lerp cy.lerp))
    (by
      intro i o1 o2 h hsame
      rw [hsame (p + i) (by omega) (by omega)]
      exact h)
    w
    (by
      intro x hx o1 ho1
      obtain ⟨cx, hcx, hxl0, hxl, hxu0, hxu⟩ := hxs x hx
      have hpx : p + x < o1.length := by omega
      have hcast : (p : Int) + (x : Int) = ((p + x : Nat) : Int) := by push_cast; rfl
      refine ⟨o1.set (p + x) (ComputeLerp
          (inputAt images H W C b c cy.lower cx.lower)
          (inputAt images H W C b c cy.lower cx.upper)
          (inputAt images H W C b c cy.upper cx.lower)
          (inputAt images H W C b c cy.upper cx.upper) cx.lerp cy.lerp),
        ?_, by simp [ho1], ?_, ?_⟩
      · simp only [ResizeImage.xStep, hcx,
          readAt_inputAt images B C H W b c cy.lower cx.lower himg hb hc hl0 hl hxl0 hxl,
          readAt_inputAt images B C H W b c cy.lower cx.upper himg hb hc hl0 hl hxu0 hxu,
          readAt_inputAt images B C H W b c cy.upper cx.lower himg hb hc hu0 hu hxl0 hxl,
          readAt_inputAt images B C H W b c cy.upper cx.upper himg hb hc hu0 hu hxu0 hxu]
        rw [hcast, writeAt_natCast _ _ _ hpx]
      · beta_reduce
        simp only [hcx, Option.getD_some]
        exact List.getElem?_set_self hpx
      · intro j hj
        rw [List.getElem?_set_ne (by omega)])
    o ho
  obtain ⟨o', h1, h2, h3, h4⟩ := key
  exact ⟨o', h1, h2, h3, fun j hj => h4 j (by omega)⟩

/-- The moving pointer of the `y` loop: at iteration `y` it is the start value
plus `y * out_width`. -/
theorem yLoop_eq (images : List ℚ) (in_width out_width : Int)
    (xs ys : List CachedInterpolation) (input_ptr : Int) (n : Nat) (ptr : Int) (o : List ℚ) :
    (List.range n).foldlM (ResizeImage.yStep images in_width out_width xs ys input_ptr) (ptr, o)
      = Option.map (fun o' => (ptr + (n : Int) * out_width, o'))
          ((List.range n).foldlM
            (fun (o' : List ℚ) (y : Nat) => Option.map Prod.snd
              (ResizeImage.yStep images in_width out_width xs ys input_ptr
                (ptr + (y : Int) * out_width, o') y)) o) := by
  induction n with
  | zero => simp
  | succ n ih =>
    rw [List.range_succ, List.foldlM_append, List.foldlM_append, ih]
    cases hX : (List.range n).foldlM
        (fun (o' : List ℚ) (y : Nat) => Option.map Prod.snd
          (ResizeImage.yStep images in_width out_width xs ys input_ptr
            (ptr + (y : Int) * out_width, o') y)) o with
    | none => simp
    | some o1 =>
      have hptr : ptr + (n : Int) * out_width + out_width
          = ptr + ((n + 1 : Nat) : Int) * out_width := by push_cast; ring
      cases hcy : ys[n]? with
      | none => simp [ResizeImage.yStep, hcy]
      | some cy =>
        cases hrow : (List.range out_width.toNat).foldlM
            (ResizeImage.xStep images xs (input_ptr + cy.lower * in_width)
              (input_ptr + cy.upper * in_width) cy.lerp (ptr + (n : Int) * out_width)) o1 with
        | none => simp [ResizeImage.yStep, hcy, hrow]
        | some o2 => simp [ResizeImage.yStep, hcy, hrow, hptr]

/-- One `(b, c)` cell fills output plane `(b, c)` with the blended values and
changes nothing else. -/
theorem cell_spec (images : List ℚ) (B C H W h w : Nat) (xs ys : List CachedInterpolation)
    (himg : B * C * H * W ≤ images.length)
    (hxs : TableInRange xs w W) (hys : TableInRange ys h H)
    (b c : Nat) (hb : b < B) (hc : c < C)
    (L : Nat) (hL : B * C * h * w ≤ L) (o : List ℚ) (ho : o.length = L) :
    ∃ o', ResizeImage.cell images H W h w C xs ys o b c = some o' ∧ o'.length = L ∧
      (∀ y, y < h → ∀ x, x < w → o'[(b * C + c) * (h * w) + y * w + x]? =
        some (ResizeImage.pixelValue images H W C xs ys b c y x)) ∧
      ∀ j, (j < (b * C + c) * (h * w) ∨ (b * C + c) * (h * w) + h * w ≤ j) →
        o'[j]? = o[j]? := by
  have hbc : b * C + c < B * C := lt_mul_add hb hc
  have hpL : (b * C + c) * (h * w) + h * w ≤ L := by
    have h1 : (b * C + c + 1) * (h * w) ≤ B * C * (h * w) := Nat.mul_le_mul_right _ hbc
    have h2 : (b * C + c + 1) * (h * w) = (b * C + c) * (h * w) + h * w := by ring
    have h3 : B * C * (h * w) = B * C * h * w := by ring
    omega
  have hptr : (C : Int) * ((h : Int) * (w : Int)) * (b : Int) + (h : Int) * (w : Int) * (c : Int)
      = (((b * C + c) * (h * w) : Nat) : Int) := by push_cast; ring
  have key := foldlM_range_blocks
    (fun (o' : List ℚ) (y : Nat) => Option.map Prod.snd
      (ResizeImage.yStep images (W : Int) (w : Int) xs ys
        ((C : Int) * ((H : Int) * (W : Int)) * (b : Int) + (H : Int) * (W : Int) * (c : Int))
        ((((b * C + c) * (h * w) : Nat) : Int) + (y : Int) * (w : Int), o') y))
    L ((b * C + c) * (h * w)) w
    (fun y o' => ∀ x, x < w → o'[(b * C + c) * (h * w) + y * w + x]? =
        some (ResizeImage.pixelValue images H W C xs ys b c y x))
    (by
      intro i o1 o2 hq hsame x hx
      rw [hsame _ (by omega) (by
        have : (i + 1) * w = i * w + w := by ring
        omega)]
      exact hq x hx)
    h
    (by
      intro y hy o1 ho1
      obtain ⟨cy, hcy, hl0, hl, hu0, hu⟩ := hys y hy
      have hyw : (b * C + c) * (h * w) + y * w + w ≤ L := by
        have h1 : (y + 1) * w ≤ h * w := Nat.mul_le_mul_right w hy
        have h2 : (y + 1) * w = y * w + w := by ring
        omega
      obtain ⟨o2, hrow, hlen2, hval, hframe⟩ :=
        xLoop_spec images B C H W w xs b c cy himg hb hc hxs hl0 hl hu0 hu
          ((b * C + c) * (h * w) + y * w) L hyw o1 ho1
      have hcast : (((b * C + c) * (h * w) : Nat) : Int) + (y : Int) * (w : Int)
          = (((b * C + c) * (h * w) + y * w : Nat) : Int) := by push_cast; ring
      refine ⟨o2, ?_, hlen2, ?_, ?_⟩
      · simp only [ResizeImage.yStep, hcy, Int.toNat_natCast]
        rw [hcast, hrow]
        rfl
      · intro x hx
        rw [hval x hx]
        simp only [ResizeImage.pixelValue, hcy, Option.getD_some]
      · intro j hj
        apply hframe
        have : (y + 1) * w = y * w + w := by ring
        omega)
    o ho
  obtain ⟨o', hfold, hlen, hQ, hframe⟩ := key
  refine ⟨o', ?_, hlen, fun y hy x hx => hQ y hy x hx, hframe⟩
  simp only [ResizeImage.cell, Int.toNat_natCast]
  rw [hptr, yLoop_eq, hfold]
  rfl

/-- The inner `c` loop of `ResizeImage` for one batch index `b`. -/
theorem channelLoop_spec (images : List ℚ) (B C H W h w : Nat)
    (xs ys : List CachedInterpolation)
    (himg : B * C * H * W ≤ images.length)
    (hxs : TableInRange xs w W) (hys : TableInRange ys h H)
    (b : Nat) (hb : b < B)
    (L : Nat) (hL : B * C * h * w ≤ L) (o : List ℚ) (ho : o.length = L) :
    ∃ o', (List.range C).foldlM
        (fun out c => ResizeImage.cell images H W h w C xs ys out b c) o = some o' ∧
      o'.length = L ∧
      (∀ c, c < C → ∀ y, y < h → ∀ x, x < w → o'[(b * C + c) * (h * w) + y * w + x]? =
        some (ResizeImage.pixelValue images H W C xs ys b c y x)) ∧
      ∀ j, (j < b * (C * (h * w)) ∨ b * (C * (h * w)) + C * (h * w) ≤ j) →
        o'[j]? = o[j]? := by
  have hbase : ∀ c, (b * C + c) * (h * w) = b * (C * (h * w)) + c * (h * w) := by
    intro c; ring
  have hsucc : ∀ c, (c + 1) * (h * w) = c * (h * w) + h * w := by intro c; ring
  have key := foldlM_range_blocks
    (fun out c => ResizeImage.cell images H W h w C xs ys out b c)
    L (b * (C * (h * w))) (h * w)
    (fun c o' => ∀ y, y < h → ∀ x, x < w → o'[(b * C + c) * (h * w) + y * w + x]? =
        some (ResizeImage.pixelValue images H W C xs ys b c y x))
    (by
      intro c o1 o2 hq hsame y hy x hx
      have hyx : y * w + x < h * w := lt_mul_add hy hx
      have h1 := hbase c
      have h2 := hsucc c
      rw [hsame _ (by omega) (by omega)]
      exact hq y hy x hx)
    C
    (by
      intro c hc o1 ho1
      obtain ⟨o2, hcell, hlen2, hval, hframe⟩ :=
        cell_spec images B C H W h w xs ys himg hxs hys b c hb hc L hL o1 ho1
      refine ⟨o2, hcell, hlen2, hval, ?_⟩
      intro j hj
      have h1 := hbase c
      have h2 := hsucc c
      exact hframe j (by omega))
    o ho
  obtain ⟨o', hfold, hlen, hQ, hframe⟩ := key
  exact ⟨o', hfold, hlen, hQ, fun j hj => hframe j (by
    have : C * (h * w) = C * (h * w) := rfl
    omega)⟩

/-- Function `ResizeImage` on tables whose indices are in range: it returns a
buffer, of the length it was given, in which output pixel `(b, c, y, x)` holds
the blended value, and in which nothing past the `B*C*h*w` output elements has
changed. -/
theorem ResizeImage_spec (images : List ℚ) (B C H W h w : Nat)
    (xs ys : List CachedInterpolation)
    (himg : B * C * H * W ≤ images.length)
    (hxs : TableInRange xs w W) (hys : TableInRange ys h H)
    (o : List ℚ) (hL : B * C * h * w ≤ o.length) :
    ∃ o', ResizeImage images B H W h w C xs ys o = some o' ∧ o'.length = o.length ∧
      (∀ b, b < B → ∀ c, c < C → ∀ y, y < h → ∀ x, x < w →
        o'[((b * C + c) * h + y) * w + x]? =
          some (ResizeImage.pixelValue images H W C xs ys b c y x)) ∧
      ∀ j, B * C * h * w ≤ j → o'[j]? = o[j]? := by
  have hsucc : ∀ b, (b + 1) * (C * (h * w)) = b * (C * (h * w)) + C * (h * w) := by
    intro b; ring
  have hidx : ∀ b c y x, ((b * C + c) * h + y) * w + x
      = b * (C * (h * w)) + (c * (h * w) + y * w + x) := by
    intro b c y x; ring
  have hidx2 : ∀ b c y x, (b * C + c) * (h * w) + y * w + x
      = b * (C * (h * w)) + (c * (h * w) + y * w + x) := by
    intro b c y x; ring
  have hin : ∀ c y x, c < C → y < h → x < w → c * (h * w) + y * w + x < C * (h * w) := by
    intro c y x hc hy hx
    have h1 : c * (h * w) + (y * w + x) < C * (h * w) := lt_mul_add hc (lt_mul_add hy hx)
    omega
  have key := foldlM_range_blocks
    (fun out b => (List.range C).foldlM
      (fun out c => ResizeImage.cell images H W h w C xs ys out b c) out)
    o.length 0 (C * (h * w))
    (fun b o' => ∀ c, c < C → ∀ y, y < h → ∀ x, x < w →
      o'[((b * C + c) * h + y) * w + x]? =
        some (ResizeImage.pixelValue images H W C xs ys b c y x))
    (by
      intro b o1 o2 hq hsame c hc y hy x hx
      have h1 := hidx b c y x
      have h2 := hin c y x hc hy hx
      have h3 := hsucc b
      rw [hsame _ (by omega) (by omega)]
      exact hq c hc y hy x hx)
    B
    (by
      intro b hb o1 ho1
      obtain ⟨o2, hloop, hlen2, hval, hframe⟩ :=
        channelLoop_spec images B C H W h w xs ys himg hxs hys b hb o.length hL o1 ho1
      refine ⟨o2, hloop, hlen2, ?_, ?_⟩
      · intro c hc y hy x hx
        have h1 := hidx b c y x
        have h2 := hidx2 b c y x
        rw [h1, ← h2]
        exact hval c hc y hy x hx
      · intro j hj
        have h3 := hsucc b
        exact hframe j (by omega))
    o rfl
  obtain ⟨o', hfold, hlen, hQ, hframe⟩ := key
  refine ⟨o', ?_, hlen, hQ, ?_⟩
  · simpa only [ResizeImage, Int.toNat_natCast] using hfold
  · intro j hj
    have h1 : B * (C * (h * w)) = B * C * h * w := by ring
    exact hframe j (by omega)

/-! ## The interpolation tables -/

/-- The loop of `ComputeInterpolationWeights` stores `entry i` at every index
below `n` and leaves the rest of the table alone. -/
theorem ComputeInterpolationWeights.loop_spec (in_size : Int) (scale : ℚ) (n : Nat) :
    ∀ t : List CachedInterpolation, n ≤ t.length →
      ∃ t', ComputeInterpolationWeights.loop in_size scale n t = some t' ∧
        t'.length = t.length ∧
        (∀ i, i < n → t'[i]? = some (ComputeInterpolationWeights.entry in_size scale i)) ∧
        ∀ j, n ≤ j → t'[j]? = t[j]? := by
  induction n with
  | zero =>
    intro t _
    exact ⟨t, rfl, rfl, by intro i hi; omega, by intro j _; rfl⟩
  | succ n ih =>
    intro t ht
    have hn : n < t.length := by omega
    obtain ⟨t', hloop, hlen, hval, hframe⟩ :=
      ih (t.set n (ComputeInterpolationWeights.entry in_size scale n)) (by simp; omega)
    refine ⟨t', ?_, by simpa using hlen, ?_, ?_⟩
    · simp only [ComputeInterpolationWeights.loop, hn, if_true]
      exact hloop
    · intro i hi
      by_cases hin : i = n
      · subst hin
        rw [hframe i (le_refl i)]
        exact List.getElem?_set_self hn
      · exact hval i (by omega)
    · intro j hj
      rw [hframe j (by omega), List.getElem?_set_ne (by omega)]

/-- Function `ComputeInterpolationWeights` on a table of at least `n + 1`
records: it returns a table of the same length holding `entry i` at every
`i < n` and, at index `n`, the old record with `lower` and `upper` set to 0. -/
theorem ComputeInterpolationWeights_spec (n : Nat) (in_size : Int) (scale : ℚ)
    (t : List CachedInterpolation) (ht : n + 1 ≤ t.length) :
    ∃ t' r, ComputeInterpolationWeights (n : Int) in_size scale t = some t' ∧
      t'.length = t.length ∧ t[n]? = some r ∧
      (∀ i, i < n → t'[i]? = some (ComputeInterpolationWeights.entry in_size scale i)) ∧
      t'[n]? = some { r with lower := 0, upper := 0 } ∧
      ∀ j, n < j → t'[j]? = t[j]? := by
  have hn : n < t.length := by omega
  obtain ⟨t', hloop, hlen, hval, hframe⟩ :=
    ComputeInterpolationWeights.loop_spec in_size scale n
      (t.set n { t[n] with lower := 0, upper := 0 }) (by simp; omega)
  refine ⟨t', t[n], ?_, by simpa using hlen, List.getElem?_eq_getElem hn, hval, ?_, ?_⟩
  · simp only [ComputeInterpolationWeights, readAt_natCast, List.getElem?_eq_getElem hn,
      Int.toNat_natCast]
    exact hloop
  · rw [hframe n (le_refl n)]
    exact List.getElem?_set_self hn
  · intro j hj
    rw [hframe j (by omega), List.getElem?_set_ne (by omega)]

/-- In exact arithmetic, with the scale of `CalculateResizeScale`, the source
coordinate `i * scale` of every output index `i < out_size` lies in
`[0, in_size)`. -/
theorem source_coordinate_range (in_size out_size : Int) (align_corners : Bool)
    (hin : 1 ≤ in_size) (hout : 1 ≤ out_size) (i : Nat) (hi : (i : Int) < out_size) :
    0 ≤ (i : ℚ) * CalculateResizeScale in_size out_size align_corners ∧
      (i : ℚ) * CalculateResizeScale in_size out_size align_corners < (in_size : ℚ) := by
  have hinq : (1 : ℚ) ≤ (in_size : ℚ) := by exact_mod_cast hin
  have houtq : (1 : ℚ) ≤ (out_size : ℚ) := by exact_mod_cast hout
  have hiq : (i : ℚ) + 1 ≤ (out_size : ℚ) := by
    have : (i : Int) + 1 ≤ out_size := by omega
    exact_mod_cast this
  have hi0 : (0 : ℚ) ≤ (i : ℚ) := Nat.cast_nonneg i
  unfold CalculateResizeScale
  split
  · rename_i hc
    simp only [Bool.and_eq_true, decide_eq_true_eq] at hc
    have hd : (0 : ℚ) < ((out_size - 1 : Int) : ℚ) := by
      have : (0 : Int) < out_size - 1 := by omega
      exact_mod_cast this
    have ha : (0 : ℚ) ≤ ((in_size - 1 : Int) : ℚ) := by
      have : (0 : Int) ≤ in_size - 1 := by omega
      exact_mod_cast this
    have hid : (i : ℚ) ≤ ((out_size - 1 : Int) : ℚ) := by
      push_cast; linarith
    have hle : (i : ℚ) * (((in_size - 1 : Int) : ℚ) / ((out_size - 1 : Int) : ℚ))
        ≤ ((in_size - 1 : Int) : ℚ) := by
      rw [← mul_div_assoc, div_le_iff₀ hd]
      nlinarith
    refine ⟨mul_nonneg hi0 (div_nonneg ha hd.le), ?_⟩
    have : ((in_size - 1 : Int) : ℚ) < (in_size : ℚ) := by push_cast; linarith
    linarith
  · have hd : (0 : ℚ) < (out_size : ℚ) := by linarith
    refine ⟨mul_nonneg hi0 (div_nonneg (by linarith) hd.le), ?_⟩
    rw [← mul_div_assoc, div_lt_iff₀ hd]
    nlinarith

/-- In exact arithmetic: bounds on the record the table loop stores for an
output index, when the scale is the one `CalculateResizeScale` gives. -/
theorem entry_bounds (in_size out_size : Int) (align_corners : Bool)
    (hin : 1 ≤ in_size) (hout : 1 ≤ out_size) (i : Nat) (hi : (i : Int) < out_size) :
    let r := ComputeInterpolationWeights.entry in_size
      (CalculateResizeScale in_size out_size align_corners) i
    0 ≤ r.lerp ∧ r.lerp < 1 ∧ 0 ≤ r.lower ∧ r.lower ≤ r.upper ∧ r.upper ≤ in_size - 1 ∧
      (r.upper - r.lower = 0 ∨ r.upper - r.lower = 1) := by
  obtain ⟨h0, hlt⟩ := source_coordinate_range in_size out_size align_corners hin hout i hi
  intro r
  have htr : truncToIndex ((i : ℚ) * CalculateResizeScale in_size out_size align_corners)
      = ⌊(i : ℚ) * CalculateResizeScale in_size out_size align_corners⌋ := by
    simp [truncToIndex, h0]
  have hlow : r.lower = ⌊(i : ℚ) * CalculateResizeScale in_size out_size align_corners⌋ := htr
  have hup : r.upper = min (r.lower + 1) (in_size - 1) := rfl
  have hlerp : r.lerp = (i : ℚ) * CalculateResizeScale in_size out_size align_corners
      - (r.lower : ℚ) := rfl
  have hl0 : 0 ≤ r.lower := by rw [hlow]; exact Int.floor_nonneg.mpr h0
  have hl1 : r.lower < in_size := by rw [hlow]; exact Int.floor_lt.mpr hlt
  refine ⟨?_, ?_, hl0, ?_, ?_, ?_⟩
  · rw [hlerp, hlow]
    linarith [Int.floor_le ((i : ℚ) * CalculateResizeScale in_size out_size align_corners)]
  · rw [hlerp, hlow]
    linarith [Int.lt_floor_add_one ((i : ℚ) * CalculateResizeScale in_size out_size align_corners)]
  · rw [hup]; omega
  · rw [hup]; omega
  · rw [hup]; omega

/-- The table built for an axis with `1 ≤ in_size` and `n ≥ 1` outputs: the
build succeeds, the table has `n + 1` records, record `i < n` is `entry i`, and
record `n` is the all-zero sentinel. -/
theorem weightTable_spec (n : Nat) (in_size : Int) (align_corners : Bool) :
    ComputeInterpolationWeights (n : Int) in_size
        (CalculateResizeScale in_size n align_corners)
        (List.replicate ((n : Int) + 1).toNat (CachedInterpolation.mk 0 0 0))
      = some (weightTable n in_size align_corners) ∧
    (weightTable n in_size align_corners).length = n + 1 ∧
    (∀ i, i < n → (weightTable n in_size align_corners)[i]? =
      some (ComputeInterpolationWeights.entry in_size
        (CalculateResizeScale in_size n align_corners) i)) ∧
    (weightTable n in_size align_corners)[n]? = some ⟨0, 0, 0⟩ := by
  have hlen : ((n : Int) + 1).toNat = n + 1 := by omega
  obtain ⟨t', r, hrun, hlen', hr, hval, hsent, _⟩ :=
    ComputeInterpolationWeights_spec n in_size (CalculateResizeScale in_size n align_corners)
      (List.replicate ((n : Int) + 1).toNat (CachedInterpolation.mk 0 0 0))
      (by simp [hlen])
  have hr' : r = ⟨0, 0, 0⟩ := by
    rw [List.getElem?_replicate] at hr
    split at hr
    · exact (Option.some.inj hr).symm
    · exact absurd hr (by simp)
  have htab : weightTable n in_size align_corners = t' := by
    unfold weightTable
    rw [hrun]
    rfl
  rw [htab]
  refine ⟨hrun, by simpa [hlen] using hlen', hval, ?_⟩
  rw [hsent, hr']

/-- In exact arithmetic the table built for an axis holds, in its first `n`
records, indices inside the source axis (for binary32 see
`binary32.weightTable_inRange32`). -/
theorem weightTable_inRange (n N : Nat) (align_corners : Bool) (hN : 1 ≤ N) (hn : 1 ≤ n) :
    TableInRange (weightTable n N align_corners) n N := by
  intro i hi
  obtain ⟨_, _, hval, _⟩ := weightTable_spec n (N : Int) align_corners
  have hb := entry_bounds (N : Int) (n : Int) align_corners (by exact_mod_cast hN)
    (by exact_mod_cast hn) i (by exact_mod_cast hi)
  obtain ⟨_, _, h1, h2, h3, _⟩ := hb
  exact ⟨_, hval i hi, h1, by omega, by omega, by omega⟩

theorem Resize_length {α : Type} (fill : Nat → α) (t : Tensor α) (shape : List Int) :
    (t.Resize fill shape).data.length = (NumElements shape).toNat := by
  unfold Tensor.Resize
  split
  · rename_i h; exact h.symm
  · simp

theorem NumElements_four (B C h w : Nat) :
    (NumElements [(B : Int), (C : Int), (h : Int), (w : Int)]).toNat = B * C * h * w := by
  have : NumElements [(B : Int), (C : Int), (h : Int), (w : Int)]
      = ((B * C * h * w : Nat) : Int) := by
    simp [NumElements, mul_assoc]
  rw [this, Int.toNat_natCast]

/-- The interpolation path of `operator()` in exact arithmetic.  For a rank-4
input whose buffer holds its `B*C*H*W` elements, with `H, W ≥ 1`, and a
resolved size `(h, w)`,
`h, w ≥ 1`, different from `(H, W)`: the call succeeds, the output has shape
`(B, C, h, w)` and `B*C*h*w` elements, and element `(b, c, y, x)` is the blend
of the four input samples the two axis tables select. -/
theorem operatorCall_interp (fill : Nat → ℚ) (f : ResizeBilinearFunctor)
    (B C H W h w : Nat) (data : List ℚ) (resize_dims : Option (Tensor Int))
    (output : Tensor ℚ)
    (hH : 1 ≤ H) (hW : 1 ≤ W) (hh : 1 ≤ h) (hw : 1 ≤ w) (hne : ¬ (h = H ∧ w = W))
    (hdata : B * C * H * W ≤ data.length)
    (hres : f.GetOutputSize resize_dims = .ok ((h : Int), (w : Int))) :
    ∃ d, f.operatorCall fill ⟨[(B : Int), (C : Int), (H : Int), (W : Int)], data⟩
          resize_dims output
        = (Status.ok, ⟨[(B : Int), (C : Int), (h : Int), (w : Int)], d⟩) ∧
      d.length = B * C * h * w ∧
      ∀ b, b < B → ∀ c, c < C → ∀ y, y < h → ∀ x, x < w →
        d[((b * C + c) * h + y) * w + x]? =
          some (ResizeImage.pixelValue data H W C (weightTable w W f.align_corners_)
            (weightTable h H f.align_corners_) b c y x) := by
  have hlen : ((output.Resize fill [(B : Int), (C : Int), (h : Int), (w : Int)]).data).length
      = B * C * h * w := by
    rw [Resize_length, NumElements_four]
  obtain ⟨hys, _, _, _⟩ := weightTable_spec h (H : Int) f.align_corners_
  obtain ⟨hxs, _, _, _⟩ := weightTable_spec w (W : Int) f.align_corners_
  obtain ⟨d, hrun, hdlen, hval, _⟩ :=
    ResizeImage_spec data B C H W h w (weightTable w W f.align_corners_)
      (weightTable h H f.align_corners_) hdata
      (weightTable_inRange w W f.align_corners_ hW hw)
      (weightTable_inRange h H f.align_corners_ hH hh)
      (output.Resize fill [(B : Int), (C : Int), (h : Int), (w : Int)]).data
      (by rw [hlen])
  have hpos : (h : Int) > 0 ∧ (w : Int) > 0 := by
    constructor <;> exact_mod_cast (by omega : 0 < _)
  have hne' : ¬ ((h : Int) = (H : Int) ∧ (w : Int) = (W : Int)) := by
    rintro ⟨h1, h2⟩
    exact hne ⟨by exact_mod_cast h1, by exact_mod_cast h2⟩
  refine ⟨d, ?_, by rw [hdlen, hlen], hval⟩
  simp only [ResizeBilinearFunctor.operatorCall, hres, Tensor.dim, List.getD_cons_zero,
    List.getD_cons_succ, if_pos hpos, if_neg hne', hys, hxs, hrun]
  congr 1
  simp [Tensor.Resize]
  split <;> rfl

/-! ## The equal-size copy -/

/-- The call `std::copy` of `n` elements, when both buffers hold at least `n`:
the first `n` destination elements become the source's, the rest stay. -/
theorem stdCopy_spec {α : Type} (src dst : List α) (n : Nat)
    (hsrc : n ≤ src.length) (hdst : n ≤ dst.length) :
    ∃ d, stdCopy src (n : Int) dst = some d ∧ d.length = dst.length ∧
      (∀ k, k < n → d[k]? = src[k]?) ∧ ∀ j, n ≤ j → d[j]? = dst[j]? := by
  have key := foldlM_range_blocks
    (fun (out : List α) (k : Nat) =>
      match readAt src (k : Int) with
      | none => none
      | some v => writeAt out (k : Int) v)
    dst.length 0 1 (fun k d => d[k]? = src[k]?)
    (by
      intro k o1 o2 hq hsame
      rw [hsame k (by omega) (by omega)]
      exact hq)
    n
    (by
      intro k hk o1 ho1
      have hks : k < src.length := by omega
      have hko : k < o1.length := by omega
      refine ⟨o1.set k src[k], ?_, by simp [ho1], ?_, ?_⟩
      · simp only [readAt_natCast, List.getElem?_eq_getElem hks]
        exact writeAt_natCast o1 k _ hko
      · show (o1.set k src[k])[k]? = src[k]?
        rw [List.getElem?_set_self hko, List.getElem?_eq_getElem hks]
      · intro j hj
        rw [List.getElem?_set_ne (by omega)])
    dst rfl
  obtain ⟨d, hfold, hlen, hQ, hframe⟩ := key
  refine ⟨d, ?_, hlen, hQ, fun j hj => hframe j (by omega)⟩
  simpa only [stdCopy, Int.toNat_natCast] using hfold

theorem split_index (N m j : Nat) (hj : j < N * m) :
    ∃ a r, a < N ∧ r < m ∧ j = a * m + r := by
  have hm : 0 < m := by
    rcases Nat.eq_zero_or_pos m with h | h
    · subst h; simp at hj
    · exact h
  exact ⟨j / m, j % m, (Nat.div_lt_iff_lt_mul hm).mpr hj, Nat.mod_lt j hm,
    (Nat.div_add_mod' j m).symm⟩

/-- Every flat index of a `(B, C, h, w)` buffer is the index of one element
`(b, c, y, x)`. -/
theorem index_decompose (B C h w j : Nat) (hj : j < B * C * h * w) :
    ∃ b c y x, b < B ∧ c < C ∧ y < h ∧ x < w ∧ j = ((b * C + c) * h + y) * w + x := by
  obtain ⟨j1, x, hj1, hx, rfl⟩ := split_index (B * C * h) w j hj
  obtain ⟨j2, y, hj2, hy, rfl⟩ := split_index (B * C) h j1 hj1
  obtain ⟨b, c, hb, hc, rfl⟩ := split_index B C j2 hj2
  exact ⟨b, c, y, x, hb, hc, hy, hx, rfl⟩

/-- On the interpolation path the result does not depend on what the output
tensor held before the call, nor on what the allocator hands out. -/
theorem operatorCall_interp_indep (fill fill' : Nat → ℚ) (f : ResizeBilinearFunctor)
    (B C H W h w : Nat) (data : List ℚ) (resize_dims : Option (Tensor Int))
    (output output' : Tensor ℚ)
    (hH : 1 ≤ H) (hW : 1 ≤ W) (hh : 1 ≤ h) (hw : 1 ≤ w) (hne : ¬ (h = H ∧ w = W))
    (hdata : B * C * H * W ≤ data.length)
    (hres : f.GetOutputSize resize_dims = .ok ((h : Int), (w : Int))) :
    f.operatorCall fill ⟨[(B : Int), (C : Int), (H : Int), (W : Int)], data⟩ resize_dims output
      = f.operatorCall fill' ⟨[(B : Int), (C : Int), (H : Int), (W : Int)], data⟩
          resize_dims output' := by
  obtain ⟨d, hcall, hlen, hval⟩ :=
    operatorCall_interp fill f B C H W h w data resize_dims output hH hW hh hw hne hdata hres
  obtain ⟨d', hcall', hlen', hval'⟩ :=
    operatorCall_interp fill' f B C H W h w data resize_dims output' hH hW hh hw hne hdata hres
  have hdd : d = d' := by
    apply List.ext_getElem?
    intro j
    by_cases hj : j < B * C * h * w
    · obtain ⟨b, c, y, x, hb, hc, hy, hx, rfl⟩ := index_decompose B C h w j hj
      rw [hval b hb c hc y hy x hx, hval' b hb c hc y hy x hx]
    · rw [List.getElem?_eq_none (by omega), List.getElem?_eq_none (by omega)]
  rw [hcall, hcall', hdd]

/-- Inside the input buffer `inputAt` is the element at the row-major index. -/
theorem getElem?_inputAt (images : List ℚ) (B C H W b c r q : Nat)
    (himg : B * C * H * W ≤ images.length) (hb : b < B) (hc : c < C)
    (hr : r < H) (hq : q < W) :
    images[((b * C + c) * H + r) * W + q]? = some (inputAt images H W C b c r q) := by
  have h := readAt_inputAt images B C H W b c (r : Int) (q : Int) himg hb hc
    (Int.natCast_nonneg r) (by exact_mod_cast hr) (Int.natCast_nonneg q) (by exact_mod_cast hq)
  have hidx : (C : Int) * ((H : Int) * (W : Int)) * (b : Int)
        + (H : Int) * (W : Int) * (c : Int) + (r : Int) * (W : Int) + (q : Int)
      = ((((b * C + c) * H + r) * W + q : Nat) : Int) := by
    push_cast; ring
  rw [hidx, readAt_natCast] at h
  exact h

/-! ## Pixels with zero blend fractions -/

/-- A pixel whose two records have blend fraction 0 is the input sample at the
two lower indices. -/
theorem pixelValue_of_lerp_zero (images : List ℚ) (in_height in_width channels : Int)
    (xs ys : List CachedInterpolation) (b c y x : Nat) (cy cx : CachedInterpolation)
    (hcy : ys[y]? = some cy) (hcx : xs[x]? = some cx)
    (hly : cy.lerp = 0) (hlx : cx.lerp = 0) :
    ResizeImage.pixelValue images in_height in_width channels xs ys b c y x
      = inputAt images in_height in_width channels b c cy.lower cx.lower := by
  simp [ResizeImage.pixelValue, hcy, hcx, hly, hlx, ComputeLerp]

/-! ## Output-size resolution and the two checks -/

theorem GetOutputSize_static (a : Bool) (s0 s1 : Int) (rest : List Int)
    (h0 : 0 ≤ s0) (h1 : 0 ≤ s1) (resize_dims : Option (Tensor Int)) :
    (ResizeBilinearFunctor.mk a (s0 :: s1 :: rest)).GetOutputSize resize_dims = .ok (s0, s1) := by
  simp [ResizeBilinearFunctor.GetOutputSize, not_lt.mpr h0, not_lt.mpr h1]

theorem GetOutputSize_dynamic (a : Bool) (s0 s1 : Int) (rest : List Int)
    (hdyn : s0 < 0 ∨ s1 < 0) (resize_dims : Option (Tensor Int)) :
    (ResizeBilinearFunctor.mk a (s0 :: s1 :: rest)).GetOutputSize resize_dims =
      match resize_dims with
      | none => .error .dimsCheck
      | some d =>
        if d.dim_size = 1 then
          match d.data[0]?, d.data[1]? with
          | some h, some w => .ok (h, w)
          | _, _ => .error .outOfRange
        else .error .dimsCheck := by
  by_cases h0 : s0 < 0
  · simp [ResizeBilinearFunctor.GetOutputSize, h0]
  · have h1 : s1 < 0 := by tauto
    simp [ResizeBilinearFunctor.GetOutputSize, h0, h1]

/-! ## Claims -/

/-- Claim C1, as the code behaves: on the equal-size path `std::copy` moves only
`channels * in_height * in_width` elements, one batch.  For the 2-batch input
`[5, 7]` of shape `(2, 1, 1, 1)` and size `(1, 1)` the call succeeds and the
second output element is not the input's `7`: it is the `0` the output tensor
already held, or the `9` the allocator handed out. -/
theorem C1_equal_size_copy_stops_after_first_batch :
    (ResizeBilinearFunctor.mk false [1, 1]).operatorCall (fun _ => 0)
        ⟨[2, 1, 1, 1], [5, 7]⟩ none ⟨[2, 1, 1, 1], [0, 0]⟩
      = (Status.ok, ⟨[2, 1, 1, 1], [5, 0]⟩) ∧
    (ResizeBilinearFunctor.mk false [1, 1]).operatorCall (fun _ => 9)
        ⟨[2, 1, 1, 1], [5, 7]⟩ none ⟨[], []⟩
      = (Status.ok, ⟨[2, 1, 1, 1], [5, 9]⟩) := by
  constructor <;> with_unfolding_all decide

/-- Claim C2: in dynamic-size mode (`size_[0] < 0` or `size_[1] < 0`), when the
dims tensor is absent or its rank is not 1, the call stops at the dims check and
the output tensor, shape and contents, is the one the call was given. -/
theorem C2_dims_check_leaves_output (fill : Nat → ℚ) (a : Bool) (s0 s1 : Int)
    (rest : List Int) (input : Tensor ℚ) (resize_dims : Option (Tensor Int))
    (output : Tensor ℚ) (hdyn : s0 < 0 ∨ s1 < 0)
    (hbad : ∀ d, resize_dims = some d → d.dim_size ≠ 1) :
    (ResizeBilinearFunctor.mk a (s0 :: s1 :: rest)).operatorCall fill input resize_dims output
      = (Status.failed Failure.dimsCheck, output) := by
  have hres : (ResizeBilinearFunctor.mk a (s0 :: s1 :: rest)).GetOutputSize resize_dims
      = .error .dimsCheck := by
    rw [GetOutputSize_dynamic a s0 s1 rest hdyn]
    cases resize_dims with
    | none => rfl
    | some d => simp [hbad d rfl]
  simp [ResizeBilinearFunctor.operatorCall, hres]

theorem C2_dims_check_leaves_output_witness :
    (ResizeBilinearFunctor.mk false [-1, -1]).operatorCall (fun _ => 0)
        ⟨[1, 1, 2, 2], [1, 2, 3, 4]⟩ (some ⟨[1, 2], [4, 4]⟩) ⟨[1, 1, 1, 1], [9]⟩
      = (Status.failed Failure.dimsCheck, ⟨[1, 1, 1, 1], [9]⟩) :=
  C2_dims_check_leaves_output (fun _ => 0) false (-1) (-1) [] ⟨[1, 1, 2, 2], [1, 2, 3, 4]⟩
    (some ⟨[1, 2], [4, 4]⟩) ⟨[1, 1, 1, 1], [9]⟩ (by decide)
    (by intro d hd; cases hd; decide)

/-- Claim C3: whatever the configuration, when the resolved output height or
width is at most 0 the call stops at the size check, before `Resize`, and the
output tensor, shape and contents, is the one the call was given. -/
theorem C3_size_check_leaves_output (fill : Nat → ℚ) (f : ResizeBilinearFunctor)
    (input : Tensor ℚ) (resize_dims : Option (Tensor Int)) (output : Tensor ℚ)
    (out_height out_width : Int)
    (hres : f.GetOutputSize resize_dims = .ok (out_height, out_width))
    (hbad : out_height ≤ 0 ∨ out_width ≤ 0) :
    f.operatorCall fill input resize_dims output = (Status.failed Failure.sizeCheck, output) := by
  have hn : ¬ (out_height > 0 ∧ out_width > 0) := by
    rintro ⟨h1, h2⟩
    rcases hbad with h | h <;> omega
  simp only [ResizeBilinearFunctor.operatorCall, hres]
  rw [if_neg hn]

theorem C3_size_check_leaves_output_witness :
    (ResizeBilinearFunctor.mk true [-1, -1]).operatorCall (fun _ => 0)
        ⟨[1, 1, 2, 2], [1, 2, 3, 4]⟩ (some ⟨[2], [4, 0]⟩) ⟨[1, 1, 1, 1], [9]⟩
      = (Status.failed Failure.sizeCheck, ⟨[1, 1, 1, 1], [9]⟩) :=
  C3_size_check_leaves_output (fun _ => 0) ⟨true, [-1, -1]⟩ ⟨[1, 1, 2, 2], [1, 2, 3, 4]⟩
    (some ⟨[2], [4, 0]⟩) ⟨[1, 1, 1, 1], [9]⟩ 4 0 rfl (by decide)

/-- Claim C4, refuted as stated: a rank-1 dims tensor of length 3 is not
rejected, its first two elements are read as height and width and the call
succeeds; and a rank-1 dims tensor of length 1 passes the dims check too, the
call then stopping on the read of the missing element, not on the check. -/
theorem C4_rank1_wrong_length_passes_check :
    (Tensor.mk [3] [2, 2, 8] : Tensor Int).dim_size = 1 ∧
    (Tensor.mk [3] [2, 2, 8] : Tensor Int).data.length ≠ 2 ∧
    (ResizeBilinearFunctor.mk false [-1, -1]).operatorCall (fun _ => 0)
        ⟨[1, 1, 1, 1], [5]⟩ (some ⟨[3], [2, 2, 8]⟩) ⟨[], []⟩
      = (Status.ok, ⟨[1, 1, 2, 2], [5, 5, 5, 5]⟩) ∧
    (Tensor.mk [1] [2] : Tensor Int).dim_size = 1 ∧
    ((ResizeBilinearFunctor.mk false [-1, -1]).operatorCall (fun _ => 0)
        ⟨[1, 1, 1, 1], [5]⟩ (some ⟨[1], [2]⟩) ⟨[], []⟩).1
      ≠ Status.failed Failure.dimsCheck := by
  refine ⟨by decide, by decide, ?_, by decide, ?_⟩ <;> with_unfolding_all decide

/-- Claim C4, amended: in dynamic-size mode the dims check tests presence and
rank only.  A rank-1 dims tensor holding at least two integers is accepted
whatever its length, and its first two elements are the resolved height and
width. -/
theorem C4_rank1_dims_first_two_read (a : Bool) (s0 s1 : Int) (rest : List Int)
    (hdyn : s0 < 0 ∨ s1 < 0) (n hh ww : Int) (more : List Int) :
    (ResizeBilinearFunctor.mk a (s0 :: s1 :: rest)).GetOutputSize
        (some ⟨[n], hh :: ww :: more⟩) = .ok (hh, ww) := by
  rw [GetOutputSize_dynamic a s0 s1 rest hdyn]
  simp [Tensor.dim_size]

theorem C4_rank1_dims_first_two_read_witness :
    (ResizeBilinearFunctor.mk true [-1, 7]).GetOutputSize (some ⟨[3], [2, 4, 8]⟩) = .ok (2, 4) :=
  C4_rank1_dims_first_two_read true (-1) 7 [] (by decide) 3 2 4 [8]

/-- Claim C9: for the single-batch single-channel input `[[1, 2], [3, 4]]`, size
`(4, 4)` and `align_corners = false`, whatever the output tensor held and
whatever the allocator hands out, `operator()` uses scale `1/2` on both axes,
succeeds, and leaves the `4 x 4` output
`[[1, 3/2, 2, 2], [2, 5/2, 3, 3], [3, 7/2, 4, 4], [3, 7/2, 4, 4]]`, whose first
element is 1. -/
theorem C9_end_to_end_2x2_to_4x4 (fill : Nat → ℚ) (rest : List Int)
    (resize_dims : Option (Tensor Int)) (output : Tensor ℚ) :
    CalculateResizeScale 2 4 false = 1 / 2 ∧
    (ResizeBilinearFunctor.mk false (4 :: 4 :: rest)).operatorCall fill
        ⟨[1, 1, 2, 2], [1, 2, 3, 4]⟩ resize_dims output
      = (Status.ok, ⟨[1, 1, 4, 4],
          [1, 3 / 2, 2, 2, 2, 5 / 2, 3, 3, 3, 7 / 2, 4, 4, 3, 7 / 2, 4, 4]⟩) ∧
    ((ResizeBilinearFunctor.mk false (4 :: 4 :: rest)).operatorCall fill
        ⟨[1, 1, 2, 2], [1, 2, 3, 4]⟩ resize_dims output).2.data[0]? = some 1 := by
  have hres : (ResizeBilinearFunctor.mk false (4 :: 4 :: rest)).GetOutputSize resize_dims
      = .ok (((4 : Nat) : Int), ((4 : Nat) : Int)) :=
    GetOutputSize_static false 4 4 rest (by decide) (by decide) resize_dims
  have hres0 : (ResizeBilinearFunctor.mk false (4 :: 4 :: rest)).GetOutputSize none
      = .ok (((4 : Nat) : Int), ((4 : Nat) : Int)) :=
    GetOutputSize_static false 4 4 rest (by decide) (by decide) none
  have hindep := operatorCall_interp_indep fill (fun _ => 0)
    (ResizeBilinearFunctor.mk false (4 :: 4 :: rest)) 1 1 2 2 4 4 [1, 2, 3, 4] resize_dims
    output ⟨[], []⟩ (by decide) (by decide) (by decide) (by decide) (by decide) (by decide) hres
  have hcall : (ResizeBilinearFunctor.mk false (4 :: 4 :: rest)).operatorCall fill
        ⟨[1, 1, 2, 2], [1, 2, 3, 4]⟩ resize_dims output
      = (Status.ok, ⟨[1, 1, 4, 4],
          [1, 3 / 2, 2, 2, 2, 5 / 2, 3, 3, 3, 7 / 2, 4, 4, 3, 7 / 2, 4, 4]⟩) := by
    refine Eq.trans hindep ?_
    simp only [ResizeBilinearFunctor.operatorCall, hres]
    with_unfolding_all decide
  refine ⟨by norm_num [CalculateResizeScale], hcall, ?_⟩
  rw [hcall]
  rfl

/-! ## Buffers determined by their elements -/

/-- Two buffers that agree on every element `(b, c, y, x)` and on everything
past the `B*C*h*w` elements are equal. -/
theorem buffer_ext (B C h w : Nat) (d d' : List ℚ)
    (hval : ∀ b, b < B → ∀ c, c < C → ∀ y, y < h → ∀ x, x < w →
      d[((b * C + c) * h + y) * w + x]? = d'[((b * C + c) * h + y) * w + x]?)
    (hrest : ∀ j, B * C * h * w ≤ j → d[j]? = d'[j]?) : d = d' := by
  apply List.ext_getElem?
  intro j
  by_cases hj : j < B * C * h * w
  · obtain ⟨b, c, y, x, hb, hc, hy, hx, rfl⟩ := index_decompose B C h w j hj
    exact hval b hb c hc y hy x hx
  · exact hrest j (by omega)

/-- Distinct cells have distinct plane numbers. -/
theorem plane_number_inj (C b c b' c' : Nat) (hc : c < C) (hc' : c' < C)
    (h : b * C + c = b' * C + c') : b = b' ∧ c = c' := by
  have key : b = b' := by
    rcases Nat.lt_trichotomy b b' with hlt | heq | hgt
    · have h1 : (b + 1) * C ≤ b' * C := Nat.mul_le_mul_right C hlt
      have h2 : (b + 1) * C = b * C + C := by ring
      omega
    · exact heq
    · have h1 : (b' + 1) * C ≤ b * C := Nat.mul_le_mul_right C hgt
      have h2 : (b' + 1) * C = b' * C + C := by ring
      omega
  subst key
  exact ⟨rfl, by omega⟩

/-- Blocks of size `m` with different numbers do not meet. -/
theorem block_disjoint (m k k' i i' : Nat) (hk : k ≠ k') (hi : i < m) (hi' : i' < m) :
    k * m + i ≠ k' * m + i' := by
  rcases Nat.lt_or_gt_of_ne hk with hlt | hgt
  · have h1 : (k + 1) * m ≤ k' * m := Nat.mul_le_mul_right m hlt
    have h2 : (k + 1) * m = k * m + m := by ring
    omega
  · have h1 : (k' + 1) * m ≤ k * m := Nat.mul_le_mul_right m hgt
    have h2 : (k' + 1) * m = k' * m + m := by ring
    omega

/-- Output locations of distinct cells are distinct. -/
theorem output_index_disjoint (C h w b c y x b' c' y' x' : Nat)
    (hc : c < C) (hc' : c' < C) (hy : y < h) (hx : x < w) (hy' : y' < h) (hx' : x' < w)
    (hne : (b, c) ≠ (b', c')) :
    ((b * C + c) * h + y) * w + x ≠ ((b' * C + c') * h + y') * w + x' := by
  have hk : b * C + c ≠ b' * C + c' := by
    intro heq
    obtain ⟨h1, h2⟩ := plane_number_inj C b c b' c' hc hc' heq
    exact hne (by rw [h1, h2])
  have h1 : ((b * C + c) * h + y) * w + x = (b * C + c) * (h * w) + (y * w + x) := by ring
  have h2 : ((b' * C + c') * h + y') * w + x' = (b' * C + c') * (h * w) + (y' * w + x') := by
    ring
  rw [h1, h2]
  exact block_disjoint (h * w) _ _ _ _ hk (lt_mul_add hy hx) (lt_mul_add hy' hx')

/-- Cells processed in any order: the run succeeds, every plane named in the
schedule holds its blended values, and every location outside those planes is
unchanged. -/
theorem scheduled_spec (images : List ℚ) (B C H W h w : Nat)
    (xs ys : List CachedInterpolation)
    (himg : B * C * H * W ≤ images.length)
    (hxs : TableInRange xs w W) (hys : TableInRange ys h H) (L : Nat)
    (hL : B * C * h * w ≤ L) :
    ∀ (schedule : List (Nat × Nat)), (∀ p ∈ schedule, p.1 < B ∧ p.2 < C) →
      ∀ o : List ℚ, o.length = L →
      ∃ o', ResizeImage.scheduled images H W h w C xs ys o schedule = some o' ∧
        o'.length = L ∧
        (∀ p ∈ schedule, ∀ y, y < h → ∀ x, x < w →
          o'[(p.1 * C + p.2) * (h * w) + y * w + x]? =
            some (ResizeImage.pixelValue images H W C xs ys p.1 p.2 y x)) ∧
        ∀ j, (∀ p ∈ schedule, j < (p.1 * C + p.2) * (h * w) ∨
            (p.1 * C + p.2) * (h * w) + h * w ≤ j) → o'[j]? = o[j]? := by
  intro schedule
  induction schedule with
  | nil =>
    intro _ o ho
    exact ⟨o, rfl, ho, by simp, fun _ _ => rfl⟩
  | cons p rest ih =>
    intro hin o ho
    have hp := hin p (List.mem_cons_self p rest)
    obtain ⟨o1, hcell, hlen1, hval1, hframe1⟩ :=
      cell_spec images B C H W h w xs ys himg hxs hys p.1 p.2 hp.1 hp.2 L hL o ho
    obtain ⟨o2, hrun, hlen2, hval2, hframe2⟩ :=
      ih (fun q hq => hin q (List.mem_cons_of_mem p hq)) o1 hlen1
    refine ⟨o2, ?_, hlen2, ?_, ?_⟩
    · simp only [ResizeImage.scheduled, List.foldlM_cons, hcell]
      exact hrun
    · intro q hq y hy x hx
      by_cases hqr : q ∈ rest
      · exact hval2 q hqr y hy x hx
      · have hqp : q = p := by
          rcases List.mem_cons.mp hq with h1 | h1
          · exact h1
          · exact absurd h1 hqr
        subst hqp
        rw [hframe2, hval1 y hy x hx]
        intro r hr
        have hr' := hin r (List.mem_cons_of_mem q hr)
        have hne : r.1 * C + r.2 ≠ q.1 * C + q.2 := by
          intro heq
          obtain ⟨e1, e2⟩ := plane_number_inj C r.1 r.2 q.1 q.2 hr'.2 hp.2 heq
          exact hqr (by
            have : r = q := Prod.ext e1 e2
            rw [← this]; exact hr)
        have hyx : y * w + x < h * w := lt_mul_add hy hx
        rcases Nat.lt_or_gt_of_ne hne with hlt | hgt
        · right
          have h1 : (r.1 * C + r.2 + 1) * (h * w) ≤ (q.1 * C + q.2) * (h * w) :=
            Nat.mul_le_mul_right _ hlt
          have h2 : (r.1 * C + r.2 + 1) * (h * w) = (r.1 * C + r.2) * (h * w) + h * w := by
            ring
          omega
        · left
          have h1 : (q.1 * C + q.2 + 1) * (h * w) ≤ (r.1 * C + r.2) * (h * w) :=
            Nat.mul_le_mul_right _ hgt
          have h2 : (q.1 * C + q.2 + 1) * (h * w) = (q.1 * C + q.2) * (h * w) + h * w := by
            ring
          omega
    · intro j hj
      rw [hframe2 j (fun r hr => hj r (List.mem_cons_of_mem p hr)),
        hframe1 j (hj p (List.mem_cons_self p rest))]

theorem mem_cells (B C : Nat) (p : Nat × Nat) :
    p ∈ ResizeImage.cells B C ↔ p.1 < B ∧ p.2 < C := by
  obtain ⟨b, c⟩ := p
  simp [ResizeImage.cells, List.pair_mem_product]

/-- A schedule that is a permutation of the sequential cell order gives the
buffer the sequential loops give. -/
theorem scheduled_perm (images : List ℚ) (B C H W h w : Nat)
    (xs ys : List CachedInterpolation)
    (himg : B * C * H * W ≤ images.length)
    (hxs : TableInRange xs w W) (hys : TableInRange ys h H)
    (o : List ℚ) (hL : B * C * h * w ≤ o.length)
    (schedule : List (Nat × Nat)) (hperm : schedule.Perm (ResizeImage.cells B C)) :
    ResizeImage.scheduled images H W h w C xs ys o schedule
      = ResizeImage images B H W h w C xs ys o := by
  obtain ⟨d, hrun, hlen, hval, hframe⟩ :=
    ResizeImage_spec images B C H W h w xs ys himg hxs hys o hL
  obtain ⟨d', hrun', hlen', hval', hframe'⟩ :=
    scheduled_spec images B C H W h w xs ys himg hxs hys o.length hL schedule
      (fun p hp => (mem_cells B C p).mp (hperm.mem_iff.mp hp)) o rfl
  have hidx : ∀ b c y x, ((b * C + c) * h + y) * w + x
      = (b * C + c) * (h * w) + y * w + x := by
    intro b c y x; ring
  have hdd : d' = d := by
    apply buffer_ext B C h w d' d
    · intro b hb c hc y hy x hx
      have hmem : (b, c) ∈ schedule := hperm.mem_iff.mpr ((mem_cells B C (b, c)).mpr ⟨hb, hc⟩)
      rw [hval b hb c hc y hy x hx, hidx]
      exact hval' (b, c) hmem y hy x hx
    · intro j hj
      rw [hframe j hj]
      apply hframe'
      intro p hp
      have hp' := (mem_cells B C p).mp (hperm.mem_iff.mp hp)
      right
      have hbc : p.1 * C + p.2 < B * C := lt_mul_add hp'.1 hp'.2
      have h1 : (p.1 * C + p.2 + 1) * (h * w) ≤ B * C * (h * w) := Nat.mul_le_mul_right _ hbc
      have h2 : (p.1 * C + p.2 + 1) * (h * w) = (p.1 * C + p.2) * (h * w) + h * w := by ring
      have h3 : B * C * (h * w) = B * C * h * w := by ring
      omega
  rw [hrun, hrun', hdd]

/-- Two input buffers that agree on plane `(b, c)` give the same sample there. -/
theorem inputAt_congr (images images' : List ℚ) (B C H W b c : Nat) (r q : Int)
    (himg : B * C * H * W ≤ images.length) (himg' : B * C * H * W ≤ images'.length)
    (hb : b < B) (hc : c < C)
    (hr0 : 0 ≤ r) (hr : r < (H : Int)) (hq0 : 0 ≤ q) (hq : q < (W : Int))
    (hagree : ∀ r', r' < H → ∀ q', q' < W →
      images[((b * C + c) * H + r') * W + q']? = images'[((b * C + c) * H + r') * W + q']?) :
    inputAt images H W C b c r q = inputAt images' H W C b c r q := by
  obtain ⟨r', rfl⟩ := Int.eq_ofNat_of_zero_le hr0
  obtain ⟨q', rfl⟩ := Int.eq_ofNat_of_zero_le hq0
  have hr' : r' < H := by exact_mod_cast hr
  have hq' : q' < W := by exact_mod_cast hq
  have h1 := getElem?_inputAt images B C H W b c r' q' himg hb hc hr' hq'
  have h2 := getElem?_inputAt images' B C H W b c r' q' himg' hb hc hr' hq'
  rw [hagree r' hr' q' hq', h2] at h1
  exact (Option.some.inj h1).symm

/-- The blended value of a pixel of plane `(b, c)` depends on the input buffer
through plane `(b, c)` only. -/
theorem pixelValue_congr (images images' : List ℚ) (B C H W h w b c y x : Nat)
    (xs ys : List CachedInterpolation)
    (himg : B * C * H * W ≤ images.length) (himg' : B * C * H * W ≤ images'.length)
    (hxs : TableInRange xs w W) (hys : TableInRange ys h H)
    (hb : b < B) (hc : c < C) (hy : y < h) (hx : x < w)
    (hagree : ∀ r', r' < H → ∀ q', q' < W →
      images[((b * C + c) * H + r') * W + q']? = images'[((b * C + c) * H + r') * W + q']?) :
    ResizeImage.pixelValue images H W C xs ys b c y x
      = ResizeImage.pixelValue images' H W C xs ys b c y x := by
  obtain ⟨cy, hcy, hl0, hl, hu0, hu⟩ := hys y hy
  obtain ⟨cx, hcx, hxl0, hxl, hxu0, hxu⟩ := hxs x hx
  simp only [ResizeImage.pixelValue, hcy, hcx, Option.getD_some]
  rw [inputAt_congr images images' B C H W b c cy.lower cx.lower himg himg' hb hc hl0 hl hxl0 hxl
      hagree,
    inputAt_congr images images' B C H W b c cy.lower cx.upper himg himg' hb hc hl0 hl hxu0 hxu
      hagree,
    inputAt_congr images images' B C H W b c cy.upper cx.lower himg himg' hb hc hu0 hu hxl0 hxl
      hagree,
    inputAt_congr images images' B C H W b c cy.upper cx.upper himg himg' hb hc hu0 hu hxu0 hxu
      hagree]

/-- Claim C11: in `ResizeImage` with tables whose indices are in range, (1) for
two input buffers that agree on plane `(b, c)`, whatever the two output buffers
held, the two results agree on output plane `(b, c)`; (2) cell `(b, c)` leaves
every location outside output plane `(b, c)` as it was and stores a blended
value in each of the `out_h*out_w` locations of that plane; (3) locations of
distinct cells are distinct; (4) processing the cells in any order that is a
permutation of the sequential one yields the buffer of the sequential loops. -/
theorem C11_cells_independent (images : List ℚ) (B C H W h w : Nat)
    (xs ys : List CachedInterpolation)
    (himg : B * C * H * W ≤ images.length)
    (hxs : TableInRange xs w W) (hys : TableInRange ys h H)
    (o : List ℚ) (hL : B * C * h * w ≤ o.length) :
    (∀ (images' o' : List ℚ), B * C * H * W ≤ images'.length → B * C * h * w ≤ o'.length →
      ∀ b, b < B → ∀ c, c < C →
      (∀ r, r < H → ∀ q, q < W →
        images[((b * C + c) * H + r) * W + q]? = images'[((b * C + c) * H + r) * W + q]?) →
      ∃ d d', ResizeImage images B H W h w C xs ys o = some d ∧
        ResizeImage images' B H W h w C xs ys o' = some d' ∧
        ∀ y, y < h → ∀ x, x < w →
          d[((b * C + c) * h + y) * w + x]? = d'[((b * C + c) * h + y) * w + x]?) ∧
    (∀ b, b < B → ∀ c, c < C →
      ∃ d, ResizeImage.cell images H W h w C xs ys o b c = some d ∧
        d.length = o.length ∧
        (∀ j, (j < (b * C + c) * (h * w) ∨ (b * C + c) * (h * w) + h * w ≤ j) →
          d[j]? = o[j]?) ∧
        ∀ y, y < h → ∀ x, x < w → d[((b * C + c) * h + y) * w + x]? =
          some (ResizeImage.pixelValue images H W C xs ys b c y x)) ∧
    (∀ b c y x b' c' y' x', c < C → c' < C → y < h → x < w → y' < h → x' < w →
      (b, c) ≠ (b', c') →
      ((b * C + c) * h + y) * w + x ≠ ((b' * C + c') * h + y') * w + x') ∧
    (∀ schedule : List (Nat × Nat), schedule.Perm (ResizeImage.cells B C) →
      ResizeImage.scheduled images H W h w C xs ys o schedule
        = ResizeImage images B H W h w C xs ys o) := by
  refine ⟨?_, ?_, ?_, ?_⟩
  · intro images' o' himg' hL' b hb c hc hagree
    obtain ⟨d, hrun, _, hval, _⟩ :=
      ResizeImage_spec images B C H W h w xs ys himg hxs hys o hL
    obtain ⟨d', hrun', _, hval', _⟩ :=
      ResizeImage_spec images' B C H W h w xs ys himg' hxs hys o' hL'
    refine ⟨d, d', hrun, hrun', fun y hy x hx => ?_⟩
    rw [hval b hb c hc y hy x hx, hval' b hb c hc y hy x hx,
      pixelValue_congr images images' B C H W h w b c y x xs ys himg himg' hxs hys hb hc hy hx
        hagree]
  · intro b hb c hc
    obtain ⟨d, hcell, hlen, hval, hframe⟩ :=
      cell_spec images B C H W h w xs ys himg hxs hys b c hb hc o.length hL o rfl
    refine ⟨d, hcell, hlen, hframe, fun y hy x hx => ?_⟩
    have hidx : ((b * C + c) * h + y) * w + x = (b * C + c) * (h * w) + y * w + x := by ring
    rw [hidx]
    exact hval y hy x hx
  · intro b c y x b' c' y' x' hc hc' hy hx hy' hx' hne
    exact output_index_disjoint C h w b c y x b' c' y' x' hc hc' hy hx hy' hx' hne
  · intro schedule hperm
    exact scheduled_perm images B C H W h w xs ys himg hxs hys o hL schedule hperm

theorem C11_cells_independent_witness :
    ResizeImage.scheduled [1, 2, 3, 4] ((1 : Nat) : Int) ((1 : Nat) : Int) ((1 : Nat) : Int)
        ((2 : Nat) : Int) ((2 : Nat) : Int) [⟨0, 0, 0⟩, ⟨0, 0, 1 / 2⟩, ⟨0, 0, 0⟩]
        [⟨0, 0, 0⟩, ⟨0, 0, 0⟩] (List.replicate 8 0) [(1, 1), (0, 1), (1, 0), (0, 0)]
      = ResizeImage [1, 2, 3, 4] ((2 : Nat) : Int) ((1 : Nat) : Int) ((1 : Nat) : Int)
        ((1 : Nat) : Int) ((2 : Nat) : Int) ((2 : Nat) : Int)
        [⟨0, 0, 0⟩, ⟨0, 0, 1 / 2⟩, ⟨0, 0, 0⟩] [⟨0, 0, 0⟩, ⟨0, 0, 0⟩] (List.replicate 8 0) :=
  (C11_cells_independent [1, 2, 3, 4] 2 2 1 1 1 2
    [⟨0, 0, 0⟩, ⟨0, 0, 1 / 2⟩, ⟨0, 0, 0⟩] [⟨0, 0, 0⟩, ⟨0, 0, 0⟩] (by decide)
    (by
      intro i hi
      have hi' : i = 0 ∨ i = 1 := by omega
      rcases hi' with rfl | rfl
      · exact ⟨⟨0, 0, 0⟩, rfl, by decide, by decide, by decide, by decide⟩
      · exact ⟨⟨0, 0, 1 / 2⟩, rfl, by decide, by decide, by decide, by decide⟩)
    (by
      intro i hi
      have hi' : i = 0 := by omega
      subst hi'
      exact ⟨⟨0, 0, 0⟩, rfl, by decide, by decide, by decide, by decide⟩)
    (List.replicate 8 0) (by decide)).2.2.2 [(1, 1), (0, 1), (1, 0), (0, 0)] (by decide)

/-! ## Conversion to an index -/

theorem truncToIndex_of_nonneg (q : ℚ) (hq : 0 ≤ q) : truncToIndex q = ⌊q⌋ := by
  simp [truncToIndex, hq]

/-! ## The pixel formula -/

/-- Inside the input buffer, `inputAt` at in-range integer indices is the
element at the row-major index. -/
theorem getElem?_inputAt_toNat (images : List ℚ) (B C H W b c : Nat) (r q : Int)
    (himg : B * C * H * W ≤ images.length) (hb : b < B) (hc : c < C)
    (hr0 : 0 ≤ r) (hr : r < (H : Int)) (hq0 : 0 ≤ q) (hq : q < (W : Int)) :
    images[((b * C + c) * H + r.toNat) * W + q.toNat]? = some (inputAt images H W C b c r q) := by
  obtain ⟨r', rfl⟩ := Int.eq_ofNat_of_zero_le hr0
  obtain ⟨q', rfl⟩ := Int.eq_ofNat_of_zero_le hq0
  rw [Int.toNat_natCast, Int.toNat_natCast]
  exact getElem?_inputAt images B C H W b c r' q' himg hb hc (by exact_mod_cast hr)
    (by exact_mod_cast hq)

/-- Function `ResizeImage` reads only the first `out_width` records of `xs` and
the first `out_height` records of `ys`. -/
theorem ResizeImage_tables_congr (images : List ℚ) (B C H W h w : Nat)
    (xs ys xs' ys' : List CachedInterpolation)
    (himg : B * C * H * W ≤ images.length)
    (hxs : TableInRange xs w W) (hys : TableInRange ys h H)
    (hxs' : ∀ x, x < w → xs'[x]? = xs[x]?) (hys' : ∀ y, y < h → ys'[y]? = ys[y]?)
    (o : List ℚ) (hL : B * C * h * w ≤ o.length) :
    ResizeImage images B H W h w C xs' ys' o = ResizeImage images B H W h w C xs ys o := by
  have hxr : TableInRange xs' w W := by
    intro i hi
    obtain ⟨r, hr, hb⟩ := hxs i hi
    exact ⟨r, by rw [hxs' i hi, hr], hb⟩
  have hyr : TableInRange ys' h H := by
    intro i hi
    obtain ⟨r, hr, hb⟩ := hys i hi
    exact ⟨r, by rw [hys' i hi, hr], hb⟩
  obtain ⟨d, hrun, hlen, hval, hframe⟩ :=
    ResizeImage_spec images B C H W h w xs ys himg hxs hys o hL
  obtain ⟨d', hrun', hlen', hval', hframe'⟩ :=
    ResizeImage_spec images B C H W h w xs' ys' himg hxr hyr o hL
  have hdd : d' = d := by
    apply buffer_ext B C h w d' d
    · intro b hb c hc y hy x hx
      rw [hval b hb c hc y hy x hx, hval' b hb c hc y hy x hx]
      simp only [ResizeImage.pixelValue, hxs' x hx, hys' y hy]
    · intro j hj
      rw [hframe j hj, hframe' j hj]
  rw [hrun, hrun', hdd]

/-- Claim C13: for tables whose indices are in range, `ResizeImage` returns a
buffer in which, for every `b < batch`, `c < channels`, `y < out_h`,
`x < out_w`, index `((b*channels + c)*out_h + y)*out_w + x` holds
`ComputeLerp` of the four input elements `I(ys[y].lower, xs[x].lower)`,
`I(ys[y].lower, xs[x].upper)`, `I(ys[y].upper, xs[x].lower)`,
`I(ys[y].upper, xs[x].upper)` with fractions `xs[x].lerp`, `ys[y].lerp`, where
`I(r, q)` is the input element at index `((b*channels + c)*in_h + r)*in_w + q`;
and the result is the same for any tables with the same first `out_w` and
`out_h` records, in particular with the records at `out_w` and `out_h` changed
or removed. -/
theorem C13_ResizeImage_pixel_formula (images : List ℚ) (B C H W h w : Nat)
    (xs ys : List CachedInterpolation)
    (himg : B * C * H * W ≤ images.length)
    (hxs : TableInRange xs w W) (hys : TableInRange ys h H)
    (o : List ℚ) (hL : B * C * h * w ≤ o.length) :
    ∃ d, ResizeImage images B H W h w C xs ys o = some d ∧
      (∀ b, b < B → ∀ c, c < C → ∀ y, y < h → ∀ x, x < w →
        ∃ cy cx tl tr bl br, ys[y]? = some cy ∧ xs[x]? = some cx ∧
          images[((b * C + c) * H + cy.lower.toNat) * W + cx.lower.toNat]? = some tl ∧
          images[((b * C + c) * H + cy.lower.toNat) * W + cx.upper.toNat]? = some tr ∧
          images[((b * C + c) * H + cy.upper.toNat) * W + cx.lower.toNat]? = some bl ∧
          images[((b * C + c) * H + cy.upper.toNat) * W + cx.upper.toNat]? = some br ∧
          d[((b * C + c) * h + y) * w + x]? =
            some (ComputeLerp tl tr bl br cx.lerp cy.lerp)) ∧
      (∀ xs' ys' : List CachedInterpolation,
        (∀ x, x < w → xs'[x]? = xs[x]?) → (∀ y, y < h → ys'[y]? = ys[y]?) →
        ResizeImage images B H W h w C xs' ys' o = some d) ∧
      ResizeImage images B H W h w C (xs.take w) (ys.take h) o = some d := by
  obtain ⟨d, hrun, _, hval, _⟩ :=
    ResizeImage_spec images B C H W h w xs ys himg hxs hys o hL
  refine ⟨d, hrun, ?_, ?_, ?_⟩
  · intro b hb c hc y hy x hx
    obtain ⟨cy, hcy, hl0, hl, hu0, hu⟩ := hys y hy
    obtain ⟨cx, hcx, hxl0, hxl, hxu0, hxu⟩ := hxs x hx
    refine ⟨cy, cx, _, _, _, _, hcy, hcx,
      getElem?_inputAt_toNat images B C H W b c _ _ himg hb hc hl0 hl hxl0 hxl,
      getElem?_inputAt_toNat images B C H W b c _ _ himg hb hc hl0 hl hxu0 hxu,
      getElem?_inputAt_toNat images B C H W b c _ _ himg hb hc hu0 hu hxl0 hxl,
      getElem?_inputAt_toNat images B C H W b c _ _ himg hb hc hu0 hu hxu0 hxu, ?_⟩
    rw [hval b hb c hc y hy x hx]
    simp only [ResizeImage.pixelValue, hcy, hcx, Option.getD_some]
  · intro xs' ys' hxs' hys'
    rw [ResizeImage_tables_congr images B C H W h w xs ys xs' ys' himg hxs hys hxs' hys' o hL,
      hrun]
  · rw [ResizeImage_tables_congr images B C H W h w xs ys (xs.take w) (ys.take h) himg hxs hys
        (fun x hx => List.getElem?_take_of_lt hx) (fun y hy => List.getElem?_take_of_lt hy) o hL,
      hrun]

theorem C13_ResizeImage_pixel_formula_witness :
    ∃ d, ResizeImage [1, 2, 3, 4] ((1 : Nat) : Int) ((2 : Nat) : Int) ((2 : Nat) : Int)
          ((4 : Nat) : Int) ((4 : Nat) : Int) ((1 : Nat) : Int)
          (weightTable ((4 : Nat) : Int) ((2 : Nat) : Int) false)
          (weightTable ((4 : Nat) : Int) ((2 : Nat) : Int) false) (List.replicate 16 0) = some d ∧
      ResizeImage [1, 2, 3, 4] ((1 : Nat) : Int) ((2 : Nat) : Int) ((2 : Nat) : Int)
          ((4 : Nat) : Int) ((4 : Nat) : Int) ((1 : Nat) : Int)
          ((weightTable ((4 : Nat) : Int) ((2 : Nat) : Int) false).take 4)
          ((weightTable ((4 : Nat) : Int) ((2 : Nat) : Int) false).take 4)
          (List.replicate 16 0) = some d :=
  let ⟨d, h1, _, _, h4⟩ := C13_ResizeImage_pixel_formula [1, 2, 3, 4] 1 1 2 2 4 4
    (weightTable ((4 : Nat) : Int) ((2 : Nat) : Int) false)
    (weightTable ((4 : Nat) : Int) ((2 : Nat) : Int) false)
    (by decide) (weightTable_inRange 4 2 false (by decide) (by decide))
    (weightTable_inRange 4 2 false (by decide) (by decide)) (List.replicate 16 0) (by decide)
  ⟨d, h1, h4⟩

/-! ## Integer scales -/

theorem scale_equal_sizes (n : Nat) (hn : 1 ≤ n) (align_corners : Bool) :
    CalculateResizeScale (n : Int) (n : Int) align_corners = 1 := by
  have hnq : (1 : ℚ) ≤ (n : ℚ) := by exact_mod_cast hn
  unfold CalculateResizeScale
  split
  · rename_i hc
    simp only [Bool.and_eq_true, decide_eq_true_eq] at hc
    have h1 : (1 : ℚ) < (n : ℚ) := by exact_mod_cast hc.2
    have hd : ((n : ℚ) - 1) ≠ 0 := by linarith
    push_cast
    exact div_self hd
  · push_cast
    exact div_self (by linarith)

/-- With an integer scale `k` the record of output index `i` has
`lower = k * i` and `lerp = 0`. -/
theorem entry_integer_scale (in_size : Int) (k i : Nat) :
    ComputeInterpolationWeights.entry in_size (k : ℚ) i
      = ⟨((k * i : Nat) : Int), min (((k * i : Nat) : Int) + 1) (in_size - 1), 0⟩ := by
  have hcoord : (i : ℚ) * (k : ℚ) = ((k * i : Nat) : ℚ) := by push_cast; ring
  have hnn : (0 : ℚ) ≤ ((k * i : Nat) : ℚ) := Nat.cast_nonneg _
  simp only [ComputeInterpolationWeights.entry, hcoord, truncToIndex_of_nonneg _ hnn,
    Int.floor_natCast, Int.cast_natCast, sub_self]

/-- Records of the table for an axis whose output size equals its input size. -/
theorem weightTable_equal_sizes (n i : Nat) (align_corners : Bool) (hn : 1 ≤ n) (hi : i < n) :
    (weightTable (n : Int) (n : Int) align_corners)[i]?
      = some ⟨(i : Int), min ((i : Int) + 1) ((n : Int) - 1), 0⟩ := by
  obtain ⟨_, _, hval, _⟩ := weightTable_spec n (n : Int) align_corners
  rw [hval i hi, scale_equal_sizes n hn]
  have h := entry_integer_scale (n : Int) 1 i
  simp only [Nat.cast_one, one_mul] at h
  rw [h]

/-- The general path on equal sizes, in exact arithmetic: with the tables built
for `out_h = in_h`, `out_w = in_w`, `ResizeImage` returns a buffer whose
`B*C*H*W` elements, every batch included, are the input's. -/
theorem ResizeImage_identity (images : List ℚ) (B C H W : Nat) (align_corners : Bool)
    (hH : 1 ≤ H) (hW : 1 ≤ W) (himg : images.length = B * C * H * W)
    (o : List ℚ) (ho : o.length = B * C * H * W) :
    ResizeImage images B H W H W C (weightTable W W align_corners)
      (weightTable H H align_corners) o = some images := by
  obtain ⟨d, hrun, hlen, hval, _⟩ :=
    ResizeImage_spec images B C H W H W (weightTable W W align_corners)
      (weightTable H H align_corners) himg.ge
      (weightTable_inRange W W align_corners hW hW)
      (weightTable_inRange H H align_corners hH hH) o ho.ge
  rw [hrun]
  congr 1
  apply buffer_ext B C H W d images
  · intro b hb c hc y hy x hx
    rw [hval b hb c hc y hy x hx,
      pixelValue_of_lerp_zero images H W C _ _ b c y x _ _
        (weightTable_equal_sizes H y align_corners hH hy)
        (weightTable_equal_sizes W x align_corners hW hx) rfl rfl,
      getElem?_inputAt images B C H W b c y x himg.ge hb hc hy hx]
  · intro j hj
    rw [List.getElem?_eq_none (by omega), List.getElem?_eq_none (by omega)]

/-- Claim C15, where the code departs from it: on the 2-batch input `[5, 7]` of
shape `(2, 1, 1, 1)` with size `(1, 1)`, the equal-size shortcut that
`operator()` takes leaves `[5, 0]` in an output buffer that held `[0, 0]`, while
`ResizeImage` with the tables built for these sizes (scale 1, record 0 with
`lower = 0`, `lerp = 0`) returns the whole input `[5, 7]`. -/
theorem C15_shortcut_differs_from_general_path :
    CalculateResizeScale 1 1 false = 1 ∧
    weightTable 1 1 false = [⟨0, 0, 0⟩, ⟨0, 0, 0⟩] ∧
    ResizeImage [5, 7] 2 1 1 1 1 1 (weightTable 1 1 false) (weightTable 1 1 false) [0, 0]
      = some [5, 7] ∧
    (ResizeBilinearFunctor.mk false [1, 1]).operatorCall (fun _ => 0)
        ⟨[2, 1, 1, 1], [5, 7]⟩ none ⟨[2, 1, 1, 1], [0, 0]⟩
      = (Status.ok, ⟨[2, 1, 1, 1], [5, 0]⟩) := by
  refine ⟨?_, ?_, ?_, ?_⟩ <;> with_unfolding_all decide

/-! ## The loops of `ResizeImage`, binary32 buffers -/

namespace binary32

/-- Inside the input buffer the kernel's address is a valid one: the read
returns the element `inputAt` names. -/
theorem readAt_inputAt32 (images : List F32) (B C H W b c : Nat) (r q : Int)
    (himg : B * C * H * W ≤ images.length) (hb : b < B) (hc : c < C)
    (hr0 : 0 ≤ r) (hr : r < (H : Int)) (hq0 : 0 ≤ q) (hq : q < (W : Int)) :
    readAt images ((C : Int) * ((H : Int) * (W : Int)) * (b : Int)
        + (H : Int) * (W : Int) * (c : Int) + r * (W : Int) + q)
      = some (inputAt images H W C b c r q) := by
  obtain ⟨r', rfl⟩ := Int.eq_ofNat_of_zero_le hr0
  obtain ⟨q', rfl⟩ := Int.eq_ofNat_of_zero_le hq0
  have hr' : r' < H := by exact_mod_cast hr
  have hq' : q' < W := by exact_mod_cast hq
  have hidx : (C : Int) * ((H : Int) * (W : Int)) * (b : Int)
        + (H : Int) * (W : Int) * (c : Int) + (r' : Int) * (W : Int) + (q' : Int)
      = ((((b * C + c) * H + r') * W + q' : Nat) : Int) := by
    push_cast; ring
  have hlt : ((b * C + c) * H + r') * W + q' < B * C * H * W :=
    lt_mul_add (lt_mul_add (lt_mul_add hb hc) hr') hq'
  unfold inputAt
  rw [hidx, readAt_natCast, List.getElem?_eq_getElem (by omega)]
  rfl

/-- The `x` loop fills one output row of `w` pixels starting at offset `p`. -/
theorem xLoop_spec32 (images : List F32) (B C H W w : Nat) (xs : List CachedInterpolation)
    (b c : Nat) (cy : CachedInterpolation)
    (himg : B * C * H * W ≤ images.length) (hb : b < B) (hc : c < C)
    (hxs : TableInRange xs w W)
    (hl0 : 0 ≤ cy.lower) (hl : cy.lower < (H : Int))
    (hu0 : 0 ≤ cy.upper) (hu : cy.upper < (H : Int))
    (p L : Nat) (hp : p + w ≤ L) (o : List F32) (ho : o.length = L) :
    ∃ o', (List.range w).foldlM
        (ResizeImage.xStep images xs
          ((C : Int) * ((H : Int) * (W : Int)) * (b : Int) + (H : Int) * (W : Int) * (c : Int)
            + cy.lower * (W : Int))
          ((C : Int) * ((H : Int) * (W : Int)) * (b : Int) + (H : Int) * (W : Int) * (c : Int)
            + cy.upper * (W : Int))
          cy.lerp (p : Int)) o = some o' ∧
      o'.length = L ∧
      (∀ x, x < w → o'[p + x]? = some
        (ComputeLerp
          (inputAt images H W C b c cy.lower (xs[x]?.getD ⟨0, 0, .fin 0⟩).lower)
          (inputAt images H W C b c cy.lower (xs[x]?.getD ⟨0, 0, .fin 0⟩).upper)
          (inputAt images H W C b c cy.upper (xs[x]?.getD ⟨0, 0, .fin 0⟩).lower)
          (inputAt images H W C b c cy.upper (xs[x]?.getD ⟨0, 0, .fin 0⟩).upper)
          (xs[x]?.getD ⟨0, 0, .fin 0⟩).lerp cy.lerp)) ∧
      ∀ j, (j < p ∨ p + w ≤ j) → o'[j]? = o[j]? := by
  have key := foldlM_range_blocks
    (ResizeImage.xStep images xs
      ((C : Int) * ((H : Int) * (W : Int)) * (b : Int) + (H : Int) * (W : Int) * (c : Int)
        + cy.lower * (W : Int))
      ((C : Int) * ((H : Int) * (W : Int)) * (b : Int) + (H : Int) * (W : Int) * (c : Int)
        + cy.upper * (W : Int))
      cy.lerp (p : Int)) L p 1
    (fun x o' => o'[p + x]? = some
        (ComputeLerp
          (inputAt images H W C b c cy.lower (xs[x]?.getD ⟨0, 0, .fin 0⟩).lower)
          (inputAt images H W C b c cy.lower (xs[x]?.getD ⟨0, 0, .fin 0⟩).upper)
          (inputAt images H W C b c cy.upper (xs[x]?.getD ⟨0, 0, .fin 0⟩).lower)
          (inputAt images H W C b c cy.upper (xs[x]?.getD ⟨0, 0, .fin 0⟩).upper)
          (xs[x]?.getD ⟨0, 0, .fin 0⟩).lerp cy.lerp))
    (by
      intro i o1 o2 h hsame
      rw [hsame (p + i) (by omega) (by omega)]
      exact h)
    w
    (by
      intro x hx o1 ho1
      obtain ⟨cx, hcx, hxl0, hxl, hxu0, hxu⟩ := hxs x hx
      have hpx : p + x < o1.length := by omega
      have hcast : (p : Int) + (x : Int) = ((p + x : Nat) : Int) := by push_cast; rfl
      refine ⟨o1.set (p + x) (ComputeLerp
          (inputAt images H W C b c cy.lower cx.lower)
          (inputAt images H W C b c cy.lower cx.upper)
          (inputAt images H W C b c cy.upper cx.lower)
          (inputAt images H W C b c cy.upper cx.upper) cx.lerp cy.lerp),
        ?_, by simp [ho1], ?_, ?_⟩
      · simp only [ResizeImage.xStep, hcx,
          readAt_inputAt32 images B C H W b c cy.lower cx.lower himg hb hc hl0 hl hxl0 hxl,
          readAt_inputAt32 images B C H W b c cy.lower cx.upper himg hb hc hl0 hl hxu0 hxu,
          readAt_inputAt32 images B C H W b c cy.upper cx.lower himg hb hc hu0 hu hxl0 hxl,
          readAt_inputAt32 images B C H W b c cy.upper cx.upper himg hb hc hu0 hu hxu0 hxu]
        rw [hcast, writeAt_natCast _ _ _ hpx]
      · beta_reduce
        simp only [hcx, Option.getD_some]
        exact List.getElem?_set_self hpx
      · intro j hj
        rw [List.getElem?_set_ne (by omega)])
    o ho
  obtain ⟨o', h1, h2, h3, h4⟩ := key
  exact ⟨o', h1, h2, h3, fun j hj => h4 j (by omega)⟩

/-- The moving pointer of the `y` loop: at iteration `y` it is the start value
plus `y * out_width`. -/
theorem yLoop_eq32 (images : List F32) (in_width out_width : Int)
    (xs ys : List CachedInterpolation) (input_ptr : Int) (n : Nat) (ptr : Int) (o : List F32) :
    (List.range n).foldlM (ResizeImage.yStep images in_width out_width xs ys input_ptr) (ptr, o)
      = Option.map (fun o' => (ptr + (n : Int) * out_width, o'))
          ((List.range n).foldlM
            (fun (o' : List F32) (y : Nat) => Option.map Prod.snd
              (ResizeImage.yStep images in_width out_width xs ys input_ptr
                (ptr + (y : Int) * out_width, o') y)) o) := by
  induction n with
  | zero => simp
  | succ n ih =>
    rw [List.range_succ, List.foldlM_append, List.foldlM_append, ih]
    cases hX : (List.range n).foldlM
        (fun (o' : List F32) (y : Nat) => Option.map Prod.snd
          (ResizeImage.yStep images in_width out_width xs ys input_ptr
            (ptr + (y : Int) * out_width, o') y)) o with
    | none => simp
    | some o1 =>
      have hptr : ptr + (n : Int) * out_width + out_width
          = ptr + ((n + 1 : Nat) : Int) * out_width := by push_cast; ring
      cases hcy : ys[n]? with
      | none => simp [ResizeImage.yStep, hcy]
      | some cy =>
        cases hrow : (List.range out_width.toNat).foldlM
            (ResizeImage.xStep images xs (input_ptr + cy.lower * in_width)
              (input_ptr + cy.upper * in_width) cy.lerp (ptr + (n : Int) * out_width)) o1 with
        | none => simp [ResizeImage.yStep, hcy, hrow]
        | some o2 => simp [ResizeImage.yStep, hcy, hrow, hptr]

/-- One `(b, c)` cell fills output plane `(b, c)` with the blended values and
changes nothing else. -/
theorem cell_spec32 (images : List F32) (B C H W h w : Nat) (xs ys : List CachedInterpolation)
    (himg : B * C * H * W ≤ images.length)
    (hxs : TableInRange xs w W) (hys : TableInRange ys h H)
    (b c : Nat) (hb : b < B) (hc : c < C)
    (L : Nat) (hL : B * C * h * w ≤ L) (o : List F32) (ho : o.length = L) :
    ∃ o', ResizeImage.cell images H W h w C xs ys o b c = some o' ∧ o'.length = L ∧
      (∀ y, y < h → ∀ x, x < w → o'[(b * C + c) * (h * w) + y * w + x]? =
        some (ResizeImage.pixelValue images H W C xs ys b c y x)) ∧
      ∀ j, (j < (b * C + c) * (h * w) ∨ (b * C + c) * (h * w) + h * w ≤ j) →
        o'[j]? = o[j]? := by
  have hbc : b * C + c < B * C := lt_mul_add hb hc
  have hpL : (b * C + c) * (h * w) + h * w ≤ L := by
    have h1 : (b * C + c + 1) * (h * w) ≤ B * C * (h * w) := Nat.mul_le_mul_right _ hbc
    have h2 : (b * C + c + 1) * (h * w) = (b * C + c) * (h * w) + h * w := by ring
    have h3 : B * C * (h * w) = B * C * h * w := by ring
    omega
  have hptr : (C : Int) * ((h : Int) * (w : Int)) * (b : Int) + (h : Int) * (w : Int) * (c : Int)
      = (((b * C + c) * (h * w) : Nat) : Int) := by push_cast; ring
  have key := foldlM_range_blocks
    (fun (o' : List F32) (y : Nat) => Option.map Prod.snd
      (ResizeImage.yStep images (W : Int) (w : Int) xs ys
        ((C : Int) * ((H : Int) * (W : Int)) * (b : Int) + (H : Int) * (W : Int) * (c : Int))
        ((((b * C + c) * (h * w) : Nat) : Int) + (y : Int) * (w : Int), o') y))
    L ((b * C + c) * (h * w)) w
    (fun y o' => ∀ x, x < w → o'[(b * C + c) * (h * w) + y * w + x]? =
        some (ResizeImage.pixelValue images H W C xs ys b c y x))
    (by
      intro i o1 o2 hq hsame x hx
      rw [hsame _ (by omega) (by
        have : (i + 1) * w = i * w + w := by ring
        omega)]
      exact hq x hx)
    h
    (by
      intro y hy o1 ho1
      obtain ⟨cy, hcy, hl0, hl, hu0, hu⟩ := hys y hy
      have hyw : (b * C + c) * (h * w) + y * w + w ≤ L := by
        have h1 : (y + 1) * w ≤ h * w := Nat.mul_le_mul_right w hy
        have h2 : (y + 1) * w = y * w + w := by ring
        omega
      obtain ⟨o2, hrow, hlen2, hval, hframe⟩ :=
        xLoop_spec32 images B C H W w xs b c cy himg hb hc hxs hl0 hl hu0 hu
          ((b * C + c) * (h * w) + y * w) L hyw o1 ho1
      have hcast : (((b * C + c) * (h * w) : Nat) : Int) + (y : Int) * (w : Int)
          = (((b * C + c) * (h * w) + y * w : Nat) : Int) := by push_cast; ring
      refine ⟨o2, ?_, hlen2, ?_, ?_⟩
      · simp only [ResizeImage.yStep, hcy, Int.toNat_natCast]
        rw [hcast, hrow]
        rfl
      · intro x hx
        rw [hval x hx]
        simp only [ResizeImage.pixelValue, hcy, Option.getD_some]
      · intro j hj
        apply hframe
        have : (y + 1) * w = y * w + w := by ring
        omega)
    o ho
  obtain ⟨o', hfold, hlen, hQ, hframe⟩ := key
  refine ⟨o', ?_, hlen, fun y hy x hx => hQ y hy x hx, hframe⟩
  simp only [ResizeImage.cell, Int.toNat_natCast]
  rw [hptr, yLoop_eq32, hfold]
  rfl

/-- The inner `c` loop of `ResizeImage` for one batch index `b`. -/
theorem channelLoop_spec32 (images : List F32) (B C H W h w : Nat)
    (xs ys : List CachedInterpolation)
    (himg : B * C * H * W ≤ images.length)
    (hxs : TableInRange xs w W) (hys : TableInRange ys h H)
    (b : Nat) (hb : b < B)
    (L : Nat) (hL : B * C * h * w ≤ L) (o : List F32) (ho : o.length = L) :
    ∃ o', (List.range C).foldlM
        (fun out c => ResizeImage.cell images H W h w C xs ys out b c) o = some o' ∧
      o'.length = L ∧
      (∀ c, c < C → ∀ y, y < h → ∀ x, x < w → o'[(b * C + c) * (h * w) + y * w + x]? =
        some (ResizeImage.pixelValue images H W C xs ys b c y x)) ∧
      ∀ j, (j < b * (C * (h * w)) ∨ b * (C * (h * w)) + C * (h * w) ≤ j) →
        o'[j]? = o[j]? := by
  have hbase : ∀ c, (b * C + c) * (h * w) = b * (C * (h * w)) + c * (h * w) := by
    intro c; ring
  have hsucc : ∀ c, (c + 1) * (h * w) = c * (h * w) + h * w := by intro c; ring
  have key := foldlM_range_blocks
    (fun out c => ResizeImage.cell images H W h w C xs ys out b c)
    L (b * (C * (h * w))) (h * w)
    (fun c o' => ∀ y, y < h → ∀ x, x < w → o'[(b * C + c) * (h * w) + y * w + x]? =
        some (ResizeImage.pixelValue images H W C xs ys b c y x))
    (by
      intro c o1 o2 hq hsame y hy x hx
      have hyx : y * w + x < h * w := lt_mul_add hy hx
      have h1 := hbase c
      have h2 := hsucc c
      rw [hsame _ (by omega) (by omega)]
      exact hq y hy x hx)
    C
    (by
      intro c hc o1 ho1
      obtain ⟨o2, hcell, hlen2, hval, hframe⟩ :=
        cell_spec32 images B C H W h w xs ys himg hxs hys b c hb hc L hL o1 ho1
      refine ⟨o2, hcell, hlen2, hval, ?_⟩
      intro j hj
      have h1 := hbase c
      have h2 := hsucc c
      exact hframe j (by omega))
    o ho
  obtain ⟨o', hfold, hlen, hQ, hframe⟩ := key
  exact ⟨o', hfold, hlen, hQ, fun j hj => hframe j (by
    have : C * (h * w) = C * (h * w) := rfl
    omega)⟩

/-- Function `ResizeImage` on tables whose indices are in range: it returns a
buffer, of the length it was given, in which output pixel `(b, c, y, x)` holds
the blended value, and in which nothing past the `B*C*h*w` output elements has
changed. -/
theorem ResizeImage_spec32 (images : List F32) (B C H W h w : Nat)
    (xs ys : List CachedInterpolation)
    (himg : B * C * H * W ≤ images.length)
    (hxs : TableInRange xs w W) (hys : TableInRange ys h H)
    (o : List F32) (hL : B * C * h * w ≤ o.length) :
    ∃ o', ResizeImage images B H W h w C xs ys o = some o' ∧ o'.length = o.length ∧
      (∀ b, b < B → ∀ c, c < C → ∀ y, y < h → ∀ x, x < w →
        o'[((b * C + c) * h + y) * w + x]? =
          some (ResizeImage.pixelValue images H W C xs ys b c y x)) ∧
      ∀ j, B * C * h * w ≤ j → o'[j]? = o[j]? := by
  have hsucc : ∀ b, (b + 1) * (C * (h * w)) = b * (C * (h * w)) + C * (h * w) := by
    intro b; ring
  have hidx : ∀ b c y x, ((b * C + c) * h + y) * w + x
      = b * (C * (h * w)) + (c * (h * w) + y * w + x) := by
    intro b c y x; ring
  have hidx2 : ∀ b c y x, (b * C + c) * (h * w) + y * w + x
      = b * (C * (h * w)) + (c * (h * w) + y * w + x) := by
    intro b c y x; ring
  have hin : ∀ c y x, c < C → y < h → x < w → c * (h * w) + y * w + x < C * (h * w) := by
    intro c y x hc hy hx
    have h1 : c * (h * w) + (y * w + x) < C * (h * w) := lt_mul_add hc (lt_mul_add hy hx)
    omega
  have key := foldlM_range_blocks
    (fun out b => (List.range C).foldlM
      (fun out c => ResizeImage.cell images H W h w C xs ys out b c) out)
    o.length 0 (C * (h * w))
    (fun b o' => ∀ c, c < C → ∀ y, y < h → ∀ x, x < w →
      o'[((b * C + c) * h + y) * w + x]? =
        some (ResizeImage.pixelValue images H W C xs ys b c y x))
    (by
      intro b o1 o2 hq hsame c hc y hy x hx
      have h1 := hidx b c y x
      have h2 := hin c y x hc hy hx
      have h3 := hsucc b
      rw [hsame _ (by omega) (by omega)]
      exact hq c hc y hy x hx)
    B
    (by
      intro b hb o1 ho1
      obtain ⟨o2, hloop, hlen2, hval, hframe⟩ :=
        channelLoop_spec32 images B C H W h w xs ys himg hxs hys b hb o.length hL o1 ho1
      refine ⟨o2, hloop, hlen2, ?_, ?_⟩
      · intro c hc y hy x hx
        have h1 := hidx b c y x
        have h2 := hidx2 b c y x
        rw [h1, ← h2]
        exact hval c hc y hy x hx
      · intro j hj
        have h3 := hsucc b
        exact hframe j (by omega))
    o rfl
  obtain ⟨o', hfold, hlen, hQ, hframe⟩ := key
  refine ⟨o', ?_, hlen, hQ, ?_⟩
  · simpa only [ResizeImage, Int.toNat_natCast] using hfold
  · intro j hj
    have h1 : B * (C * (h * w)) = B * C * h * w := by ring
    exact hframe j (by omega)

/-- Inside the input buffer `inputAt` is the element at the row-major index. -/
theorem getElem?_inputAt32 (images : List F32) (B C H W b c r q : Nat)
    (himg : B * C * H * W ≤ images.length) (hb : b < B) (hc : c < C)
    (hr : r < H) (hq : q < W) :
    images[((b * C + c) * H + r) * W + q]? = some (inputAt images H W C b c r q) := by
  have h := readAt_inputAt32 images B C H W b c (r : Int) (q : Int) himg hb hc
    (Int.natCast_nonneg r) (by exact_mod_cast hr) (Int.natCast_nonneg q) (by exact_mod_cast hq)
  have hidx : (C : Int) * ((H : Int) * (W : Int)) * (b : Int)
        + (H : Int) * (W : Int) * (c : Int) + (r : Int) * (W : Int) + (q : Int)
      = ((((b * C + c) * H + r) * W + q : Nat) : Int) := by
    push_cast; ring
  rw [hidx, readAt_natCast] at h
  exact h

/-- Inside the input buffer, `inputAt` at in-range integer indices is the
element at the row-major index. -/
theorem getElem?_inputAt_toNat32 (images : List F32) (B C H W b c : Nat) (r q : Int)
    (himg : B * C * H * W ≤ images.length) (hb : b < B) (hc : c < C)
    (hr0 : 0 ≤ r) (hr : r < (H : Int)) (hq0 : 0 ≤ q) (hq : q < (W : Int)) :
    images[((b * C + c) * H + r.toNat) * W + q.toNat]? = some (inputAt images H W C b c r q) := by
  obtain ⟨r', rfl⟩ := Int.eq_ofNat_of_zero_le hr0
  obtain ⟨q', rfl⟩ := Int.eq_ofNat_of_zero_le hq0
  rw [Int.toNat_natCast, Int.toNat_natCast]
  exact getElem?_inputAt32 images B C H W b c r' q' himg hb hc (by exact_mod_cast hr)
    (by exact_mod_cast hq)

end binary32

/-! ## Rounding to binary32 -/

namespace binary32

theorem pow2_eq_zpow (e : Int) : pow2 e = (2 : ℚ) ^ e := by
  unfold pow2
  split
  · rename_i h
    obtain ⟨n, rfl⟩ := Int.eq_ofNat_of_zero_le h
    simp
  · rename_i h
    have hneg : 0 ≤ -e := by omega
    obtain ⟨n, hn⟩ := Int.eq_ofNat_of_zero_le hneg
    have he : e = -(n : Int) := by omega
    rw [hn, he]
    simp

theorem pow2_pos (e : Int) : 0 < pow2 e := by
  rw [pow2_eq_zpow]
  positivity

theorem pow2_add (a b : Int) : pow2 (a + b) = pow2 a * pow2 b := by
  rw [pow2_eq_zpow, pow2_eq_zpow, pow2_eq_zpow]
  exact zpow_add₀ (by norm_num) a b

/-- Halving `n` until it is below 2 counts `floor(log2 n)` steps. -/
theorem log2Aux_spec : ∀ (fuel n : Nat), 0 < n → n ≤ fuel →
    2 ^ log2Aux fuel n ≤ n ∧ n < 2 ^ (log2Aux fuel n + 1)
  | 0, n, hn, hf => by omega
  | fuel + 1, n, hn, hf => by
    unfold log2Aux
    split
    · rename_i h2
      have : n = 1 := by omega
      subst this
      simp
    · rename_i h2
      have hpos : 0 < n / 2 := by omega
      have hle : n / 2 ≤ fuel := by omega
      obtain ⟨h1, h3⟩ := log2Aux_spec fuel (n / 2) hpos hle
      have e1 : 2 ^ (log2Aux fuel (n / 2) + 1) = 2 * 2 ^ log2Aux fuel (n / 2) := by
        rw [pow_succ]; ring
      have e2 : 2 ^ (log2Aux fuel (n / 2) + 1 + 1) = 2 * 2 ^ (log2Aux fuel (n / 2) + 1) := by
        rw [pow_succ]; ring
      constructor
      · rw [e1]; omega
      · rw [e2]; omega

/-- The exponent computed for a positive rational below `2^K` is below `K`. -/
theorem ilog2_lt (a : ℚ) (ha : 0 < a) (K : Int) (h : a < (2 : ℚ) ^ K) : ilog2 a < K := by
  have hnum : 0 < a.num := Rat.num_pos.mpr ha
  obtain ⟨n, hn⟩ := Int.eq_ofNat_of_zero_le hnum.le
  have hn0 : 0 < n := by omega
  have hd0 : 0 < a.den := a.den_pos
  have hnat : a.num.natAbs = n := by rw [hn]; rfl
  obtain ⟨hL1, _⟩ := log2Aux_spec n n hn0 (le_refl n)
  obtain ⟨_, hD2⟩ := log2Aux_spec a.den a.den hd0 (le_refl _)
  have hcast : (a.num : ℚ) = (n : ℚ) := by rw [hn]; norm_cast
  have hdq : (0 : ℚ) < (a.den : ℚ) := by exact_mod_cast hd0
  have h1 : ((2 : ℚ) ^ (log2Aux n n : Int)) ≤ (n : ℚ) := by
    rw [zpow_natCast]
    exact_mod_cast hL1
  have h2 : (a.den : ℚ) < (2 : ℚ) ^ ((log2Aux a.den a.den : Int) + 1) := by
    have : (a.den : ℚ) < (2 : ℚ) ^ (log2Aux a.den a.den + 1) := by exact_mod_cast hD2
    rw [← zpow_natCast] at this
    push_cast at this
    exact this
  have h3 : (n : ℚ) = a * (a.den : ℚ) := by
    rw [Rat.mul_den_eq_num, hcast]
  have h4 : (n : ℚ) ≤ (2 : ℚ) ^ K * (a.den : ℚ) := by
    rw [h3]
    exact mul_le_mul_of_nonneg_right h.le hdq.le
  have hpK : (0 : ℚ) < (2 : ℚ) ^ K := by positivity
  have h5 : (2 : ℚ) ^ (log2Aux n n : Int)
      < (2 : ℚ) ^ (K + ((log2Aux a.den a.den : Int) + 1)) := by
    rw [zpow_add₀ (by norm_num : (2 : ℚ) ≠ 0)]
    calc (2 : ℚ) ^ (log2Aux n n : Int) ≤ (n : ℚ) := h1
      _ ≤ (2 : ℚ) ^ K * (a.den : ℚ) := h4
      _ < (2 : ℚ) ^ K * (2 : ℚ) ^ ((log2Aux a.den a.den : Int) + 1) :=
          mul_lt_mul_of_pos_left h2 hpK
  have h6 : (log2Aux n n : Int) < K + ((log2Aux a.den a.den : Int) + 1) :=
    (zpow_lt_zpow_iff_right₀ (by norm_num : (1 : ℚ) < 2)).mp h5
  unfold ilog2
  simp only [hnat]
  split
  · omega
  · rename_i hnot
    have hge : pow2 ((log2Aux n n : Int) - (log2Aux a.den a.den : Int)) ≤ a := not_lt.mp hnot
    rw [pow2_eq_zpow] at hge
    have h7 : (2 : ℚ) ^ ((log2Aux n n : Int) - (log2Aux a.den a.den : Int)) < (2 : ℚ) ^ K :=
      lt_of_le_of_lt hge h
    exact (zpow_lt_zpow_iff_right₀ (by norm_num : (1 : ℚ) < 2)).mp h7

theorem roundNearestEven_natCast (N : Nat) : roundNearestEven (N : ℚ) = (N : Int) := by
  unfold roundNearestEven
  simp

/-- Rounding to the nearest integer does not cross an integer. -/
theorem roundNearestEven_le (x : ℚ) (N : Int) (h : x ≤ (N : ℚ)) : roundNearestEven x ≤ N := by
  have hf : ⌊x⌋ ≤ N := Int.floor_le_iff.mpr (by linarith)
  unfold roundNearestEven
  rcases hf.lt_or_eq with hlt | heq
  · split
    · omega
    · split
      · omega
      · split <;> omega
  · have hx : x = (N : ℚ) := le_antisymm h (by rw [← heq]; exact Int.floor_le x)
    have h0 : x - (⌊x⌋ : ℚ) < 1 / 2 := by
      rw [heq, hx]; norm_num
    rw [if_pos h0]
    omega

theorem roundNearestEven_nonneg (x : ℚ) (h : 0 ≤ x) : 0 ≤ roundNearestEven x := by
  have hf : 0 ≤ ⌊x⌋ := Int.floor_nonneg.mpr h
  unfold roundNearestEven
  split
  · exact hf
  · split
    · omega
    · split <;> omega

end binary32

namespace binary32

/-- Rounding keeps a value of magnitude at most `2^K` finite and of magnitude at
most `2^K` (`-149 ≤ K ≤ 127`), and keeps the sign of a non-negative value. -/
theorem round32_bound (q : ℚ) (K : Int) (hK1 : -149 ≤ K) (hK2 : K ≤ 127)
    (h : |q| ≤ (2 : ℚ) ^ K) :
    ∃ r, round32 q = F32.fin r ∧ |r| ≤ (2 : ℚ) ^ K ∧ (0 ≤ q → 0 ≤ r) := by
  by_cases hq : q = 0
  · subst hq
    exact ⟨0, by simp [round32], by simp; positivity, fun _ => le_refl 0⟩
  have ha : 0 < |q| := abs_pos.mpr hq
  have hlt : |q| < (2 : ℚ) ^ (K + 1) :=
    lt_of_le_of_lt h (zpow_lt_zpow_right₀ (by norm_num) (by omega))
  have he : ilog2 |q| < K + 1 := ilog2_lt |q| ha (K + 1) hlt
  have hp : max (ilog2 |q|) (-126) - 23 ≤ K := by
    rcases max_cases (ilog2 |q|) (-126) with ⟨h1, _⟩ | ⟨h1, _⟩ <;> omega
  generalize hpdef : max (ilog2 |q|) (-126) - 23 = p at hp
  have hppos : 0 < pow2 p := pow2_pos p
  obtain ⟨j, hj⟩ := Int.eq_ofNat_of_zero_le (by omega : 0 ≤ K - p)
  have hKp : pow2 K = pow2 p * ((2 ^ j : Nat) : ℚ) := by
    have : K = p + (j : Int) := by omega
    rw [this, pow2_add, pow2_eq_zpow (j : Int), zpow_natCast]
    push_cast
    rfl
  have hx : |q| / pow2 p ≤ (((2 ^ j : Nat) : Int) : ℚ) := by
    rw [div_le_iff₀ hppos]
    have : |q| ≤ pow2 K := by rw [pow2_eq_zpow]; exact h
    rw [hKp] at this
    push_cast at this ⊢
    linarith
  have hx0 : 0 ≤ |q| / pow2 p := div_nonneg ha.le hppos.le
  have hr1 := roundNearestEven_le _ _ hx
  have hr0 := roundNearestEven_nonneg _ hx0
  have hv1 : (roundNearestEven (|q| / pow2 p) : ℚ) * pow2 p ≤ pow2 K := by
    rw [hKp]
    have : (roundNearestEven (|q| / pow2 p) : ℚ) ≤ ((2 ^ j : Nat) : ℚ) := by
      exact_mod_cast hr1
    nlinarith
  have hv0 : 0 ≤ (roundNearestEven (|q| / pow2 p) : ℚ) * pow2 p :=
    mul_nonneg (by exact_mod_cast hr0) hppos.le
  have hK128 : pow2 K < pow2 128 := by
    rw [pow2_eq_zpow, pow2_eq_zpow]
    exact zpow_lt_zpow_right₀ (by norm_num) (by omega)
  have hnov : ¬ pow2 128 ≤ (roundNearestEven (|q| / pow2 p) : ℚ) * pow2 p := by
    intro hc; linarith
  have hround : round32 q = F32.fin
      (if q < 0 then -((roundNearestEven (|q| / pow2 p) : ℚ) * pow2 p)
        else (roundNearestEven (|q| / pow2 p) : ℚ) * pow2 p) := by
    unfold round32
    rw [if_neg hq]
    simp only [hpdef]
    rw [if_neg hnov]
  refine ⟨_, hround, ?_, ?_⟩
  · rw [← pow2_eq_zpow]
    split
    · rw [abs_neg, abs_of_nonneg hv0]; exact hv1
    · rw [abs_of_nonneg hv0]; exact hv1
  · intro hq0
    rw [if_neg (not_lt.mpr hq0)]
    exact hv0

/-- Integers below `2^24` are binary32 values: their conversion is exact. -/
theorem round32_natCast (m : Nat) (hm : m < 2 ^ 24) : round32 (m : ℚ) = F32.fin (m : ℚ) := by
  by_cases hm0 : m = 0
  · subst hm0
    simp [round32]
  have hmq : (0 : ℚ) < (m : ℚ) := by exact_mod_cast Nat.pos_of_ne_zero hm0
  have hq : (m : ℚ) ≠ 0 := hmq.ne'
  have habs : |(m : ℚ)| = (m : ℚ) := abs_of_pos hmq
  have hlt : (m : ℚ) < (2 : ℚ) ^ (24 : Int) := by
    have h1 : (m : ℚ) < ((2 ^ 24 : Nat) : ℚ) := by exact_mod_cast hm
    have h2 : ((2 ^ 24 : Nat) : ℚ) = (2 : ℚ) ^ (24 : Int) := by norm_num
    rw [← h2]
    exact h1
  have he : ilog2 (m : ℚ) < 24 := ilog2_lt _ hmq 24 hlt
  have hp : max (ilog2 (m : ℚ)) (-126) - 23 ≤ 0 := by
    rcases max_cases (ilog2 (m : ℚ)) (-126) with ⟨h1, _⟩ | ⟨h1, _⟩ <;> omega
  generalize hpdef : max (ilog2 (m : ℚ)) (-126) - 23 = p at hp
  obtain ⟨j, hj⟩ := Int.eq_ofNat_of_zero_le (by omega : 0 ≤ -p)
  have hpow : pow2 p = 1 / ((2 ^ j : Nat) : ℚ) := by
    have hpj : p = -(j : Int) := by omega
    rw [pow2_eq_zpow, hpj, zpow_neg, zpow_natCast]
    push_cast
    rw [one_div]
  have h2j : (0 : ℚ) < ((2 ^ j : Nat) : ℚ) := by positivity
  have hx : (m : ℚ) / pow2 p = ((m * 2 ^ j : Nat) : ℚ) := by
    rw [hpow]
    push_cast
    field_simp
  have hv : (roundNearestEven ((m : ℚ) / pow2 p) : ℚ) * pow2 p = (m : ℚ) := by
    rw [hx, roundNearestEven_natCast, hpow]
    push_cast
    field_simp
  have hnov : ¬ pow2 128 ≤ (m : ℚ) := by
    intro hc
    have h128 : (2 : ℚ) ^ (24 : Int) ≤ pow2 128 := by
      rw [pow2_eq_zpow]
      exact zpow_le_zpow_right₀ (by norm_num) (by norm_num)
    linarith
  unfold round32
  rw [if_neg hq]
  simp only [habs, hpdef, hv]
  rw [if_neg hnov, if_neg (not_lt.mpr hmq.le)]

theorem ofInt_natCast (m : Nat) (hm : m < 2 ^ 24) : ofInt (m : Int) = F32.fin (m : ℚ) := by
  unfold ofInt
  rw [Int.cast_natCast]
  exact round32_natCast m hm

theorem round32_zero : round32 0 = F32.fin 0 := by
  simp [round32]

end binary32

/-! ## The weight table in binary32 -/

namespace binary32

/-- When every record can be formed, the loop of `ComputeInterpolationWeights`
stores `entry i` at every index below `n` and leaves the rest of the table. -/
theorem loop_spec32 (in_size : Int) (scale : F32) (n : Nat)
    (hent : ∀ i, i < n → ∃ r, ComputeInterpolationWeights.entry in_size scale i = some r) :
    ∀ t : List CachedInterpolation, n ≤ t.length →
      ∃ t', ComputeInterpolationWeights.loop in_size scale n t = some t' ∧
        t'.length = t.length ∧
        (∀ i, i < n → t'[i]? = ComputeInterpolationWeights.entry in_size scale i) ∧
        ∀ j, n ≤ j → t'[j]? = t[j]? := by
  induction n with
  | zero =>
    intro t _
    exact ⟨t, rfl, rfl, by intro i hi; omega, by intro j _; rfl⟩
  | succ n ih =>
    intro t ht
    have hn : n < t.length := by omega
    obtain ⟨r, hr⟩ := hent n (by omega)
    obtain ⟨t', hloop, hlen, hval, hframe⟩ :=
      ih (fun i hi => hent i (by omega)) (t.set n r) (by simp; omega)
    refine ⟨t', ?_, by simpa using hlen, ?_, ?_⟩
    · simp only [ComputeInterpolationWeights.loop, hr, hn, if_true]
      exact hloop
    · intro i hi
      by_cases hin : i = n
      · subst hin
        rw [hframe i (le_refl i), hr]
        exact List.getElem?_set_self hn
      · exact hval i (by omega)
    · intro j hj
      rw [hframe j (by omega), List.getElem?_set_ne (by omega)]

/-- A record that cannot be formed stops the descending loop. -/
theorem loop_none32 (in_size : Int) (scale : F32) (n : Nat)
    (hbad : ∃ i, i < n ∧ ComputeInterpolationWeights.entry in_size scale i = none) :
    ∀ t : List CachedInterpolation, ComputeInterpolationWeights.loop in_size scale n t = none := by
  induction n with
  | zero => obtain ⟨i, hi, _⟩ := hbad; omega
  | succ n ih =>
    intro t
    unfold ComputeInterpolationWeights.loop
    cases hr : ComputeInterpolationWeights.entry in_size scale n with
    | none => rfl
    | some r =>
      obtain ⟨i, hi, hnone⟩ := hbad
      have hin : i < n := by
        rcases Nat.lt_or_ge i n with h | h
        · exact h
        · have : i = n := by omega
          subst this
          rw [hr] at hnone
          exact absurd hnone (by simp)
      simp only
      split
      · exact ih ⟨i, hin, hnone⟩ _
      · rfl

/-- Function `ComputeInterpolationWeights` on a table of at least `n + 1`
records, when every record can be formed. -/
theorem ComputeInterpolationWeights_spec32 (n : Nat) (in_size : Int) (scale : F32)
    (t : List CachedInterpolation) (ht : n + 1 ≤ t.length)
    (hent : ∀ i, i < n → ∃ r, ComputeInterpolationWeights.entry in_size scale i = some r) :
    ∃ t' r, ComputeInterpolationWeights (n : Int) in_size scale t = some t' ∧
      t'.length = t.length ∧ t[n]? = some r ∧
      (∀ i, i < n → t'[i]? = ComputeInterpolationWeights.entry in_size scale i) ∧
      t'[n]? = some { r with lower := 0, upper := 0 } ∧
      ∀ j, n < j → t'[j]? = t[j]? := by
  have hn : n < t.length := by omega
  obtain ⟨t', hloop, hlen, hval, hframe⟩ :=
    loop_spec32 in_size scale n hent
      (t.set n { t[n] with lower := 0, upper := 0 }) (by simp; omega)
  refine ⟨t', t[n], ?_, by simpa using hlen, List.getElem?_eq_getElem hn, hval, ?_, ?_⟩
  · simp only [ComputeInterpolationWeights, readAt_natCast, List.getElem?_eq_getElem hn,
      Int.toNat_natCast]
    exact hloop
  · rw [hframe n (le_refl n)]
    exact List.getElem?_set_self hn
  · intro j hj
    rw [hframe j (by omega), List.getElem?_set_ne (by omega)]

/-- The ascending loop, when every record can be formed. -/
theorem ascending_loop_spec32 (in_size : Int) (scale : F32) (n : Nat)
    (hent : ∀ i, i < n → ∃ r, ComputeInterpolationWeights.entry in_size scale i = some r)
    (t : List CachedInterpolation) (hn : n ≤ t.length) :
    ∃ t', (List.range n).foldlM
        (fun (t : List CachedInterpolation) (i : Nat) =>
          match ComputeInterpolationWeights.entry in_size scale i with
          | none => none
          | some e => if i < t.length then some (t.set i e) else none) t = some t' ∧
      t'.length = t.length ∧
      (∀ i, i < n → t'[i]? = ComputeInterpolationWeights.entry in_size scale i) ∧
      ∀ j, n ≤ j → t'[j]? = t[j]? := by
  have key := foldlM_range_blocks
    (fun (t : List CachedInterpolation) (i : Nat) =>
      match ComputeInterpolationWeights.entry in_size scale i with
      | none => none
      | some e => if i < t.length then some (t.set i e) else none)
    t.length 0 1
    (fun i t' => t'[i]? = ComputeInterpolationWeights.entry in_size scale i)
    (by
      intro i o1 o2 hq hsame
      rw [hsame i (by omega) (by omega)]
      exact hq)
    n
    (by
      intro i hi o1 ho1
      have hi1 : i < o1.length := by omega
      obtain ⟨r, hr⟩ := hent i hi
      refine ⟨o1.set i r, ?_, by simp [ho1], ?_, ?_⟩
      · simp only [hr, hi1, if_true]
      · show (o1.set i r)[i]? = ComputeInterpolationWeights.entry in_size scale i
        rw [hr]
        exact List.getElem?_set_self hi1
      · intro j hj
        rw [List.getElem?_set_ne (by omega)])
    t rfl
  obtain ⟨t', hfold, hlen, hQ, hframe⟩ := key
  exact ⟨t', hfold, hlen, hQ, fun j hj => hframe j (by omega)⟩

/-- A record that cannot be formed stops the ascending loop. -/
theorem ascending_loop_none32 (in_size : Int) (scale : F32) (n : Nat)
    (hbad : ∃ i, i < n ∧ ComputeInterpolationWeights.entry in_size scale i = none) :
    ∀ t : List CachedInterpolation, (List.range n).foldlM
        (fun (t : List CachedInterpolation) (i : Nat) =>
          match ComputeInterpolationWeights.entry in_size scale i with
          | none => none
          | some e => if i < t.length then some (t.set i e) else none) t = none := by
  induction n with
  | zero => obtain ⟨i, hi, _⟩ := hbad; omega
  | succ n ih =>
    intro t
    rw [List.range_succ, List.foldlM_append]
    obtain ⟨i, hi, hnone⟩ := hbad
    by_cases hin : i < n
    · rw [ih ⟨i, hin, hnone⟩ t]
      rfl
    · have : i = n := by omega
      subst this
      cases (List.range i).foldlM
          (fun (t : List CachedInterpolation) (i : Nat) =>
            match ComputeInterpolationWeights.entry in_size scale i with
            | none => none
            | some e => if i < t.length then some (t.set i e) else none) t with
      | none => rfl
      | some t1 => simp [hnone]

/-- Ascending and descending build agree on every input. -/
theorem ascending_eq32 (out_size in_size : Int) (scale : F32)
    (interpolation : List CachedInterpolation) :
    ComputeInterpolationWeights.ascending out_size in_size scale interpolation
      = ComputeInterpolationWeights out_size in_size scale interpolation := by
  unfold ComputeInterpolationWeights.ascending ComputeInterpolationWeights
  cases hr : readAt interpolation out_size with
  | none => rfl
  | some r =>
    have hlt : out_size.toNat < interpolation.length := by
      unfold readAt at hr
      split at hr
      · exact (List.getElem?_eq_some_iff.mp hr).1
      · exact absurd hr (by simp)
    have hle : out_size.toNat
        ≤ (interpolation.set out_size.toNat { r with lower := 0, upper := 0 }).length := by
      simp; omega
    show (List.range out_size.toNat).foldlM _ _ = ComputeInterpolationWeights.loop _ _ _ _
    by_cases hall : ∀ i, i < out_size.toNat →
        ∃ e, ComputeInterpolationWeights.entry in_size scale i = some e
    · obtain ⟨t1, h1, hlen1, hval1, hframe1⟩ :=
        ascending_loop_spec32 in_size scale out_size.toNat hall _ hle
      obtain ⟨t2, h2, hlen2, hval2, hframe2⟩ :=
        loop_spec32 in_size scale out_size.toNat hall _ hle
      have heq : t1 = t2 := by
        apply List.ext_getElem?
        intro j
        by_cases hj : j < out_size.toNat
        · rw [hval1 j hj, hval2 j hj]
        · rw [hframe1 j (by omega), hframe2 j (by omega)]
      rw [h1, h2, heq]
    · have hbad : ∃ i, i < out_size.toNat ∧
          ComputeInterpolationWeights.entry in_size scale i = none := by
        by_contra hc
        apply hall
        intro i hi
        cases he : ComputeInterpolationWeights.entry in_size scale i with
        | none => exact absurd ⟨i, hi, he⟩ hc
        | some e => exact ⟨e, rfl⟩
      rw [ascending_loop_none32 in_size scale _ hbad, loop_none32 in_size scale _ hbad]

/-- The table `operator()` builds for an axis of `n` outputs, when every record
can be formed: the build succeeds with `n + 1` records, record `i < n` is
`entry i` and record `n` is all zero. -/
theorem weightTable_spec32 (n : Nat) (in_size : Int) (align_corners : Bool)
    (hent : ∀ i, i < n → ∃ r, ComputeInterpolationWeights.entry in_size
      (CalculateResizeScale in_size n align_corners) i = some r) :
    ComputeInterpolationWeights (n : Int) in_size
        (CalculateResizeScale in_size n align_corners)
        (List.replicate ((n : Int) + 1).toNat (CachedInterpolation.mk 0 0 (.fin 0)))
      = some (weightTable n in_size align_corners) ∧
    (weightTable n in_size align_corners).length = n + 1 ∧
    (∀ i, i < n → (weightTable n in_size align_corners)[i]? =
      ComputeInterpolationWeights.entry in_size
        (CalculateResizeScale in_size n align_corners) i) ∧
    (weightTable n in_size align_corners)[n]? = some ⟨0, 0, .fin 0⟩ := by
  have hlen : ((n : Int) + 1).toNat = n + 1 := by omega
  obtain ⟨t', r, hrun, hlen', hr, hval, hsent, _⟩ :=
    ComputeInterpolationWeights_spec32 n in_size (CalculateResizeScale in_size n align_corners)
      (List.replicate ((n : Int) + 1).toNat (CachedInterpolation.mk 0 0 (.fin 0)))
      (by simp [hlen]) hent
  have hr' : r = ⟨0, 0, .fin 0⟩ := by
    rw [List.getElem?_replicate] at hr
    split at hr
    · exact (Option.some.inj hr).symm
    · exact absurd hr (by simp)
  have htab : weightTable n in_size align_corners = t' := by
    unfold weightTable
    rw [hrun]
    rfl
  rw [htab]
  refine ⟨hrun, by simpa [hlen] using hlen', hval, ?_⟩
  rw [hsent, hr']

/-- A table with a record at index 0 was built: the build did not stop. -/
theorem weightTable_built32 (n : Nat) (in_size : Int) (align_corners : Bool) (size : Nat)
    (hn : 1 ≤ n) (hr : TableInRange (weightTable n in_size align_corners) n size) :
    ComputeInterpolationWeights (n : Int) in_size
        (CalculateResizeScale in_size n align_corners)
        (List.replicate ((n : Int) + 1).toNat (CachedInterpolation.mk 0 0 (.fin 0)))
      = some (weightTable n in_size align_corners) := by
  obtain ⟨r, h0, _⟩ := hr 0 (by omega)
  unfold weightTable at h0 ⊢
  cases hc : ComputeInterpolationWeights (n : Int) in_size
      (CalculateResizeScale in_size n align_corners)
      (List.replicate ((n : Int) + 1).toNat (CachedInterpolation.mk 0 0 (.fin 0))) with
  | none =>
    rw [hc] at h0
    simp at h0
  | some t => rfl

end binary32

/-! ## Exact cases of the binary32 operations -/

namespace binary32

theorem toIndex_natCast (m : Nat) (hm : m < 2 ^ 63) :
    toIndex (F32.fin (m : ℚ)) = some (m : Int) := by
  have h0 : (0 : ℚ) ≤ (m : ℚ) := Nat.cast_nonneg m
  have hf : ⌊(m : ℚ)⌋ = (m : Int) := Int.floor_natCast m
  have h1 : -(2 ^ 63 : Int) ≤ (m : Int) := by
    have : (0 : Int) ≤ (m : Int) := Int.natCast_nonneg m
    omega
  have h2 : (m : Int) < (2 ^ 63 : Int) := by exact_mod_cast hm
  simp only [toIndex, h0, if_true, hf, h1, h2, and_self]

theorem toIndex_of_nonneg (p : ℚ) (h0 : 0 ≤ p) (h1 : p ≤ (2 : ℚ) ^ (62 : Int)) :
    toIndex (F32.fin p) = some ⌊p⌋ := by
  have hf0 : (0 : Int) ≤ ⌊p⌋ := Int.floor_nonneg.mpr h0
  have hf1 : ⌊p⌋ < (2 ^ 63 : Int) := by
    rw [Int.floor_lt]
    have : (2 : ℚ) ^ (62 : Int) < (((2 ^ 63 : Int)) : ℚ) := by norm_num
    linarith
  have h3 : -(2 ^ 63 : Int) ≤ ⌊p⌋ := by
    have : (0 : Int) < 2 ^ 63 := by norm_num
    omega
  simp only [toIndex, h0, if_true, h3, hf1, and_self]

theorem sub_self32 (v : ℚ) : F32.sub (F32.fin v) (F32.fin v) = F32.fin 0 := by
  simp only [F32.sub, F32.neg, F32.add, add_neg_cancel, round32_zero]

theorem mul_zero32 (a : ℚ) : F32.mul (F32.fin a) (F32.fin 0) = F32.fin 0 := by
  simp only [F32.mul, mul_zero, round32_zero]

theorem zero_mul32 (a : ℚ) : F32.mul (F32.fin 0) (F32.fin a) = F32.fin 0 := by
  simp only [F32.mul, zero_mul, round32_zero]

theorem add_zero32 (v : ℚ) (hv : round32 v = F32.fin v) :
    F32.add (F32.fin v) (F32.fin 0) = F32.fin v := by
  simp only [F32.add, add_zero, hv]

/-- The difference of two finite values of magnitude at most `2 ^ 126` is finite. -/
theorem sub_finite32 (a b : ℚ) (ha : |a| ≤ (2 : ℚ) ^ (126 : Int))
    (hb : |b| ≤ (2 : ℚ) ^ (126 : Int)) : ∃ d, F32.sub (F32.fin a) (F32.fin b) = F32.fin d := by
  have h : |a + -b| ≤ (2 : ℚ) ^ (127 : Int) := by
    have h1 : |a + -b| ≤ |a| + |(-b)| := abs_add a (-b)
    rw [abs_neg] at h1
    have h2 : (2 : ℚ) ^ (127 : Int) = (2 : ℚ) ^ (126 : Int) + (2 : ℚ) ^ (126 : Int) := by norm_num
    linarith
  obtain ⟨d, hd, _⟩ := round32_bound (a + -b) 127 (by norm_num) (by norm_num) h
  exact ⟨d, by simp only [F32.sub, F32.neg, F32.add, hd]⟩

/-- With both fractions zero the blend returns its top-left sample. -/
theorem ComputeLerp_zero_zero32 (tl tr bl br : ℚ)
    (htl : round32 tl = F32.fin tl) (hbl : round32 bl = F32.fin bl)
    (h1 : |tl| ≤ (2 : ℚ) ^ (126 : Int)) (h2 : |tr| ≤ (2 : ℚ) ^ (126 : Int))
    (h3 : |bl| ≤ (2 : ℚ) ^ (126 : Int)) (h4 : |br| ≤ (2 : ℚ) ^ (126 : Int)) :
    ComputeLerp (F32.fin tl) (F32.fin tr) (F32.fin bl) (F32.fin br) (F32.fin 0) (F32.fin 0)
      = F32.fin tl := by
  obtain ⟨d1, hd1⟩ := sub_finite32 tr tl h2 h1
  obtain ⟨d2, hd2⟩ := sub_finite32 br bl h4 h3
  obtain ⟨d3, hd3⟩ := sub_finite32 bl tl h3 h1
  simp only [ComputeLerp, hd1, hd2, mul_zero32, add_zero32 tl htl, add_zero32 bl hbl, hd3]

/-- Four equal finite samples blend to the same value, whatever the fractions. -/
theorem ComputeLerp_const32 (v x y : ℚ) (hv : round32 v = F32.fin v) :
    ComputeLerp (F32.fin v) (F32.fin v) (F32.fin v) (F32.fin v) (F32.fin x) (F32.fin y)
      = F32.fin v := by
  simp only [ComputeLerp, sub_self32, zero_mul32, add_zero32 v hv]

/-- Conversion of an `index_t` value to `float` is finite. -/
theorem ofInt_finite32 (n : Int) (hn : |n| ≤ 2 ^ 63) :
    ∃ r, ofInt n = F32.fin r ∧ |r| ≤ (2 : ℚ) ^ (63 : Int) := by
  have h : |(n : ℚ)| ≤ (2 : ℚ) ^ (63 : Int) := by
    have h1 : ((|n| : Int) : ℚ) ≤ (((2 ^ 63 : Int)) : ℚ) := by exact_mod_cast hn
    rw [Int.cast_abs] at h1
    have h2 : (((2 ^ 63 : Int)) : ℚ) = (2 : ℚ) ^ (63 : Int) := by norm_num
    linarith
  obtain ⟨r, hr, hb, _⟩ := round32_bound (n : ℚ) 63 (by norm_num) (by norm_num) h
  exact ⟨r, hr, hb⟩

/-- Record `i` for a finite scale in `[0, 2 ^ 38]` and `i < 2 ^ 24`: the product
`i * scale` is rounded once, `lower` is the floor of the rounded product. -/
theorem entry_some32 (in_size : Int) (s : ℚ) (i : Nat) (hs0 : 0 ≤ s)
    (hs1 : s ≤ (2 : ℚ) ^ (38 : Int)) (hi : i < 2 ^ 24) :
    ∃ p, round32 ((i : ℚ) * s) = F32.fin p ∧ 0 ≤ p ∧ p ≤ (2 : ℚ) ^ (62 : Int) ∧
      ComputeInterpolationWeights.entry in_size (F32.fin s) i
        = some ⟨⌊p⌋, min (⌊p⌋ + 1) (in_size - 1), F32.sub (F32.fin p) (ofInt ⌊p⌋)⟩ := by
  have hi0 : (0 : ℚ) ≤ (i : ℚ) := Nat.cast_nonneg i
  have hi1 : (i : ℚ) ≤ (2 : ℚ) ^ (24 : Int) := by
    have : (i : ℚ) < ((2 ^ 24 : Nat) : ℚ) := by exact_mod_cast hi
    have h2 : ((2 ^ 24 : Nat) : ℚ) = (2 : ℚ) ^ (24 : Int) := by norm_num
    linarith
  have hprod0 : 0 ≤ (i : ℚ) * s := mul_nonneg hi0 hs0
  have hprod1 : |(i : ℚ) * s| ≤ (2 : ℚ) ^ (62 : Int) := by
    rw [abs_of_nonneg hprod0]
    have h3 : (2 : ℚ) ^ (62 : Int) = (2 : ℚ) ^ (24 : Int) * (2 : ℚ) ^ (38 : Int) := by norm_num
    rw [h3]
    exact mul_le_mul hi1 hs1 hs0 (by norm_num)
  obtain ⟨p, hp, hpb, hp0⟩ := round32_bound ((i : ℚ) * s) 62 (by norm_num) (by norm_num) hprod1
  have hp0' : 0 ≤ p := hp0 hprod0
  have hp1 : p ≤ (2 : ℚ) ^ (62 : Int) := by
    rw [abs_of_nonneg hp0'] at hpb
    exact hpb
  refine ⟨p, hp, hp0', hp1, ?_⟩
  have hmul : F32.mul (ofInt (i : Int)) (F32.fin s) = F32.fin p := by
    rw [ofInt_natCast i hi]
    simp only [F32.mul, hp]
  simp only [ComputeInterpolationWeights.entry, hmul, toIndex_of_nonneg p hp0' hp1]

/-- Record 0 for any finite scale. -/
theorem entry_zero32 (in_size : Int) (s : ℚ) :
    ComputeInterpolationWeights.entry in_size (F32.fin s) 0
      = some ⟨0, min 1 (in_size - 1), F32.fin 0⟩ := by
  have h0 : ofInt ((0 : Nat) : Int) = F32.fin 0 := by
    have := ofInt_natCast 0 (by norm_num)
    simpa using this
  have hmul : F32.mul (ofInt ((0 : Nat) : Int)) (F32.fin s) = F32.fin 0 := by
    rw [h0]
    exact zero_mul32 s
  have ht : toIndex (F32.fin 0) = some 0 := by
    have := toIndex_natCast 0 (by norm_num)
    simpa using this
  have h00 : ofInt 0 = F32.fin 0 := by simpa using h0
  simp only [ComputeInterpolationWeights.entry, hmul, ht, h00, sub_self32, zero_add]

/-- A record whose rounded product is the integer `m` has `lower = m` and a
zero fraction. -/
theorem entry_exact32 (in_size : Int) (scale : F32) (i m : Nat) (hm : m < 2 ^ 24)
    (h : F32.mul (ofInt (i : Int)) scale = F32.fin (m : ℚ)) :
    ComputeInterpolationWeights.entry in_size scale i
      = some ⟨(m : Int), min ((m : Int) + 1) (in_size - 1), F32.fin 0⟩ := by
  have hm63 : m < 2 ^ 63 := lt_trans hm (by norm_num)
  simp only [ComputeInterpolationWeights.entry, h, toIndex_natCast m hm63,
    ofInt_natCast m hm, sub_self32]

/-- A conversion to `index_t` that is defined has an argument below `2 ^ 64`
in magnitude and a result of magnitude at most `2 ^ 63`. -/
theorem toIndex_some_bound32 (p : ℚ) (l : Int) (h : toIndex (F32.fin p) = some l) :
    |l| ≤ 2 ^ 63 ∧ |p| ≤ (2 : ℚ) ^ (64 : Int) := by
  by_cases hp0 : 0 ≤ p
  · simp only [toIndex, hp0, if_true] at h
    split at h
    · rename_i hrange
      simp only [Option.some.injEq] at h
      subst h
      refine ⟨by rw [abs_le]; constructor <;> omega, ?_⟩
      have hfl2 : p < (⌊p⌋ : ℚ) + 1 := Int.lt_floor_add_one p
      have hq : ((⌊p⌋ : Int) : ℚ) < (((2 ^ 63 : Int)) : ℚ) := by exact_mod_cast hrange.2
      rw [abs_of_nonneg hp0]
      have : (((2 ^ 63 : Int)) : ℚ) + 1 ≤ (2 : ℚ) ^ (64 : Int) := by norm_num
      linarith
    · exact absurd h (by simp)
  · simp only [toIndex, hp0, if_false] at h
    split at h
    · rename_i hrange
      simp only [Option.some.injEq] at h
      subst h
      refine ⟨by rw [abs_le]; constructor <;> omega, ?_⟩
      have hcl2 : (⌈p⌉ : ℚ) < p + 1 := Int.ceil_lt_add_one p
      have hq : (((-(2 ^ 63) : Int)) : ℚ) ≤ ((⌈p⌉ : Int) : ℚ) := by exact_mod_cast hrange.1
      rw [abs_of_nonpos (le_of_lt (not_le.mp hp0))]
      have : -((((-(2 ^ 63) : Int)) : ℚ) - 1) ≤ (2 : ℚ) ^ (64 : Int) := by norm_num
      linarith
    · exact absurd h (by simp)

/-- The fraction of every record that can be formed is finite. -/
theorem entry_lerp_finite32 (in_size : Int) (scale : F32) (i : Nat) (r : CachedInterpolation)
    (h : ComputeInterpolationWeights.entry in_size scale i = some r) :
    ∃ q, r.lerp = F32.fin q := by
  unfold ComputeInterpolationWeights.entry at h
  cases hp : F32.mul (ofInt (i : Int)) scale with
  | nan => rw [hp] at h; simp [toIndex] at h
  | inf s => rw [hp] at h; simp [toIndex] at h
  | fin p =>
    rw [hp] at h
    cases ht : toIndex (F32.fin p) with
    | none => rw [ht] at h; simp at h
    | some l =>
      rw [ht] at h
      simp only [Option.some.injEq] at h
      subst h
      obtain ⟨hl, hpb⟩ := toIndex_some_bound32 p l ht
      obtain ⟨l', hl', hlb⟩ := ofInt_finite32 l hl
      have hsum : |p + -l'| ≤ (2 : ℚ) ^ (65 : Int) := by
        have h1 : |p + -l'| ≤ |p| + |(-l')| := abs_add p (-l')
        rw [abs_neg] at h1
        have : (2 : ℚ) ^ (64 : Int) + (2 : ℚ) ^ (63 : Int) ≤ (2 : ℚ) ^ (65 : Int) := by norm_num
        linarith
      obtain ⟨d, hd, _⟩ := round32_bound (p + -l') 65 (by norm_num) (by norm_num) hsum
      exact ⟨d, by simp only [hl', F32.sub, F32.neg, F32.add, hd]⟩

end binary32

/-! ## The grid of binary32 values -/

namespace binary32

/-- The exponent computed for a rational at least `2^K` is at least `K`. -/
theorem ilog2_ge (a : ℚ) (ha : 0 < a) (K : Int) (h : (2 : ℚ) ^ K ≤ a) : K ≤ ilog2 a := by
  have hnum : 0 < a.num := Rat.num_pos.mpr ha
  obtain ⟨n, hn⟩ := Int.eq_ofNat_of_zero_le hnum.le
  have hn0 : 0 < n := by omega
  have hd0 : 0 < a.den := a.den_pos
  have hnat : a.num.natAbs = n := by rw [hn]; rfl
  obtain ⟨_, hL2⟩ := log2Aux_spec n n hn0 (le_refl n)
  obtain ⟨hD1, _⟩ := log2Aux_spec a.den a.den hd0 (le_refl _)
  have hcast : (a.num : ℚ) = (n : ℚ) := by rw [hn]; norm_cast
  have hdq : (0 : ℚ) < (a.den : ℚ) := by exact_mod_cast hd0
  have h1 : (n : ℚ) < (2 : ℚ) ^ ((log2Aux n n : Int) + 1) := by
    have : (n : ℚ) < (2 : ℚ) ^ (log2Aux n n + 1) := by exact_mod_cast hL2
    rw [← zpow_natCast] at this
    push_cast at this
    exact this
  have h2 : (2 : ℚ) ^ (log2Aux a.den a.den : Int) ≤ (a.den : ℚ) := by
    rw [zpow_natCast]
    exact_mod_cast hD1
  have h3 : (n : ℚ) = a * (a.den : ℚ) := by
    rw [Rat.mul_den_eq_num, hcast]
  have hpK : (0 : ℚ) < (2 : ℚ) ^ K := by positivity
  have h5 : (2 : ℚ) ^ (K + (log2Aux a.den a.den : Int))
      < (2 : ℚ) ^ ((log2Aux n n : Int) + 1) := by
    rw [zpow_add₀ (by norm_num : (2 : ℚ) ≠ 0)]
    calc (2 : ℚ) ^ K * (2 : ℚ) ^ (log2Aux a.den a.den : Int)
        ≤ (2 : ℚ) ^ K * (a.den : ℚ) := mul_le_mul_of_nonneg_left h2 hpK.le
      _ ≤ a * (a.den : ℚ) := mul_le_mul_of_nonneg_right h hdq.le
      _ = (n : ℚ) := h3.symm
      _ < (2 : ℚ) ^ ((log2Aux n n : Int) + 1) := h1
  have h6 : K + (log2Aux a.den a.den : Int) < (log2Aux n n : Int) + 1 :=
    (zpow_lt_zpow_iff_right₀ (by norm_num : (1 : ℚ) < 2)).mp h5
  unfold ilog2
  simp only [hnat]
  split
  · rename_i hlt
    rw [pow2_eq_zpow] at hlt
    have h7 : (2 : ℚ) ^ K < (2 : ℚ) ^ ((log2Aux n n : Int) - (log2Aux a.den a.den : Int)) :=
      lt_of_le_of_lt h hlt
    have := (zpow_lt_zpow_iff_right₀ (by norm_num : (1 : ℚ) < 2)).mp h7
    omega
  · omega

/-- The exponent `e = ilog2 a` of a positive rational: `2^e ≤ a < 2^(e+1)`. -/
theorem ilog2_spec (a : ℚ) (ha : 0 < a) :
    (2 : ℚ) ^ (ilog2 a) ≤ a ∧ a < (2 : ℚ) ^ (ilog2 a + 1) := by
  constructor
  · by_contra hc
    have := ilog2_lt a ha (ilog2 a) (not_le.mp hc)
    omega
  · by_contra hc
    have := ilog2_ge a ha (ilog2 a + 1) (not_lt.mp hc)
    omega

theorem ilog2_eq (a : ℚ) (ha : 0 < a) (E : Int) (h1 : (2 : ℚ) ^ E ≤ a)
    (h2 : a < (2 : ℚ) ^ (E + 1)) : ilog2 a = E := by
  have := ilog2_ge a ha E h1
  have := ilog2_lt a ha (E + 1) h2
  omega

theorem ilog2_mono (a b : ℚ) (ha : 0 < a) (hab : a ≤ b) : ilog2 a ≤ ilog2 b := by
  have hb : 0 < b := lt_of_lt_of_le ha hab
  have := ilog2_lt a ha (ilog2 b + 1) (lt_of_le_of_lt hab (ilog2_spec b hb).2)
  omega

theorem roundNearestEven_intCast (N : Int) : roundNearestEven (N : ℚ) = N := by
  unfold roundNearestEven
  simp

/-- Rounding to the nearest integer does not cross an integer from above. -/
theorem roundNearestEven_ge (x : ℚ) (N : Int) (h : (N : ℚ) ≤ x) : N ≤ roundNearestEven x := by
  have hf : N ≤ ⌊x⌋ := Int.le_floor.mpr h
  unfold roundNearestEven
  split
  · exact hf
  · split
    · omega
    · split <;> omega

/-- A value less than half above an integer rounds to it. -/
theorem roundNearestEven_lt_half (x : ℚ) (N : Int) (h1 : (N : ℚ) ≤ x)
    (h2 : x < (N : ℚ) + 1 / 2) : roundNearestEven x = N := by
  have hf : ⌊x⌋ = N := by
    rw [Int.floor_eq_iff]
    constructor
    · exact h1
    · linarith
  unfold roundNearestEven
  rw [hf, if_pos (by linarith)]

/-- The nearest integer is at most one half above. -/
theorem roundNearestEven_le_add_half (x : ℚ) : (roundNearestEven x : ℚ) ≤ x + 1 / 2 := by
  have h1 : (⌊x⌋ : ℚ) ≤ x := Int.floor_le x
  unfold roundNearestEven
  split
  · linarith
  · rename_i h
    have h' : 1 / 2 ≤ x - (⌊x⌋ : ℚ) := not_lt.mp h
    split
    · push_cast; linarith
    · split
      · linarith
      · push_cast; linarith

/-- Rounding of a positive value, spelled out. -/
theorem round32_pos (q : ℚ) (hq : 0 < q) :
    round32 q =
      if pow2 128 ≤ (roundNearestEven (q / pow2 (max (ilog2 q) (-126) - 23)) : ℚ)
          * pow2 (max (ilog2 q) (-126) - 23)
      then F32.inf false
      else F32.fin ((roundNearestEven (q / pow2 (max (ilog2 q) (-126) - 23)) : ℚ)
          * pow2 (max (ilog2 q) (-126) - 23)) := by
  unfold round32
  rw [if_neg hq.ne']
  simp only [abs_of_pos hq, not_lt.mpr hq.le, decide_False, if_false]

/-- Rounding commutes with negation. -/
theorem round32_neg32 (q : ℚ) : round32 (-q) = F32.neg (round32 q) := by
  by_cases hq : q = 0
  · subst hq
    simp [round32, F32.neg]
  have hnq : -q ≠ 0 := neg_ne_zero.mpr hq
  unfold round32
  rw [if_neg hq, if_neg hnq]
  simp only [abs_neg]
  rcases lt_or_gt_of_ne hq with hneg | hpos
  · have h1 : ¬ (-q < 0) := by linarith
    simp only [hneg, h1, decide_True, decide_False, if_true, if_false]
    split <;> simp [F32.neg]
  · have h1 : -q < 0 := by linarith
    have h2 : ¬ (q < 0) := by linarith
    simp only [h1, h2, decide_True, decide_False, if_true, if_false]
    split <;> simp [F32.neg]

end binary32

namespace binary32

/-- A finite result of rounding a positive value is a multiple `n * 2^p` of the
quantum of that value, with `n ≤ 2^24` the rounded quotient. -/
theorem round32_pos_fin (q : ℚ) (hq : 0 < q) (s : ℚ) (h : round32 q = F32.fin s) :
    ∃ n : Nat, n ≤ 2 ^ 24 ∧ s = (n : ℚ) * pow2 (max (ilog2 q) (-126) - 23) ∧
      (n : Int) = roundNearestEven (q / pow2 (max (ilog2 q) (-126) - 23)) ∧
      s < pow2 128 := by
  rw [round32_pos q hq] at h
  generalize hpdef : max (ilog2 q) (-126) - 23 = p at h ⊢
  have hppos : 0 < pow2 p := pow2_pos p
  split at h
  · exact absurd h (by simp)
  · rename_i hnov
    have hs : (roundNearestEven (q / pow2 p) : ℚ) * pow2 p = s := by
      injection h
    have hx0 : 0 ≤ q / pow2 p := div_nonneg hq.le hppos.le
    have hr0 := roundNearestEven_nonneg _ hx0
    have hlt : q < pow2 (p + 24) := by
      have h1 := (ilog2_spec q hq).2
      have h2 : ilog2 q + 1 ≤ p + 24 := by
        rcases max_cases (ilog2 q) (-126) with ⟨h3, _⟩ | ⟨h3, _⟩ <;> omega
      rw [pow2_eq_zpow]
      exact lt_of_lt_of_le h1 (zpow_le_zpow_right₀ (by norm_num) h2)
    have hx1 : q / pow2 p ≤ (((2 ^ 24 : Nat) : Int) : ℚ) := by
      rw [div_le_iff₀ hppos]
      rw [pow2_add] at hlt
      have h24 : pow2 24 = (((2 ^ 24 : Nat) : Int) : ℚ) := by
        rw [pow2_eq_zpow]; norm_num
      rw [h24] at hlt
      linarith
    have hr1 := roundNearestEven_le _ _ hx1
    obtain ⟨n, hn⟩ := Int.eq_ofNat_of_zero_le hr0
    refine ⟨n, ?_, ?_, hn.symm, ?_⟩
    · have : (n : Int) ≤ ((2 ^ 24 : Nat) : Int) := by rw [← hn]; exact hr1
      exact_mod_cast this
    · rw [← hs, hn]
      norm_cast
    · rw [← hs]
      exact not_le.mp hnov

/-- Multiples `n * 2^e` with `n ≤ 2^24`, `e ≥ -149`, below `2^128`, are binary32
values. -/
theorem round32_grid (n : Nat) (e : Int) (hn : n ≤ 2 ^ 24) (he : -149 ≤ e)
    (hfin : (n : ℚ) * pow2 e < pow2 128) :
    round32 ((n : ℚ) * pow2 e) = F32.fin ((n : ℚ) * pow2 e) := by
  have aux : ∀ (n : Nat) (e : Int), 0 < n → n < 2 ^ 24 → -149 ≤ e →
      (n : ℚ) * pow2 e < pow2 128 →
      round32 ((n : ℚ) * pow2 e) = F32.fin ((n : ℚ) * pow2 e) := by
    intro n e hn0 hn he hfin
    have hepos : 0 < pow2 e := pow2_pos e
    have hnq : (0 : ℚ) < (n : ℚ) := by exact_mod_cast hn0
    have ha : 0 < (n : ℚ) * pow2 e := mul_pos hnq hepos
    have hlt : (n : ℚ) * pow2 e < (2 : ℚ) ^ (24 + e) := by
      rw [zpow_add₀ (by norm_num : (2 : ℚ) ≠ 0), ← pow2_eq_zpow e]
      have h1 : (n : ℚ) < ((2 ^ 24 : Nat) : ℚ) := by exact_mod_cast hn
      have h2 : ((2 ^ 24 : Nat) : ℚ) = (2 : ℚ) ^ (24 : Int) := by norm_num
      rw [h2] at h1
      exact mul_lt_mul_of_pos_right h1 hepos
    have hlog := ilog2_lt _ ha (24 + e) hlt
    have hp : max (ilog2 ((n : ℚ) * pow2 e)) (-126) - 23 ≤ e := by
      rcases max_cases (ilog2 ((n : ℚ) * pow2 e)) (-126) with ⟨h1, _⟩ | ⟨h1, _⟩ <;> omega
    rw [round32_pos _ ha]
    generalize hpdef : max (ilog2 ((n : ℚ) * pow2 e)) (-126) - 23 = p at hp
    have hppos : 0 < pow2 p := pow2_pos p
    obtain ⟨j, hj⟩ := Int.eq_ofNat_of_zero_le (by omega : 0 ≤ e - p)
    have hep : pow2 e = pow2 p * ((2 ^ j : Nat) : ℚ) := by
      have : e = p + (j : Int) := by omega
      rw [this, pow2_add, pow2_eq_zpow (j : Int), zpow_natCast]
      push_cast
      rfl
    have hx : (n : ℚ) * pow2 e / pow2 p = ((n * 2 ^ j : Nat) : ℚ) := by
      rw [hep]
      push_cast
      field_simp
      ring
    have hv : (roundNearestEven ((n : ℚ) * pow2 e / pow2 p) : ℚ) * pow2 p
        = (n : ℚ) * pow2 e := by
      rw [hx, roundNearestEven_natCast, hep]
      push_cast
      ring
    rw [hv, if_neg (not_le.mpr hfin)]
  rcases Nat.eq_zero_or_pos n with h0 | h0
  · subst h0
    simp [round32_zero]
  rcases Nat.lt_or_ge n (2 ^ 24) with hlt | hge
  · exact aux n e h0 hlt he hfin
  · have hn24 : n = 2 ^ 24 := le_antisymm hn hge
    have hval : (n : ℚ) * pow2 e = ((2 ^ 23 : Nat) : ℚ) * pow2 (e + 1) := by
      rw [hn24, pow2_add, pow2_eq_zpow 1]
      push_cast
      norm_num
      ring
    rw [hval] at hfin ⊢
    exact aux (2 ^ 23) (e + 1) (by norm_num) (by norm_num) (by omega) hfin

/-- A finite result of rounding is a binary32 value: rounding it again changes
nothing. -/
theorem round32_idem (q s : ℚ) (h : round32 q = F32.fin s) : round32 s = F32.fin s := by
  have pos : ∀ q s : ℚ, 0 < q → round32 q = F32.fin s → round32 s = F32.fin s := by
    intro q s hq h
    obtain ⟨n, hn, hs, _, hfin⟩ := round32_pos_fin q hq s h
    rw [hs] at hfin ⊢
    apply round32_grid n _ hn _ hfin
    rcases max_cases (ilog2 q) (-126) with ⟨h3, _⟩ | ⟨h3, _⟩ <;> omega
  rcases lt_trichotomy q 0 with hneg | h0 | hpos
  · have h1 : round32 (-q) = F32.fin (-s) := by
      rw [round32_neg32, h]
      rfl
    have h2 := pos (-q) (-s) (by linarith) h1
    have h3 : round32 s = F32.neg (round32 (-s)) := by
      rw [← round32_neg32, neg_neg]
    rw [h3, h2]
    simp [F32.neg]
  · subst h0
    rw [round32_zero] at h
    injection h with h'
    rw [← h']
    exact round32_zero
  · exact pos q s hpos h

/-- A positive binary32 value is a multiple `n * 2^p` of its own quantum. -/
theorem fixed_grid (r : ℚ) (hr0 : 0 < r) (hr : round32 r = F32.fin r) :
    ∃ n : Nat, n ≤ 2 ^ 24 ∧ r = (n : ℚ) * pow2 (max (ilog2 r) (-126) - 23) ∧ r < pow2 128 := by
  obtain ⟨n, hn, hs, _, hfin⟩ := round32_pos_fin r hr0 r hr
  exact ⟨n, hn, hs, hfin⟩

/-- Rounding a positive value does not cross a binary32 value above it. -/
theorem round32_le_pos (y r : ℚ) (hy : 0 < y) (h : y ≤ r) (hr : round32 r = F32.fin r) :
    ∃ s, round32 y = F32.fin s ∧ 0 ≤ s ∧ s ≤ r := by
  have hr0 : 0 < r := lt_of_lt_of_le hy h
  obtain ⟨n, hn, hrn, hfin⟩ := fixed_grid r hr0 hr
  have hmono := ilog2_mono y r hy h
  have hp : max (ilog2 y) (-126) - 23 ≤ max (ilog2 r) (-126) - 23 := by
    have := max_le_max hmono (le_refl (-126 : Int))
    omega
  rw [round32_pos y hy]
  generalize hpydef : max (ilog2 y) (-126) - 23 = py at hp ⊢
  generalize hprdef : max (ilog2 r) (-126) - 23 = pr at hp hrn
  have hpypos : 0 < pow2 py := pow2_pos py
  obtain ⟨j, hj⟩ := Int.eq_ofNat_of_zero_le (by omega : 0 ≤ pr - py)
  have hprpy : pow2 pr = pow2 py * ((2 ^ j : Nat) : ℚ) := by
    have : pr = py + (j : Int) := by omega
    rw [this, pow2_add, pow2_eq_zpow (j : Int), zpow_natCast]
    push_cast
    rfl
  have hrq : r / pow2 py = (((n * 2 ^ j : Nat) : Int) : ℚ) := by
    rw [hrn, hprpy]
    push_cast
    field_simp
    ring
  have hx : y / pow2 py ≤ (((n * 2 ^ j : Nat) : Int) : ℚ) := by
    rw [← hrq]
    exact div_le_div_of_nonneg_right h hpypos.le
  have hx0 : 0 ≤ y / pow2 py := div_nonneg hy.le hpypos.le
  have hle := roundNearestEven_le _ _ hx
  have hge := roundNearestEven_nonneg _ hx0
  have hv : (roundNearestEven (y / pow2 py) : ℚ) * pow2 py ≤ r := by
    have h1 : (roundNearestEven (y / pow2 py) : ℚ) ≤ (((n * 2 ^ j : Nat) : Int) : ℚ) := by
      exact_mod_cast hle
    have h2 : (((n * 2 ^ j : Nat) : Int) : ℚ) * pow2 py = r := by
      rw [← hrq]
      field_simp
    calc (roundNearestEven (y / pow2 py) : ℚ) * pow2 py
        ≤ (((n * 2 ^ j : Nat) : Int) : ℚ) * pow2 py :=
          mul_le_mul_of_nonneg_right h1 hpypos.le
      _ = r := h2
  have hnov : ¬ pow2 128 ≤ (roundNearestEven (y / pow2 py) : ℚ) * pow2 py := by
    intro hc; linarith
  rw [if_neg hnov]
  exact ⟨_, rfl, mul_nonneg (by exact_mod_cast hge) hpypos.le, hv⟩

/-- Rounding a positive value does not cross a binary32 value below it. -/
theorem round32_ge_pos (y r : ℚ) (hr0 : 0 < r) (h : r ≤ y)
    (hy : y ≤ (2 : ℚ) ^ (127 : Int)) (hr : round32 r = F32.fin r) :
    ∃ s, round32 y = F32.fin s ∧ r ≤ s := by
  have hy0 : 0 < y := lt_of_lt_of_le hr0 h
  obtain ⟨s, hs, _, _⟩ := round32_bound y 127 (by norm_num) (by norm_num)
    (by rw [abs_of_pos hy0]; exact hy)
  refine ⟨s, hs, ?_⟩
  obtain ⟨m, _, hsm, hmr, _⟩ := round32_pos_fin y hy0 s hs
  obtain ⟨n, hn, hrn, hfin⟩ := fixed_grid r hr0 hr
  have hmono := ilog2_mono r y hr0 h
  generalize hpydef : max (ilog2 y) (-126) - 23 = py at hsm hmr
  generalize hprdef : max (ilog2 r) (-126) - 23 = pr at hrn
  have hpypos : 0 < pow2 py := pow2_pos py
  by_cases hpe : pr = py
  · rw [hpe] at hrn
    have hrq : r / pow2 py = ((n : Int) : ℚ) := by
      rw [hrn]
      push_cast
      field_simp
    have hx : ((n : Int) : ℚ) ≤ y / pow2 py := by
      rw [← hrq]
      exact div_le_div_of_nonneg_right h hpypos.le
    have hge := roundNearestEven_ge _ _ hx
    rw [← hmr] at hge
    have : (n : ℚ) ≤ (m : ℚ) := by exact_mod_cast hge
    rw [hrn, hsm]
    exact mul_le_mul_of_nonneg_right this hpypos.le
  · have hlt : ilog2 r < ilog2 y ∧ -126 ≤ ilog2 y := by
      rcases max_cases (ilog2 y) (-126) with ⟨h1, h2⟩ | ⟨h1, h2⟩ <;>
        rcases max_cases (ilog2 r) (-126) with ⟨h3, h4⟩ | ⟨h3, h4⟩ <;>
        constructor <;> omega
    have hpy : py = ilog2 y - 23 := by
      rcases max_cases (ilog2 y) (-126) with ⟨h1, h2⟩ | ⟨h1, h2⟩ <;> omega
    have hrlt : r < (2 : ℚ) ^ (ilog2 y) :=
      lt_of_lt_of_le (ilog2_spec r hr0).2 (zpow_le_zpow_right₀ (by norm_num) (by omega))
    have hB : (2 : ℚ) ^ (ilog2 y) = (((2 ^ 23 : Nat) : Int) : ℚ) * pow2 py := by
      have : ilog2 y = 23 + py := by omega
      rw [this, zpow_add₀ (by norm_num : (2 : ℚ) ≠ 0), ← pow2_eq_zpow py]
      norm_num
    have hx : (((2 ^ 23 : Nat) : Int) : ℚ) ≤ y / pow2 py := by
      rw [le_div_iff₀ hpypos, ← hB]
      exact (ilog2_spec y hy0).1
    have hge := roundNearestEven_ge _ _ hx
    rw [← hmr] at hge
    have h23 : (((2 ^ 23 : Nat) : Int) : ℚ) ≤ (m : ℚ) := by exact_mod_cast hge
    rw [hsm]
    calc r ≤ (2 : ℚ) ^ (ilog2 y) := hrlt.le
      _ = (((2 ^ 23 : Nat) : Int) : ℚ) * pow2 py := hB
      _ ≤ (m : ℚ) * pow2 py := mul_le_mul_of_nonneg_right h23 hpypos.le

end binary32

/-! ## Rounding between binary32 values -/

namespace binary32

theorem round32_neg_fin (q s : ℚ) (h : round32 q = F32.fin s) :
    round32 (-q) = F32.fin (-s) := by
  rw [round32_neg32, h]
  rfl

/-- Rounding does not cross a binary32 value above the argument. -/
theorem round32_le_of_le (y r : ℚ) (hr : round32 r = F32.fin r)
    (hy : |y| ≤ (2 : ℚ) ^ (127 : Int)) (h : y ≤ r) :
    ∃ s, round32 y = F32.fin s ∧ s ≤ r := by
  by_cases hy0 : 0 < y
  · obtain ⟨s, hs, _, hle⟩ := round32_le_pos y r hy0 h hr
    exact ⟨s, hs, hle⟩
  · have hy' : y ≤ 0 := not_lt.mp hy0
    by_cases hr0 : 0 ≤ r
    · have hny : |(-y)| ≤ (2 : ℚ) ^ (127 : Int) := by rw [abs_neg]; exact hy
      obtain ⟨s, hs, _, hpos⟩ := round32_bound (-y) 127 (by norm_num) (by norm_num) hny
      have hs' := round32_neg_fin (-y) s hs
      rw [neg_neg] at hs'
      exact ⟨-s, hs', by linarith [hpos (by linarith)]⟩
    · have hr' : r < 0 := not_le.mp hr0
      have hnr : round32 (-r) = F32.fin (-r) := round32_neg_fin r r hr
      have hny : -y ≤ (2 : ℚ) ^ (127 : Int) := by
        have := neg_le_abs y
        linarith
      obtain ⟨s, hs, hle⟩ := round32_ge_pos (-y) (-r) (by linarith) (by linarith) hny hnr
      have hs' := round32_neg_fin (-y) s hs
      rw [neg_neg] at hs'
      exact ⟨-s, hs', by linarith⟩

/-- Rounding does not cross a binary32 value below the argument. -/
theorem round32_ge_of_ge (y r : ℚ) (hr : round32 r = F32.fin r)
    (hy : |y| ≤ (2 : ℚ) ^ (127 : Int)) (h : r ≤ y) :
    ∃ s, round32 y = F32.fin s ∧ r ≤ s := by
  have hnr : round32 (-r) = F32.fin (-r) := round32_neg_fin r r hr
  obtain ⟨s, hs, hle⟩ := round32_le_of_le (-y) (-r) hnr (by rw [abs_neg]; exact hy) (by linarith)
  have hs' := round32_neg_fin (-y) s hs
  rw [neg_neg] at hs'
  exact ⟨-s, hs', by linarith⟩

/-- A binary32 value in `[0, 1)` is at most `1 - 2^-24`. -/
theorem fixed_lt_one (t : ℚ) (ht0 : 0 ≤ t) (ht1 : t < 1) (ht : round32 t = F32.fin t) :
    t ≤ 1 - 1 / 16777216 := by
  rcases ht0.lt_or_eq with hpos | h0
  · have hE : ilog2 t < 0 := ilog2_lt t hpos 0 (by simpa using ht1)
    by_cases hE1 : ilog2 t = -1
    · obtain ⟨n, _, hn, _⟩ := fixed_grid t hpos ht
      have hp : max (ilog2 t) (-126) - 23 = -24 := by rw [hE1]; rfl
      rw [hp] at hn
      have h24 : pow2 (-24) = 1 / 16777216 := by
        rw [pow2_eq_zpow]; norm_num
      rw [h24] at hn
      have hnlt : (n : ℚ) < 16777216 := by
        rw [hn] at ht1
        linarith
      have hnle : n ≤ 16777215 := by
        have : n < 16777216 := by exact_mod_cast hnlt
        omega
      have : (n : ℚ) ≤ 16777215 := by exact_mod_cast hnle
      rw [hn]
      linarith
    · have h2 : t < (2 : ℚ) ^ (-1 : Int) :=
        lt_of_lt_of_le (ilog2_spec t hpos).2 (zpow_le_zpow_right₀ (by norm_num) (by omega))
      have h3 : (2 : ℚ) ^ (-1 : Int) = 1 / 2 := by norm_num
      rw [h3] at h2
      linarith
  · rw [← h0]
    norm_num

/-- The key step of the bound on a blend.  For `D ≥ 0` a multiple of `2^-149`
(a difference of two binary32 values), `d` its rounding and `t` a binary32
fraction in `[0, 1)`, the rounded product `d * t` is at most `D`, even when `d`
was rounded up. -/
theorem round32_mul_le (D t d : ℚ) (hD0 : 0 ≤ D)
    (hgrid : ∃ k : Int, D = (k : ℚ) * pow2 (-149)) (hd : round32 D = F32.fin d)
    (ht0 : 0 ≤ t) (ht1 : t < 1) (ht : round32 t = F32.fin t) :
    ∃ e, round32 (d * t) = F32.fin e ∧ 0 ≤ e ∧ e ≤ D := by
  rcases hD0.lt_or_eq with hDpos | hD0'
  swap
  · rw [← hD0', round32_zero] at hd
    injection hd with hd'
    rw [← hd', zero_mul, round32_zero, ← hD0']
    exact ⟨0, rfl, le_refl 0, le_refl 0⟩
  obtain ⟨n, hn24, hdn, hnr, hdfin⟩ := round32_pos_fin D hDpos d hd
  have hdrep : round32 d = F32.fin d := round32_idem D d hd
  generalize hpdef : max (ilog2 D) (-126) - 23 = p at hdn hnr
  have hppos : 0 < pow2 p := pow2_pos p
  have hd0 : 0 ≤ d := by rw [hdn]; exact mul_nonneg (Nat.cast_nonneg n) hppos.le
  have hy0 : 0 ≤ d * t := mul_nonneg hd0 ht0
  rcases hy0.lt_or_eq with hypos | hyz
  swap
  · rw [← hyz, round32_zero]
    exact ⟨0, rfl, le_refl 0, hD0⟩
  have hdpos : 0 < d := by
    rcases hd0.lt_or_eq with h | h
    · exact h
    · rw [← h, zero_mul] at hypos
      exact absurd hypos (lt_irrefl 0)
  have hyd : d * t ≤ d := by
    have := mul_le_mul_of_nonneg_left ht1.le hd0
    linarith
  by_cases hcase : d ≤ D
  · obtain ⟨e, he, he0, hed⟩ := round32_le_pos (d * t) d hypos hyd hdrep
    exact ⟨e, he, he0, le_trans hed hcase⟩
  · have hup : D < d := not_le.mp hcase
    have hxlt : D / pow2 p < (n : ℚ) := by
      rw [div_lt_iff₀ hppos, ← hdn]
      exact hup
    -- the subnormal range is exact
    have hnormal : -126 ≤ ilog2 D := by
      by_contra hsub
      have hp149 : p = -149 := by
        rw [← hpdef]
        rcases max_cases (ilog2 D) (-126) with ⟨h1, h2⟩ | ⟨h1, h2⟩ <;> omega
      obtain ⟨k, hk⟩ := hgrid
      have hq : D / pow2 p = ((k : Int) : ℚ) := by
        rw [hp149, hk, mul_div_assoc, div_self (pow2_pos (-149)).ne', mul_one]
      rw [hq, roundNearestEven_intCast] at hnr
      rw [hq] at hxlt
      have : ((k : Int) : ℚ) < ((n : Int) : ℚ) := by exact_mod_cast hxlt
      rw [hnr] at this
      exact absurd this (lt_irrefl _)
    have hpE : p = ilog2 D - 23 := by
      rw [← hpdef]
      rcases max_cases (ilog2 D) (-126) with ⟨h1, h2⟩ | ⟨h1, h2⟩ <;> omega
    have hB : (2 : ℚ) ^ (ilog2 D) = 8388608 * pow2 p := by
      have : ilog2 D = 23 + p := by omega
      rw [this, zpow_add₀ (by norm_num : (2 : ℚ) ≠ 0), ← pow2_eq_zpow p]
      norm_num
    have hB2 : (2 : ℚ) ^ (ilog2 D + 1) = 16777216 * pow2 p := by
      have : ilog2 D + 1 = 24 + p := by omega
      rw [this, zpow_add₀ (by norm_num : (2 : ℚ) ≠ 0), ← pow2_eq_zpow p]
      norm_num
    have hxge : (8388608 : ℚ) ≤ D / pow2 p := by
      rw [le_div_iff₀ hppos, ← hB]
      exact (ilog2_spec D hDpos).1
    have hn23 : 8388608 < n := by
      have : (8388608 : ℚ) < (n : ℚ) := lt_of_le_of_lt hxge hxlt
      exact_mod_cast this
    have hhalf : (n : ℚ) - 1 / 2 ≤ D / pow2 p := by
      have := roundNearestEven_le_add_half (D / pow2 p)
      rw [← hnr] at this
      have h2 : ((n : Int) : ℚ) = (n : ℚ) := by norm_cast
      rw [h2] at this
      linarith
    have hDge : ((n : ℚ) - 1 / 2) * pow2 p ≤ D := by
      rw [← le_div_iff₀ hppos]
      exact hhalf
    have ht24 := fixed_lt_one t ht0 ht1 ht
    have hnq : (8388608 : ℚ) < (n : ℚ) := by exact_mod_cast hn23
    have hylt : d * t < ((n : ℚ) - 1 / 2) * pow2 p := by
      have h1 : d * t ≤ d * (1 - 1 / 16777216) := mul_le_mul_of_nonneg_left ht24 hd0
      rw [hdn] at h1 ⊢
      have h2 : (n : ℚ) * pow2 p * (1 - 1 / 16777216)
          < ((n : ℚ) - 1 / 2) * pow2 p := by
        have : (n : ℚ) * (1 - 1 / 16777216) < (n : ℚ) - 1 / 2 := by linarith
        nlinarith
      linarith
    obtain ⟨m, hm⟩ : ∃ m : Nat, n = m + 1 := ⟨n - 1, by omega⟩
    have hmq : (n : ℚ) = (m : ℚ) + 1 := by rw [hm]; push_cast; ring
    have hrfin : (m : ℚ) * pow2 p < pow2 128 := by
      have : (m : ℚ) * pow2 p ≤ d := by
        rw [hdn, hmq]
        nlinarith
      linarith
    have hp149 : -149 ≤ p := by omega
    have hrrep := round32_grid m p (by omega) hp149 hrfin
    have hrD : (m : ℚ) * pow2 p ≤ D := by
      have : (m : ℚ) * pow2 p ≤ ((n : ℚ) - 1 / 2) * pow2 p := by
        rw [hmq]
        nlinarith
      linarith
    by_cases hyr : d * t ≤ (m : ℚ) * pow2 p
    · obtain ⟨e, he, he0, her⟩ := round32_le_pos (d * t) _ hypos hyr hrrep
      exact ⟨e, he, he0, le_trans her hrD⟩
    · have hygt : (m : ℚ) * pow2 p < d * t := not_le.mp hyr
      have hm23 : (8388608 : ℚ) ≤ (m : ℚ) := by
        have : 8388608 ≤ m := by omega
        exact_mod_cast this
      have hEy : ilog2 (d * t) = ilog2 D := by
        apply ilog2_eq _ hypos
        · rw [hB]
          have : 8388608 * pow2 p ≤ (m : ℚ) * pow2 p :=
            mul_le_mul_of_nonneg_right hm23 hppos.le
          linarith
        · rw [hB2]
          have hn24q : (n : ℚ) ≤ 16777216 := by
            have : n ≤ 16777216 := by
              have h224 : (2 : Nat) ^ 24 = 16777216 := by norm_num
              omega
            exact_mod_cast this
          have : (n : ℚ) * pow2 p ≤ 16777216 * pow2 p :=
            mul_le_mul_of_nonneg_right hn24q hppos.le
          rw [hdn] at hyd
          linarith
      have hpy : max (ilog2 (d * t)) (-126) - 23 = p := by
        rw [hEy, hpdef]
      have hq1 : ((m : Int) : ℚ) ≤ d * t / pow2 p := by
        rw [le_div_iff₀ hppos]
        push_cast
        exact hygt.le
      have hq2 : d * t / pow2 p < ((m : Int) : ℚ) + 1 / 2 := by
        rw [div_lt_iff₀ hppos]
        push_cast
        rw [hmq] at hylt
        have : (m : ℚ) + 1 - 1 / 2 = (m : ℚ) + 1 / 2 := by ring
        rw [this] at hylt
        exact hylt
      have hrne := roundNearestEven_lt_half _ _ hq1 hq2
      rw [round32_pos (d * t) hypos, hpy, hrne]
      have hcast : (((m : Int)) : ℚ) = (m : ℚ) := by norm_cast
      rw [hcast, if_neg (not_le.mpr hrfin)]
      exact ⟨_, rfl, mul_nonneg (Nat.cast_nonneg m) hppos.le, hrD⟩

end binary32

/-! ## The blend stays between its corners -/

namespace binary32

/-- Every binary32 value is a multiple of `2^-149`. -/
theorem fixed_multiple (r : ℚ) (hr : round32 r = F32.fin r) :
    ∃ k : Int, r = (k : ℚ) * pow2 (-149) := by
  have pos : ∀ r : ℚ, 0 < r → round32 r = F32.fin r → ∃ k : Int, r = (k : ℚ) * pow2 (-149) := by
    intro r hr0 hr
    obtain ⟨n, _, hn, _⟩ := fixed_grid r hr0 hr
    generalize hpdef : max (ilog2 r) (-126) - 23 = p at hn
    have hp : -149 ≤ p := by
      rw [← hpdef]
      rcases max_cases (ilog2 r) (-126) with ⟨h1, h2⟩ | ⟨h1, h2⟩ <;> omega
    obtain ⟨j, hj⟩ := Int.eq_ofNat_of_zero_le (by omega : 0 ≤ p + 149)
    refine ⟨((n * 2 ^ j : Nat) : Int), ?_⟩
    have hpp : pow2 p = ((2 ^ j : Nat) : ℚ) * pow2 (-149) := by
      have : p = (j : Int) + (-149) := by omega
      rw [this, pow2_add, pow2_eq_zpow (j : Int), zpow_natCast]
      push_cast
      rfl
    rw [hn, hpp]
    push_cast
    ring
  rcases lt_trichotomy r 0 with hneg | h0 | hpos
  · obtain ⟨k, hk⟩ := pos (-r) (by linarith) (round32_neg_fin r r hr)
    refine ⟨-k, ?_⟩
    push_cast
    linarith
  · exact ⟨0, by rw [h0]; simp⟩
  · exact pos r hpos hr

/-- The one-axis blend `a + (b - a) * t` of the negated values is the negated
blend. -/
theorem lerp_neg32 (a b t : ℚ) :
    F32.add (F32.fin (-a)) (F32.mul (F32.sub (F32.fin (-b)) (F32.fin (-a))) (F32.fin t))
      = F32.neg (F32.add (F32.fin a) (F32.mul (F32.sub (F32.fin b) (F32.fin a)) (F32.fin t))) := by
  have h1 : F32.sub (F32.fin (-b)) (F32.fin (-a)) = F32.neg (F32.sub (F32.fin b) (F32.fin a)) := by
    show round32 (-b + - -a) = F32.neg (round32 (b + -a))
    rw [← round32_neg32]
    congr 1
    ring
  rw [h1]
  cases hX : F32.sub (F32.fin b) (F32.fin a) with
  | fin d =>
    have h2 : F32.mul (F32.neg (F32.fin d)) (F32.fin t) = F32.neg (F32.mul (F32.fin d) (F32.fin t)) := by
      show round32 (-d * t) = F32.neg (round32 (d * t))
      rw [← round32_neg32]
      congr 1
      ring
    rw [h2]
    cases hY : F32.mul (F32.fin d) (F32.fin t) with
    | fin e =>
      show round32 (-a + -e) = F32.neg (round32 (a + e))
      rw [← round32_neg32]
      congr 1
      ring
    | inf s => simp [F32.neg, F32.add]
    | nan => simp [F32.neg, F32.add]
  | inf s =>
    by_cases ht : t = 0
    · simp [F32.neg, F32.mul, F32.add, ht]
    · by_cases hlt : t < 0 <;> cases s <;> simp [F32.neg, F32.mul, F32.add, ht, hlt]
  | nan => simp [F32.neg, F32.mul, F32.add]

/-- The one-axis blend of two binary32 values `a ≤ b` of magnitude at most
`2^126`, with a binary32 fraction in `[0, 1)`, is finite and lies in `[a, b]`. -/
theorem lerp_between_le32 (a b t : ℚ) (hab : a ≤ b)
    (ha : round32 a = F32.fin a) (hb : round32 b = F32.fin b)
    (hA : |a| ≤ (2 : ℚ) ^ (126 : Int)) (hB : |b| ≤ (2 : ℚ) ^ (126 : Int))
    (ht0 : 0 ≤ t) (ht1 : t < 1) (ht : round32 t = F32.fin t) :
    ∃ r, F32.add (F32.fin a) (F32.mul (F32.sub (F32.fin b) (F32.fin a)) (F32.fin t)) = F32.fin r ∧
      a ≤ r ∧ r ≤ b := by
  have hD0 : 0 ≤ b + -a := by linarith
  have h127 : (2 : ℚ) ^ (127 : Int) = (2 : ℚ) ^ (126 : Int) + (2 : ℚ) ^ (126 : Int) := by norm_num
  have hDb : |b + -a| ≤ (2 : ℚ) ^ (127 : Int) := by
    have h1 : |b + -a| ≤ |b| + |(-a)| := abs_add b (-a)
    rw [abs_neg] at h1
    linarith
  obtain ⟨ka, hka⟩ := fixed_multiple a ha
  obtain ⟨kb, hkb⟩ := fixed_multiple b hb
  have hgrid : ∃ k : Int, b + -a = (k : ℚ) * pow2 (-149) :=
    ⟨kb - ka, by push_cast; rw [sub_mul, ← hka, ← hkb]; ring⟩
  obtain ⟨d, hd, _, _⟩ := round32_bound (b + -a) 127 (by norm_num) (by norm_num) hDb
  obtain ⟨e, he, he0, heD⟩ := round32_mul_le (b + -a) t d hD0 hgrid hd ht0 ht1 ht
  have hsum : |a + e| ≤ (2 : ℚ) ^ (127 : Int) := by
    have h126 : (2 : ℚ) ^ (126 : Int) ≤ (2 : ℚ) ^ (127 : Int) := by norm_num
    have ha1 := abs_le.mp hA
    have hb1 := abs_le.mp hB
    rw [abs_le]
    constructor <;> linarith
  obtain ⟨s, hs, hsb⟩ := round32_le_of_le (a + e) b hb hsum (by linarith)
  obtain ⟨s', hs', hsa⟩ := round32_ge_of_ge (a + e) a ha hsum (by linarith)
  rw [hs] at hs'
  injection hs' with hss
  refine ⟨s, ?_, by rw [hss]; exact hsa, hsb⟩
  simp only [F32.sub, F32.neg, F32.add, hd, F32.mul, he, hs]

/-- The one-axis blend of two binary32 values of magnitude at most `2^126`, with
a binary32 fraction in `[0, 1)`, is a binary32 value between the two. -/
theorem lerp_between32 (a b t : ℚ)
    (ha : round32 a = F32.fin a) (hb : round32 b = F32.fin b)
    (hA : |a| ≤ (2 : ℚ) ^ (126 : Int)) (hB : |b| ≤ (2 : ℚ) ^ (126 : Int))
    (ht0 : 0 ≤ t) (ht1 : t < 1) (ht : round32 t = F32.fin t) :
    ∃ r, F32.add (F32.fin a) (F32.mul (F32.sub (F32.fin b) (F32.fin a)) (F32.fin t)) = F32.fin r ∧
      min a b ≤ r ∧ r ≤ max a b ∧ round32 r = F32.fin r := by
  have hrep : ∀ r, F32.add (F32.fin a) (F32.mul (F32.sub (F32.fin b) (F32.fin a)) (F32.fin t))
      = F32.fin r → round32 r = F32.fin r := by
    intro r hr
    cases hY : F32.mul (F32.sub (F32.fin b) (F32.fin a)) (F32.fin t) with
    | fin e =>
      rw [hY] at hr
      simp only [F32.add] at hr
      exact round32_idem _ r hr
    | inf s => rw [hY] at hr; simp [F32.add] at hr
    | nan => rw [hY] at hr; simp [F32.add] at hr
  by_cases hab : a ≤ b
  · obtain ⟨r, hr, h1, h2⟩ := lerp_between_le32 a b t hab ha hb hA hB ht0 ht1 ht
    exact ⟨r, hr, by rw [min_eq_left hab]; exact h1, by rw [max_eq_right hab]; exact h2,
      hrep r hr⟩
  · have hba : b ≤ a := le_of_lt (not_le.mp hab)
    obtain ⟨r, hr, h1, h2⟩ := lerp_between_le32 (-a) (-b) t (by linarith)
      (round32_neg_fin a a ha) (round32_neg_fin b b hb) (by rw [abs_neg]; exact hA)
      (by rw [abs_neg]; exact hB) ht0 ht1 ht
    rw [lerp_neg32] at hr
    have hr' : F32.add (F32.fin a) (F32.mul (F32.sub (F32.fin b) (F32.fin a)) (F32.fin t))
        = F32.fin (-r) := by
      cases hZ : F32.add (F32.fin a) (F32.mul (F32.sub (F32.fin b) (F32.fin a)) (F32.fin t)) with
      | fin z =>
        rw [hZ] at hr
        simp only [F32.neg] at hr
        injection hr with hr2
        rw [← hr2, neg_neg]
      | inf s => rw [hZ] at hr; simp [F32.neg] at hr
      | nan => rw [hZ] at hr; simp [F32.neg] at hr
    exact ⟨-r, hr', by rw [min_eq_right hba]; linarith, by rw [max_eq_left hba]; linarith,
      hrep (-r) hr'⟩

/-- Function `ComputeLerp` on four binary32 corners inside `[lo, hi]`, with
`|lo|, |hi| ≤ 2^126` and binary32 fractions in `[0, 1)`: the result is finite
and inside `[lo, hi]`. -/
theorem ComputeLerp_between32 (lo hi tl tr bl br x y : ℚ)
    (hlo : |lo| ≤ (2 : ℚ) ^ (126 : Int)) (hhi : |hi| ≤ (2 : ℚ) ^ (126 : Int))
    (htl : round32 tl = F32.fin tl) (htr : round32 tr = F32.fin tr)
    (hbl : round32 bl = F32.fin bl) (hbr : round32 br = F32.fin br)
    (h1 : lo ≤ tl ∧ tl ≤ hi) (h2 : lo ≤ tr ∧ tr ≤ hi)
    (h3 : lo ≤ bl ∧ bl ≤ hi) (h4 : lo ≤ br ∧ br ≤ hi)
    (hx0 : 0 ≤ x) (hx1 : x < 1) (hx : round32 x = F32.fin x)
    (hy0 : 0 ≤ y) (hy1 : y < 1) (hy : round32 y = F32.fin y) :
    ∃ r, ComputeLerp (F32.fin tl) (F32.fin tr) (F32.fin bl) (F32.fin br) (F32.fin x) (F32.fin y)
        = F32.fin r ∧ lo ≤ r ∧ r ≤ hi := by
  have hmag : ∀ v, lo ≤ v ∧ v ≤ hi → |v| ≤ (2 : ℚ) ^ (126 : Int) := by
    intro v hv
    have a1 := abs_le.mp hlo
    have a2 := abs_le.mp hhi
    rw [abs_le]
    constructor <;> linarith [hv.1, hv.2]
  obtain ⟨top, htop, ht1, ht2, htrep⟩ :=
    lerp_between32 tl tr x htl htr (hmag tl h1) (hmag tr h2) hx0 hx1 hx
  obtain ⟨bot, hbot, hb1, hb2, hbrep⟩ :=
    lerp_between32 bl br x hbl hbr (hmag bl h3) (hmag br h4) hx0 hx1 hx
  have htopr : lo ≤ top ∧ top ≤ hi :=
    ⟨le_trans (le_min h1.1 h2.1) ht1, le_trans ht2 (max_le h1.2 h2.2)⟩
  have hbotr : lo ≤ bot ∧ bot ≤ hi :=
    ⟨le_trans (le_min h3.1 h4.1) hb1, le_trans hb2 (max_le h3.2 h4.2)⟩
  obtain ⟨r, hr, hr1, hr2, _⟩ :=
    lerp_between32 top bot y htrep hbrep (hmag top htopr) (hmag bot hbotr) hy0 hy1 hy
  refine ⟨r, ?_, le_trans (le_min htopr.1 hbotr.1) hr1, le_trans hr2 (max_le htopr.2 hbotr.2)⟩
  unfold ComputeLerp
  simp only [htop, hbot]
  exact hr

end binary32

/-! ## Fractions of the weight table (binary32) -/

namespace binary32

/-- Rounding a non-negative value gives a non-negative finite value or `+inf`. -/
theorem round32_of_nonneg (q : ℚ) (hq : 0 ≤ q) :
    (∃ s, round32 q = F32.fin s ∧ 0 ≤ s) ∨ round32 q = F32.inf false := by
  rcases hq.lt_or_eq with hpos | h0
  · rw [round32_pos q hpos]
    split
    · right; rfl
    · left
      refine ⟨_, rfl, ?_⟩
      have hx0 : 0 ≤ q / pow2 (max (ilog2 q) (-126) - 23) :=
        div_nonneg hq (pow2_pos _).le
      exact mul_nonneg (by exact_mod_cast roundNearestEven_nonneg _ hx0) (pow2_pos _).le
  · rw [← h0, round32_zero]
    left
    exact ⟨0, rfl, le_refl 0⟩

/-- A finite scale computed for an input size of at least 1 is non-negative. -/
theorem scale_nonneg32 (H h : Nat) (hH : 1 ≤ H) (a : Bool) (s : ℚ)
    (hs : CalculateResizeScale (H : Int) (h : Int) a = F32.fin s) : 0 ≤ s := by
  have key : ∀ A B : Int, 0 ≤ A → ∀ s, F32.div (ofInt A) (ofInt B) = F32.fin s → 0 ≤ A →
      0 ≤ B → 0 ≤ s := by
    intro A B hA s hs _ hB
    have hAq : (0 : ℚ) ≤ (A : ℚ) := by exact_mod_cast hA
    have hBq : (0 : ℚ) ≤ (B : ℚ) := by exact_mod_cast hB
    unfold ofInt at hs
    rcases round32_of_nonneg (A : ℚ) hAq with ⟨a', ha', ha0⟩ | ha'
    · rcases round32_of_nonneg (B : ℚ) hBq with ⟨b', hb', hb0⟩ | hb'
      · rw [ha', hb'] at hs
        simp only [F32.div] at hs
        split at hs
        · split at hs
          · exact absurd hs (by simp)
          · exact absurd hs (by simp)
        · rcases round32_of_nonneg (a' / b') (div_nonneg ha0 hb0) with ⟨c, hc, hc0⟩ | hc
          · rw [hc] at hs
            injection hs with hs'
            rw [← hs']
            exact hc0
          · rw [hc] at hs
            exact absurd hs (by simp)
      · rw [ha', hb'] at hs
        simp only [F32.div] at hs
        injection hs with hs'
        rw [← hs']
    · rcases round32_of_nonneg (B : ℚ) hBq with ⟨b', hb', hb0⟩ | hb'
      · rw [ha', hb'] at hs
        simp [F32.div] at hs
      · rw [ha', hb'] at hs
        simp [F32.div] at hs
  unfold CalculateResizeScale at hs
  split at hs
  · rename_i hc
    simp only [Bool.and_eq_true, decide_eq_true_eq] at hc
    exact key _ _ (by omega) s hs (by omega) (by omega)
  · exact key _ _ (by omega) s hs (by omega) (by omega)

/-- For a non-negative binary32 value `p`, the `float` difference between `p`
and its converted integer part is exact: it is `p - floor(p)`, itself a
binary32 value. -/
theorem fract_exact32 (p : ℚ) (hp0 : 0 ≤ p) (hprep : round32 p = F32.fin p) :
    F32.sub (F32.fin p) (ofInt ⌊p⌋) = F32.fin (p - (⌊p⌋ : ℚ)) ∧
      round32 (p - (⌊p⌋ : ℚ)) = F32.fin (p - (⌊p⌋ : ℚ)) := by
  rcases hp0.lt_or_eq with hppos | hpz
  swap
  · rw [← hpz]
    simp [F32.sub, F32.neg, F32.add, ofInt, round32_zero]
  obtain ⟨n, hn24, hpn, _⟩ := fixed_grid p hppos hprep
  generalize hPdef : max (ilog2 p) (-126) - 23 = P at hpn
  have hP149 : -149 ≤ P := by
    rw [← hPdef]
    rcases max_cases (ilog2 p) (-126) with ⟨h1, h2⟩ | ⟨h1, h2⟩ <;> omega
  by_cases hPn : 0 ≤ P
  · -- the value is an integer
    obtain ⟨j, hj⟩ := Int.eq_ofNat_of_zero_le hPn
    have hpN : p = (((n * 2 ^ j : Nat) : Int) : ℚ) := by
      rw [hpn, hj, pow2_eq_zpow, zpow_natCast]
      push_cast
      ring
    have hfl : ⌊p⌋ = ((n * 2 ^ j : Nat) : Int) := by
      rw [hpN]
      exact Int.floor_intCast _
    have hflq : ((⌊p⌋ : Int) : ℚ) = p := by rw [hfl, ← hpN]
    have hof : ofInt ⌊p⌋ = F32.fin p := by
      unfold ofInt
      rw [hflq]
      exact hprep
    rw [hof, sub_self32, hflq, sub_self]
    exact ⟨rfl, round32_zero⟩
  · -- the integer part is below `2^23` and the difference is exact
    have hPneg : P < 0 := not_le.mp hPn
    have hplt : p < (2 : ℚ) ^ (23 : Int) := by
      have hE : ilog2 p + 1 ≤ 23 := by
        rcases max_cases (ilog2 p) (-126) with ⟨h1, h2⟩ | ⟨h1, h2⟩ <;> omega
      exact lt_of_lt_of_le (ilog2_spec p hppos).2 (zpow_le_zpow_right₀ (by norm_num) hE)
    have hfl0 : 0 ≤ ⌊p⌋ := Int.floor_nonneg.mpr hp0
    obtain ⟨fl, hfl⟩ := Int.eq_ofNat_of_zero_le hfl0
    have hflq : ((⌊p⌋ : Int) : ℚ) = (fl : ℚ) := by rw [hfl]; norm_cast
    have hflle : (fl : ℚ) ≤ p := by rw [← hflq]; exact Int.floor_le p
    have hfllt : fl < 2 ^ 24 := by
      have h1 : (fl : ℚ) < (2 : ℚ) ^ (23 : Int) := lt_of_le_of_lt hflle hplt
      have h2 : (2 : ℚ) ^ (23 : Int) = ((2 ^ 23 : Nat) : ℚ) := by norm_num
      rw [h2] at h1
      have h3 : fl < 2 ^ 23 := by exact_mod_cast h1
      have h4 : (2 : Nat) ^ 23 < 2 ^ 24 := by norm_num
      omega
    have hof : ofInt ⌊p⌋ = F32.fin (fl : ℚ) := by
      rw [hfl]
      exact ofInt_natCast fl hfllt
    have hz0 : 0 ≤ p - (fl : ℚ) := by linarith
    have hz1 : p - (fl : ℚ) < 1 := by
      have := Int.lt_floor_add_one p
      rw [hflq] at this
      linarith
    -- the difference is a multiple of the quantum of `p`
    obtain ⟨j, hj⟩ := Int.eq_ofNat_of_zero_le (by omega : 0 ≤ -P)
    have hPj : pow2 P * ((2 ^ j : Nat) : ℚ) = 1 := by
      have : P = -(j : Int) := by omega
      rw [this, pow2_eq_zpow, zpow_neg, zpow_natCast]
      push_cast
      field_simp
    have hppos' : 0 < pow2 P := pow2_pos P
    have hkz : p - (fl : ℚ) = (((n : Int) - (fl : Int) * ((2 ^ j : Nat) : Int) : Int) : ℚ)
        * pow2 P := by
      push_cast
      rw [sub_mul, ← hpn]
      have : (fl : ℚ) * (2 : ℚ) ^ j * pow2 P = (fl : ℚ) := by
        have h2 : pow2 P * (2 : ℚ) ^ j = 1 := by
          have := hPj
          push_cast at this
          exact this
        calc (fl : ℚ) * (2 : ℚ) ^ j * pow2 P = (fl : ℚ) * (pow2 P * (2 : ℚ) ^ j) := by ring
          _ = (fl : ℚ) := by rw [h2, mul_one]
      rw [this]
    have hk0 : 0 ≤ (n : Int) - (fl : Int) * ((2 ^ j : Nat) : Int) := by
      by_contra hc
      have hneg : (((n : Int) - (fl : Int) * ((2 ^ j : Nat) : Int) : Int) : ℚ) < 0 := by
        exact_mod_cast not_le.mp hc
      have := mul_neg_of_neg_of_pos hneg hppos'
      rw [← hkz] at this
      linarith
    obtain ⟨k, hk⟩ := Int.eq_ofNat_of_zero_le hk0
    have hkn : k ≤ n := by
      have h1 : (0 : Int) ≤ (fl : Int) * ((2 ^ j : Nat) : Int) := by positivity
      omega
    have hzk : p - (fl : ℚ) = (k : ℚ) * pow2 P := by
      rw [hkz, hk]
      norm_cast
    have hzfin : (k : ℚ) * pow2 P < pow2 128 := by
      rw [← hzk]
      have : (1 : ℚ) ≤ pow2 128 := by
        rw [pow2_eq_zpow]
        norm_num
      linarith
    have hzrep := round32_grid k P (le_trans hkn hn24) hP149 hzfin
    rw [← hzk] at hzrep
    rw [hof, hflq]
    refine ⟨?_, hzrep⟩
    show round32 (p + -(fl : ℚ)) = F32.fin (p - (fl : ℚ))
    rw [← sub_eq_add_neg]
    exact hzrep

/-- The product `i * scale` of a record formed from a non-negative finite scale
is a non-negative binary32 value. -/
theorem entry_product32 (s : ℚ) (hs : 0 ≤ s) (i : Nat) (p : ℚ)
    (hp : F32.mul (ofInt (i : Int)) (F32.fin s) = F32.fin p) :
    round32 p = F32.fin p ∧ 0 ≤ p := by
  have hi0 : (0 : ℚ) ≤ ((i : Int) : ℚ) := by exact_mod_cast Int.natCast_nonneg i
  unfold ofInt at hp
  rcases round32_of_nonneg ((i : Int) : ℚ) hi0 with ⟨i', hi', hi'0⟩ | hi'
  · rw [hi'] at hp
    simp only [F32.mul] at hp
    refine ⟨round32_idem _ p hp, ?_⟩
    rcases round32_of_nonneg (i' * s) (mul_nonneg hi'0 hs) with ⟨c, hc, hc0⟩ | hc
    · rw [hc] at hp
      injection hp with hp'
      rw [← hp']
      exact hc0
    · rw [hc] at hp
      exact absurd hp (by simp)
  · rw [hi'] at hp
    simp only [F32.mul] at hp
    split at hp <;> exact absurd hp (by simp)

/-- The fraction of a record formed from a non-negative finite scale is a
binary32 value in `[0, 1)`. -/
theorem entry_lerp_unit32 (in_size : Int) (s : ℚ) (hs : 0 ≤ s) (i : Nat)
    (r : CachedInterpolation)
    (h : ComputeInterpolationWeights.entry in_size (F32.fin s) i = some r) :
    ∃ q, r.lerp = F32.fin q ∧ 0 ≤ q ∧ q < 1 ∧ round32 q = F32.fin q := by
  unfold ComputeInterpolationWeights.entry at h
  cases hp : F32.mul (ofInt (i : Int)) (F32.fin s) with
  | nan => rw [hp] at h; simp [toIndex] at h
  | inf sg => rw [hp] at h; simp [toIndex] at h
  | fin p =>
    rw [hp] at h
    obtain ⟨hprep, hp0⟩ := entry_product32 s hs i p hp
    cases ht : toIndex (F32.fin p) with
    | none => rw [ht] at h; simp at h
    | some l =>
      rw [ht] at h
      simp only [Option.some.injEq] at h
      subst h
      simp only [toIndex, hp0, if_true] at ht
      split at ht
      swap
      · exact absurd ht (by simp)
      simp only [Option.some.injEq] at ht
      subst ht
      obtain ⟨hsub, hrep⟩ := fract_exact32 p hp0 hprep
      refine ⟨p - (⌊p⌋ : ℚ), hsub, ?_, ?_, hrep⟩
      · have := Int.floor_le p
        linarith
      · have := Int.lt_floor_add_one p
        linarith

/-- With a scale that is not finite no record can be formed. -/
theorem entry_none_of_not_fin32 (in_size : Int) (scale : F32) (i : Nat)
    (hscale : ∀ s, scale ≠ F32.fin s) :
    ComputeInterpolationWeights.entry in_size scale i = none := by
  unfold ComputeInterpolationWeights.entry
  have hmul : ∀ q, F32.mul (ofInt (i : Int)) scale ≠ F32.fin q := by
    intro q hq
    cases scale with
    | fin s => exact hscale s rfl
    | inf sg =>
      cases hi : ofInt (i : Int) with
      | fin a =>
        rw [hi] at hq
        simp only [F32.mul] at hq
        split at hq <;> exact absurd hq (by simp)
      | inf t => rw [hi] at hq; simp [F32.mul] at hq
      | nan => rw [hi] at hq; simp [F32.mul] at hq
    | nan =>
      cases hi : ofInt (i : Int) with
      | fin a => rw [hi] at hq; simp [F32.mul] at hq
      | inf t => rw [hi] at hq; simp [F32.mul] at hq
      | nan => rw [hi] at hq; simp [F32.mul] at hq
  cases hm : F32.mul (ofInt (i : Int)) scale with
  | fin q => exact absurd hm (hmul q)
  | inf sg => simp [toIndex]
  | nan => simp [toIndex]

end binary32

/-! ## The two paths of `operator()` in binary32 -/

namespace binary32

/-- The interpolation path of `operator()` in binary32.  For a rank-4 input
whose buffer holds its `B*C*H*W` elements and a resolved size `(h, w)`,
`h, w ≥ 1`, different from `(H, W)`, when the indices of both axis tables are
inside the input plane: the call succeeds, the output has shape `(B, C, h, w)`
and `B*C*h*w` elements, and element `(b, c, y, x)` is the blend of the four
input samples the two axis tables select. -/
theorem operatorCall_interp32 (fill : Nat → F32) (f : ResizeBilinearFunctor)
    (B C H W h w : Nat) (data : List F32) (resize_dims : Option (Tensor Int))
    (output : Tensor F32)
    (hh : 1 ≤ h) (hw : 1 ≤ w) (hne : ¬ (h = H ∧ w = W))
    (hdata : B * C * H * W ≤ data.length)
    (hres : f.GetOutputSize resize_dims = .ok ((h : Int), (w : Int)))
    (hys : TableInRange (weightTable h H f.align_corners_) h H)
    (hxs : TableInRange (weightTable w W f.align_corners_) w W) :
    ∃ d, operatorCall fill f ⟨[(B : Int), (C : Int), (H : Int), (W : Int)], data⟩
          resize_dims output
        = (Status.ok, ⟨[(B : Int), (C : Int), (h : Int), (w : Int)], d⟩) ∧
      d.length = B * C * h * w ∧
      ∀ b, b < B → ∀ c, c < C → ∀ y, y < h → ∀ x, x < w →
        d[((b * C + c) * h + y) * w + x]? =
          some (ResizeImage.pixelValue data H W C (weightTable w W f.align_corners_)
            (weightTable h H f.align_corners_) b c y x) := by
  have hlen : ((output.Resize fill [(B : Int), (C : Int), (h : Int), (w : Int)]).data).length
      = B * C * h * w := by
    rw [Resize_length, NumElements_four]
  have hyb := weightTable_built32 h (H : Int) f.align_corners_ H hh hys
  have hxb := weightTable_built32 w (W : Int) f.align_corners_ W hw hxs
  obtain ⟨d, hrun, hdlen, hval, _⟩ :=
    ResizeImage_spec32 data B C H W h w (weightTable w W f.align_corners_)
      (weightTable h H f.align_corners_) hdata hxs hys
      (output.Resize fill [(B : Int), (C : Int), (h : Int), (w : Int)]).data
      (by rw [hlen])
  have hpos : (h : Int) > 0 ∧ (w : Int) > 0 := by
    constructor <;> exact_mod_cast (by omega : 0 < _)
  have hne' : ¬ ((h : Int) = (H : Int) ∧ (w : Int) = (W : Int)) := by
    rintro ⟨h1, h2⟩
    exact hne ⟨by exact_mod_cast h1, by exact_mod_cast h2⟩
  refine ⟨d, ?_, by rw [hdlen, hlen], hval⟩
  simp only [operatorCall, hres, Tensor.dim, List.getD_cons_zero,
    List.getD_cons_succ, if_pos hpos, if_neg hne', hyb, hxb, hrun]
  congr 1
  simp [Tensor.Resize]
  split <;> rfl

/-- The equal-size path of `operator()` on binary32 buffers: the first `C*H*W`
output elements are the input's. -/
theorem operatorCall_copy32 (fill : Nat → F32) (f : ResizeBilinearFunctor)
    (B C H W : Nat) (data : List F32) (resize_dims : Option (Tensor Int))
    (output : Tensor F32)
    (hB : 1 ≤ B) (hH : 1 ≤ H) (hW : 1 ≤ W)
    (hdata : B * C * H * W ≤ data.length)
    (hres : f.GetOutputSize resize_dims = .ok ((H : Int), (W : Int))) :
    ∃ d, operatorCall fill f ⟨[(B : Int), (C : Int), (H : Int), (W : Int)], data⟩
          resize_dims output
        = (Status.ok, ⟨[(B : Int), (C : Int), (H : Int), (W : Int)], d⟩) ∧
      d.length = B * C * H * W ∧
      (∀ k, k < C * H * W → d[k]? = data[k]?) ∧
      ∀ j, C * H * W ≤ j →
        d[j]? = (output.Resize fill [(B : Int), (C : Int), (H : Int), (W : Int)]).data[j]? := by
  have hlen : ((output.Resize fill [(B : Int), (C : Int), (H : Int), (W : Int)]).data).length
      = B * C * H * W := by
    rw [Resize_length, NumElements_four]
  have hle : C * H * W ≤ B * C * H * W := by
    have h1 : 1 * (C * H * W) ≤ B * (C * H * W) := Nat.mul_le_mul_right _ hB
    have h2 : B * (C * H * W) = B * C * H * W := by ring
    omega
  obtain ⟨d, hrun, hdlen, hval, hframe⟩ :=
    stdCopy_spec data (output.Resize fill [(B : Int), (C : Int), (H : Int), (W : Int)]).data
      (C * H * W) (by omega) (by omega)
  have hpos : (H : Int) > 0 ∧ (W : Int) > 0 := by
    constructor <;> exact_mod_cast (by omega : 0 < _)
  have hn : (C : Int) * (H : Int) * (W : Int) = ((C * H * W : Nat) : Int) := by push_cast; ring
  refine ⟨d, ?_, by rw [hdlen, hlen], hval, hframe⟩
  simp only [operatorCall, hres, Tensor.dim, List.getD_cons_zero,
    List.getD_cons_succ, if_pos hpos, and_self, if_true, hn, hrun]
  congr 1
  simp [Tensor.Resize]
  split <;> rfl

/-- The blend at an output pixel whose two records are in range, in terms of the
four samples read. -/
theorem pixelValue_eq32 (images : List F32) (H W C : Nat) (xs ys : List CachedInterpolation)
    (b c y x : Nat) (cy cx : CachedInterpolation)
    (hy : ys[y]? = some cy) (hx : xs[x]? = some cx) :
    ResizeImage.pixelValue images H W C xs ys b c y x =
      ComputeLerp (inputAt images H W C b c cy.lower cx.lower)
        (inputAt images H W C b c cy.lower cx.upper)
        (inputAt images H W C b c cy.upper cx.lower)
        (inputAt images H W C b c cy.upper cx.upper) cx.lerp cy.lerp := by
  simp only [ResizeImage.pixelValue, hy, hx, Option.getD_some]

/-- A sample at an address inside the buffer is one of the buffer's elements. -/
theorem inputAt_mem32 (images : List F32) (B C H W b c : Nat) (r q : Int)
    (himg : B * C * H * W ≤ images.length) (hb : b < B) (hc : c < C)
    (hr0 : 0 ≤ r) (hr : r < (H : Int)) (hq0 : 0 ≤ q) (hq : q < (W : Int)) :
    inputAt images H W C b c r q ∈ images := by
  have h := getElem?_inputAt_toNat32 images B C H W b c r q himg hb hc hr0 hr hq0 hq
  obtain ⟨hlt, heq⟩ := List.getElem?_eq_some_iff.mp h
  rw [← heq]
  exact List.getElem_mem hlt

end binary32

/-! ## Tables in range, samples, integer factors (binary32) -/

namespace binary32

theorem TableInRange_of_check32 (t : List CachedInterpolation) (n size : Nat)
    (h : tableInRangeCheck t n size = true) : TableInRange t n size := by
  intro i hi
  unfold tableInRangeCheck at h
  rw [List.all_eq_true] at h
  have hi' := h i (List.mem_range.mpr hi)
  cases ht : t[i]? with
  | none => rw [ht] at hi'; exact absurd hi' (by simp)
  | some r =>
    rw [ht] at hi'
    simp only [decide_eq_true_eq] at hi'
    exact ⟨r, rfl, hi'⟩

theorem tame_spec32 (x : F32) (h : x.tame = true) :
    ∃ v, x = F32.fin v ∧ round32 v = F32.fin v ∧ |v| ≤ (2 : ℚ) ^ (126 : Int) := by
  cases x with
  | fin v =>
    simp only [F32.tame, Bool.and_eq_true, decide_eq_true_eq] at h
    exact ⟨v, rfl, h.1, h.2⟩
  | inf s => simp [F32.tame] at h
  | nan => simp [F32.tame] at h

/-- An output pixel whose two records are in range and have zero fractions is
the sample at `(lower_y, lower_x)`, when the buffer holds finite values of
magnitude at most `2 ^ 126`. -/
theorem pixelValue_of_lerp_zero32 (images : List F32) (B C H W b c y x : Nat)
    (xs ys : List CachedInterpolation) (cy cx : CachedInterpolation)
    (himg : B * C * H * W ≤ images.length) (hb : b < B) (hc : c < C)
    (htame : ∀ v, v ∈ images → v.tame = true)
    (hy : ys[y]? = some cy) (hx : xs[x]? = some cx)
    (hyl : 0 ≤ cy.lower ∧ cy.lower < (H : Int)) (hyu : 0 ≤ cy.upper ∧ cy.upper < (H : Int))
    (hxl : 0 ≤ cx.lower ∧ cx.lower < (W : Int)) (hxu : 0 ≤ cx.upper ∧ cx.upper < (W : Int))
    (hyz : cy.lerp = F32.fin 0) (hxz : cx.lerp = F32.fin 0) :
    ResizeImage.pixelValue images H W C xs ys b c y x
      = inputAt images H W C b c cy.lower cx.lower := by
  rw [pixelValue_eq32 images H W C xs ys b c y x cy cx hy hx, hyz, hxz]
  obtain ⟨tl, htl, htlr, htlb⟩ := tame_spec32 _ (htame _
    (inputAt_mem32 images B C H W b c cy.lower cx.lower himg hb hc hyl.1 hyl.2 hxl.1 hxl.2))
  obtain ⟨tr, htr, _, htrb⟩ := tame_spec32 _ (htame _
    (inputAt_mem32 images B C H W b c cy.lower cx.upper himg hb hc hyl.1 hyl.2 hxu.1 hxu.2))
  obtain ⟨bl, hbl, hblr, hblb⟩ := tame_spec32 _ (htame _
    (inputAt_mem32 images B C H W b c cy.upper cx.lower himg hb hc hyu.1 hyu.2 hxl.1 hxl.2))
  obtain ⟨br, hbr, _, hbrb⟩ := tame_spec32 _ (htame _
    (inputAt_mem32 images B C H W b c cy.upper cx.upper himg hb hc hyu.1 hyu.2 hxu.1 hxu.2))
  rw [htl, htr, hbl, hbr]
  exact ComputeLerp_zero_zero32 tl tr bl br htlr hblr htlb htrb hblb hbrb

/-- An output pixel blended from four in-range samples of a plane that is
constant with a finite binary32 value is that value. -/
theorem pixelValue_const32 (images : List F32) (B C H W b c y x : Nat)
    (xs ys : List CachedInterpolation) (cy cx : CachedInterpolation) (v qy qx : ℚ)
    (himg : B * C * H * W ≤ images.length) (hb : b < B) (hc : c < C)
    (hv : round32 v = F32.fin v)
    (hconst : ∀ r, r < H → ∀ q, q < W → images[((b * C + c) * H + r) * W + q]? = some (F32.fin v))
    (hy : ys[y]? = some cy) (hx : xs[x]? = some cx)
    (hyl : 0 ≤ cy.lower ∧ cy.lower < (H : Int)) (hyu : 0 ≤ cy.upper ∧ cy.upper < (H : Int))
    (hxl : 0 ≤ cx.lower ∧ cx.lower < (W : Int)) (hxu : 0 ≤ cx.upper ∧ cx.upper < (W : Int))
    (hyq : cy.lerp = F32.fin qy) (hxq : cx.lerp = F32.fin qx) :
    ResizeImage.pixelValue images H W C xs ys b c y x = F32.fin v := by
  have hsample : ∀ r q : Int, 0 ≤ r → r < (H : Int) → 0 ≤ q → q < (W : Int) →
      inputAt images H W C b c r q = F32.fin v := by
    intro r q hr0 hr hq0 hq
    have h1 := getElem?_inputAt_toNat32 images B C H W b c r q himg hb hc hr0 hr hq0 hq
    rw [hconst r.toNat (by omega) q.toNat (by omega)] at h1
    exact (Option.some.inj h1).symm
  rw [pixelValue_eq32 images H W C xs ys b c y x cy cx hy hx, hyq, hxq,
    hsample _ _ hyl.1 hyl.2 hxl.1 hxl.2, hsample _ _ hyl.1 hyl.2 hxu.1 hxu.2,
    hsample _ _ hyu.1 hyu.2 hxl.1 hxl.2, hsample _ _ hyu.1 hyu.2 hxu.1 hxu.2]
  exact ComputeLerp_const32 v qx qy hv

/-- The records of a table in range are the records the loop body forms. -/
theorem weightTable_entries32 (n : Nat) (in_size : Int) (align_corners : Bool) (size : Nat)
    (hn : 1 ≤ n) (hr : TableInRange (weightTable n in_size align_corners) n size) :
    ∀ i, i < n → (weightTable n in_size align_corners)[i]? =
      ComputeInterpolationWeights.entry in_size
        (CalculateResizeScale in_size n align_corners) i := by
  have hbuilt := weightTable_built32 n in_size align_corners size hn hr
  have hall : ∀ j, j < n → ∃ e, ComputeInterpolationWeights.entry in_size
      (CalculateResizeScale in_size n align_corners) j = some e := by
    by_contra hc
    have hbad : ∃ j, j < n ∧ ComputeInterpolationWeights.entry in_size
        (CalculateResizeScale in_size n align_corners) j = none := by
      by_contra hc2
      apply hc
      intro j hj
      cases he : ComputeInterpolationWeights.entry in_size
          (CalculateResizeScale in_size n align_corners) j with
      | none => exact absurd ⟨j, hj, he⟩ hc2
      | some e => exact ⟨e, rfl⟩
    have hnone := loop_none32 in_size (CalculateResizeScale in_size n align_corners) n hbad
    unfold ComputeInterpolationWeights at hbuilt
    cases hread : readAt (List.replicate ((n : Int) + 1).toNat (CachedInterpolation.mk 0 0 (.fin 0)))
        (n : Int) with
    | none => rw [hread] at hbuilt; simp at hbuilt
    | some r0 =>
      rw [hread] at hbuilt
      simp only [Int.toNat_natCast] at hbuilt
      rw [hnone] at hbuilt
      simp at hbuilt
  obtain ⟨_, _, hval, _⟩ := weightTable_spec32 n in_size align_corners hall
  exact hval

/-- The fraction of every record of a table in range is finite. -/
theorem weightTable_lerp_finite32 (n : Nat) (in_size : Int) (align_corners : Bool) (size : Nat)
    (hn : 1 ≤ n) (hr : TableInRange (weightTable n in_size align_corners) n size)
    (i : Nat) (hi : i < n) (r : CachedInterpolation)
    (hri : (weightTable n in_size align_corners)[i]? = some r) : ∃ q, r.lerp = F32.fin q := by
  rw [weightTable_entries32 n in_size align_corners size hn hr i hi] at hri
  exact entry_lerp_finite32 in_size _ i r hri

/-- An output pixel whose two records have zero fractions and `lower` indices
`(r, q)` is element `(b, c, r, q)` of the input buffer. -/
theorem pixelValue_sample32 (images : List F32) (B C H W b c y x r q : Nat)
    (xs ys : List CachedInterpolation) (cy cx : CachedInterpolation)
    (himg : B * C * H * W ≤ images.length) (hb : b < B) (hc : c < C)
    (htame : ∀ v, v ∈ images → v.tame = true)
    (hy : ys[y]? = some cy) (hx : xs[x]? = some cx)
    (hyl : 0 ≤ cy.lower ∧ cy.lower < (H : Int)) (hyu : 0 ≤ cy.upper ∧ cy.upper < (H : Int))
    (hxl : 0 ≤ cx.lower ∧ cx.lower < (W : Int)) (hxu : 0 ≤ cx.upper ∧ cx.upper < (W : Int))
    (hyz : cy.lerp = F32.fin 0) (hxz : cx.lerp = F32.fin 0)
    (hyr : cy.lower = (r : Int)) (hxq : cx.lower = (q : Int)) :
    some (ResizeImage.pixelValue images H W C xs ys b c y x)
      = images[((b * C + c) * H + r) * W + q]? := by
  rw [pixelValue_of_lerp_zero32 images B C H W b c y x xs ys cy cx himg hb hc htame hy hx
    hyl hyu hxl hxu hyz hxz]
  have hr : r < H := by
    have := hyl.2
    rw [hyr] at this
    exact_mod_cast this
  have hq : q < W := by
    have := hxl.2
    rw [hxq] at this
    exact_mod_cast this
  rw [getElem?_inputAt32 images B C H W b c r q himg hb hc hr hq, hyr, hxq]

/-- With `align_corners = false` and `in_size = k * n` below `2 ^ 24`, the
scale is the integer `k`. -/
theorem scale_integer_factor32 (k n : Nat) (hk : 1 ≤ k) (hn : 1 ≤ n) (hkn : k * n < 2 ^ 24) :
    CalculateResizeScale ((k * n : Nat) : Int) (n : Int) false = F32.fin (k : ℚ) := by
  have hn24 : n < 2 ^ 24 :=
    calc n = 1 * n := (Nat.one_mul n).symm
      _ ≤ k * n := Nat.mul_le_mul_right n hk
      _ < 2 ^ 24 := hkn
  have hk24 : k < 2 ^ 24 :=
    calc k = k * 1 := (Nat.mul_one k).symm
      _ ≤ k * n := Nat.mul_le_mul_left k hn
      _ < 2 ^ 24 := hkn
  have hn0 : (n : ℚ) ≠ 0 := by
    have : (0 : ℚ) < (n : ℚ) := by exact_mod_cast hn
    exact this.ne'
  have hq : (((k * n : Nat)) : ℚ) / (n : ℚ) = (k : ℚ) := by
    push_cast
    field_simp
  simp only [CalculateResizeScale, Bool.false_and, Bool.false_eq_true, if_false,
    ofInt_natCast (k * n) hkn, ofInt_natCast n hn24, F32.div, hn0, hq, round32_natCast k hk24]

/-- Records of the table for an integer factor `k`: `lower = k * i` and a zero
fraction. -/
theorem weightTable_integer_factor32 (k n : Nat) (hk : 1 ≤ k) (hn : 1 ≤ n)
    (hkn : k * n < 2 ^ 24) :
    (weightTable n ((k * n : Nat) : Int) false).length = n + 1 ∧
    ∀ i, i < n → (weightTable n ((k * n : Nat) : Int) false)[i]? =
      some ⟨((k * i : Nat) : Int),
        min (((k * i : Nat) : Int) + 1) (((k * n : Nat) : Int) - 1), F32.fin 0⟩ := by
  have hentry : ∀ i, i < n → ComputeInterpolationWeights.entry ((k * n : Nat) : Int)
      (CalculateResizeScale ((k * n : Nat) : Int) (n : Int) false) i =
      some ⟨((k * i : Nat) : Int),
        min (((k * i : Nat) : Int) + 1) (((k * n : Nat) : Int) - 1), F32.fin 0⟩ := by
    intro i hi
    have hki : k * i < 2 ^ 24 :=
      lt_of_le_of_lt (Nat.mul_le_mul_left k (le_of_lt hi)) hkn
    have hi24 : i < 2 ^ 24 := by
      have hn24 : n ≤ k * n := by
        calc n = 1 * n := (Nat.one_mul n).symm
          _ ≤ k * n := Nat.mul_le_mul_right n hk
      omega
    apply entry_exact32 _ _ i (k * i) hki
    rw [scale_integer_factor32 k n hk hn hkn, ofInt_natCast i hi24]
    have hprod : (i : ℚ) * (k : ℚ) = (((k * i : Nat)) : ℚ) := by push_cast; ring
    simp only [F32.mul, hprod, round32_natCast (k * i) hki]
  obtain ⟨_, hlen, hval, _⟩ := weightTable_spec32 n ((k * n : Nat) : Int) false
    (fun i hi => ⟨_, hentry i hi⟩)
  refine ⟨hlen, ?_⟩
  intro i hi
  rw [hval i hi, hentry i hi]

/-- The table for an integer factor has all its indices in range. -/
theorem weightTable_integer_factor_inRange32 (k n : Nat) (hk : 1 ≤ k) (hn : 1 ≤ n)
    (hkn : k * n < 2 ^ 24) :
    TableInRange (weightTable n ((k * n : Nat) : Int) false) n (k * n) := by
  intro i hi
  obtain ⟨_, hval⟩ := weightTable_integer_factor32 k n hk hn hkn
  refine ⟨_, hval i hi, ?_⟩
  have h1 : k * (i + 1) ≤ k * n := Nat.mul_le_mul_left k hi
  have h2 : k * (i + 1) = k * i + k := by ring
  have h3 : ((k * i : Nat) : Int) + (k : Int) ≤ ((k * n : Nat) : Int) := by
    have : k * i + k ≤ k * n := by omega
    exact_mod_cast this
  have h4 : (1 : Int) ≤ (k : Int) := by exact_mod_cast hk
  have h5 : (0 : Int) ≤ ((k * i : Nat) : Int) := Int.natCast_nonneg _
  simp only
  refine ⟨h5, by omega, ?_, ?_⟩
  · exact le_min (by omega) (by omega)
  · exact lt_of_le_of_lt (min_le_right _ _) (by omega)

end binary32

/-! ## Ends of an axis, failing reads, transposition (binary32) -/

namespace binary32

/-- Record 0, whenever it can be formed, has `lower = 0` and a zero fraction. -/
theorem entry_zero_of_some32 (in_size : Int) (scale : F32) (r : CachedInterpolation)
    (h : ComputeInterpolationWeights.entry in_size scale 0 = some r) :
    r = ⟨0, min 1 (in_size - 1), F32.fin 0⟩ := by
  have h0 : ofInt ((0 : Nat) : Int) = F32.fin 0 := by
    have := ofInt_natCast 0 (by norm_num)
    simpa using this
  cases scale with
  | fin s =>
    rw [entry_zero32] at h
    exact (Option.some.inj h).symm
  | inf s =>
    unfold ComputeInterpolationWeights.entry at h
    rw [h0] at h
    simp [F32.mul, toIndex] at h
  | nan =>
    unfold ComputeInterpolationWeights.entry at h
    rw [h0] at h
    simp [F32.mul, toIndex] at h

/-- With `align_corners = true`, when `out_size - 1` divides `in_size - 1` and
both sizes are below `2 ^ 24`, the product `(out_size - 1) * scale` is exactly
`in_size - 1` in binary32. -/
theorem align_product_exact32 (N n : Nat) (hN : 1 ≤ N) (hn : 1 < n) (hN24 : N ≤ 2 ^ 24)
    (hn24 : n ≤ 2 ^ 24) (hdvd : (n - 1) ∣ (N - 1)) :
    F32.mul (ofInt (((n - 1 : Nat)) : Int)) (CalculateResizeScale (N : Int) (n : Int) true)
      = F32.fin (((N - 1 : Nat)) : ℚ) := by
  obtain ⟨k, hk⟩ := hdvd
  have hn1 : n - 1 < 2 ^ 24 := by omega
  have hN1 : N - 1 < 2 ^ 24 := by omega
  have hn0 : 1 ≤ n - 1 := by omega
  have hk24 : k < 2 ^ 24 := by
    have : k * 1 ≤ k * (n - 1) := Nat.mul_le_mul_left k hn0
    have h2 : k * (n - 1) = (n - 1) * k := Nat.mul_comm _ _
    omega
  have hcN : (N : Int) - 1 = (((N - 1 : Nat)) : Int) := by omega
  have hcn : (n : Int) - 1 = (((n - 1 : Nat)) : Int) := by omega
  have hgt : ((n : Int) > 1) := by exact_mod_cast hn
  have hq0 : (((n - 1 : Nat)) : ℚ) ≠ 0 := by
    have : (0 : ℚ) < (((n - 1 : Nat)) : ℚ) := by exact_mod_cast hn0
    exact this.ne'
  have hq : (((N - 1 : Nat)) : ℚ) / (((n - 1 : Nat)) : ℚ) = (k : ℚ) := by
    rw [hk, Nat.cast_mul]
    exact mul_div_cancel_left₀ _ hq0
  have hprod : (((n - 1 : Nat)) : ℚ) * (k : ℚ) = (((N - 1 : Nat)) : ℚ) := by
    rw [hk, Nat.cast_mul]
  simp only [CalculateResizeScale, Bool.true_and, decide_eq_true_eq, hgt, if_true, hcN, hcn,
    ofInt_natCast (N - 1) hN1, ofInt_natCast (n - 1) hn1, F32.div, hq0, if_false, hq,
    round32_natCast k hk24, F32.mul, hprod, round32_natCast (N - 1) hN1]

/-- The last record of an axis whose product `(out_size - 1) * scale` is exactly
`in_size - 1` in binary32: `lower = upper = in_size - 1` and a zero fraction. -/
theorem entry_last_exact32 (N n : Nat) (hN : 1 ≤ N) (hN24 : N ≤ 2 ^ 24) (scale : F32)
    (h : F32.mul (ofInt (((n - 1 : Nat)) : Int)) scale = F32.fin (((N - 1 : Nat)) : ℚ)) :
    ComputeInterpolationWeights.entry (N : Int) scale (n - 1)
      = some ⟨(N : Int) - 1, (N : Int) - 1, F32.fin 0⟩ := by
  have hN1 : N - 1 < 2 ^ 24 := by omega
  rw [entry_exact32 (N : Int) scale (n - 1) (N - 1) hN1 h]
  have hc : (((N - 1 : Nat)) : Int) = (N : Int) - 1 := by omega
  rw [hc, min_eq_right (by omega)]

/-- A read outside the input buffer in the last step of the `x` loop ends the
loop with a failure. -/
theorem xLoop_fails32 (images : List F32) (xs : List CachedInterpolation) (lo up : Int)
    (ylerp : F32) (p : Int) (n : Nat) (cx : CachedInterpolation) (hcx : xs[n]? = some cx)
    (hread : readAt images (lo + cx.lower) = none) (o : List F32) :
    (List.range (n + 1)).foldlM (ResizeImage.xStep images xs lo up ylerp p) o = none := by
  rw [List.range_succ, List.foldlM_append]
  cases (List.range n).foldlM (ResizeImage.xStep images xs lo up ylerp p) o with
  | none => rfl
  | some o1 => simp [ResizeImage.xStep, hcx, hread]

/-- A loop whose first iteration fails, fails. -/
theorem foldlM_range_first_none32 {α : Type} (step : α → Nat → Option α) (k : Nat) (o : α)
    (h : step o 0 = none) : (List.range (k + 1)).foldlM step o = none := by
  rw [List.range_succ_eq_map, List.foldlM_cons, h]
  rfl

/-- Function `ResizeImage` fails when the last record of the `x` table sends
the first row of the first plane outside the input buffer. -/
theorem ResizeImage_fails32 (images : List F32) (B C h n : Nat) (H W : Int)
    (xs ys : List CachedInterpolation) (o : List F32) (cy cx : CachedInterpolation)
    (hy : ys[0]? = some cy) (hx : xs[n]? = some cx)
    (hread : readAt images ((((C + 1 : Nat)) : Int) * (H * W) * ((0 : Nat) : Int)
      + H * W * ((0 : Nat) : Int) + cy.lower * W + cx.lower) = none) :
    ResizeImage images (((B + 1 : Nat)) : Int) H W (((h + 1 : Nat)) : Int)
      (((n + 1 : Nat)) : Int) (((C + 1 : Nat)) : Int) xs ys o = none := by
  unfold ResizeImage
  rw [Int.toNat_natCast, Int.toNat_natCast]
  apply foldlM_range_first_none32
  apply foldlM_range_first_none32
  unfold ResizeImage.cell
  simp only [Int.toNat_natCast]
  rw [foldlM_range_first_none32]
  unfold ResizeImage.yStep
  simp only [hy, Int.toNat_natCast]
  rw [xLoop_fails32 images xs _ _ _ _ n cx hx hread]

theorem transposePlane_length32 (P : List F32) (rows cols : Nat) :
    (transposePlane P rows cols).length = cols * rows := by
  simp [transposePlane]

/-- Element `(r, q)` of the transpose is element `(q, r)` of the plane. -/
theorem transposePlane_getElem?32 (P : List F32) (rows cols r q : Nat)
    (hr : r < cols) (hq : q < rows) :
    (transposePlane P rows cols)[r * rows + q]? = some (P.getD (q * cols + r) (.fin 0)) := by
  have hk : r * rows + q < cols * rows := lt_mul_add hr hq
  have hmod : (r * rows + q) % rows = q := by
    rw [Nat.add_comm, Nat.add_mul_mod_self_right, Nat.mod_eq_of_lt hq]
  have hdiv : (r * rows + q) / rows = r := by
    rw [Nat.add_comm, Nat.add_mul_div_right _ _ (by omega : 0 < rows), Nat.div_eq_of_lt hq,
      Nat.zero_add]
  simp only [transposePlane, List.getElem?_map, List.getElem?_range hk, Option.map_some',
    hmod, hdiv]

/-- Sample `(r, q)` of the transposed plane is sample `(q, r)` of the plane. -/
theorem inputAt_transpose32 (P : List F32) (H W : Nat) (r q : Int) (hP : P.length = H * W)
    (hr0 : 0 ≤ r) (hr : r < (W : Int)) (hq0 : 0 ≤ q) (hq : q < (H : Int)) :
    inputAt (transposePlane P H W) W H 1 0 0 r q = inputAt P H W 1 0 0 q r := by
  obtain ⟨r', rfl⟩ := Int.eq_ofNat_of_zero_le hr0
  obtain ⟨q', rfl⟩ := Int.eq_ofNat_of_zero_le hq0
  have hr' : r' < W := by exact_mod_cast hr
  have hq' : q' < H := by exact_mod_cast hq
  have h1 := getElem?_inputAt32 (transposePlane P H W) 1 1 W H 0 0 r' q'
    (by rw [transposePlane_length32]; simp) (by decide) (by decide) hr' hq'
  have h2 := getElem?_inputAt32 P 1 1 H W 0 0 q' r' (by rw [hP]; simp) (by decide) (by decide)
    hq' hr'
  simp only [Nat.zero_mul, Nat.zero_add, Nat.cast_one] at h1 h2
  rw [transposePlane_getElem?32 P H W r' q' hr' hq'] at h1
  have h3 : P.getD (q' * W + r') (.fin 0) = inputAt P H W 1 0 0 q' r' := by
    rw [List.getD_eq_getElem?_getD, h2]
    rfl
  rw [h3] at h1
  exact (Option.some.inj h1).symm

end binary32

/-! ## A call that leaves the input buffer (binary32) -/

namespace binary32

/-- The interpolation path of `operator()` when both tables are built but the
last record of the `x` table sends the first row of the first plane outside
the input buffer: the call ends with `Failure.outOfRange`. -/
theorem operatorCall_fails32 (fill : Nat → F32) (f : ResizeBilinearFunctor)
    (B C H W h n : Nat) (data : List F32) (resize_dims : Option (Tensor Int))
    (output : Tensor F32) (xs ys : List CachedInterpolation) (cy cx : CachedInterpolation)
    (hne : ¬ (h + 1 = H ∧ n + 1 = W))
    (hres : f.GetOutputSize resize_dims = .ok ((((h + 1 : Nat)) : Int), (((n + 1 : Nat)) : Int)))
    (hys : ComputeInterpolationWeights (((h + 1 : Nat)) : Int) (H : Int)
      (CalculateResizeScale (H : Int) (((h + 1 : Nat)) : Int) f.align_corners_)
      (List.replicate ((((h + 1 : Nat)) : Int) + 1).toNat (CachedInterpolation.mk 0 0 (.fin 0)))
        = some ys)
    (hxs : ComputeInterpolationWeights (((n + 1 : Nat)) : Int) (W : Int)
      (CalculateResizeScale (W : Int) (((n + 1 : Nat)) : Int) f.align_corners_)
      (List.replicate ((((n + 1 : Nat)) : Int) + 1).toNat (CachedInterpolation.mk 0 0 (.fin 0)))
        = some xs)
    (hy : ys[0]? = some cy) (hx : xs[n]? = some cx)
    (hread : readAt data ((((C + 1 : Nat)) : Int) * ((H : Int) * (W : Int)) * ((0 : Nat) : Int)
      + (H : Int) * (W : Int) * ((0 : Nat) : Int) + cy.lower * (W : Int) + cx.lower) = none) :
    operatorCall fill f
        ⟨[(((B + 1 : Nat)) : Int), (((C + 1 : Nat)) : Int), (H : Int), (W : Int)], data⟩
        resize_dims output
      = (Status.failed Failure.outOfRange,
          output.Resize fill [(((B + 1 : Nat)) : Int), (((C + 1 : Nat)) : Int),
            (((h + 1 : Nat)) : Int), (((n + 1 : Nat)) : Int)]) := by
  have hpos : (((h + 1 : Nat)) : Int) > 0 ∧ (((n + 1 : Nat)) : Int) > 0 := by
    constructor <;> exact_mod_cast Nat.succ_pos _
  have hne' : ¬ ((((h + 1 : Nat)) : Int) = (H : Int) ∧ (((n + 1 : Nat)) : Int) = (W : Int)) := by
    rintro ⟨h1, h2⟩
    exact hne ⟨by exact_mod_cast h1, by exact_mod_cast h2⟩
  have hrun := ResizeImage_fails32 data B C h n (H : Int) (W : Int) xs ys
    (output.Resize fill [(((B + 1 : Nat)) : Int), (((C + 1 : Nat)) : Int),
      (((h + 1 : Nat)) : Int), (((n + 1 : Nat)) : Int)]).data cy cx hy hx hread
  simp only [operatorCall, hres, Tensor.dim, List.getD_cons_zero,
    List.getD_cons_succ, if_pos hpos, if_neg hne', hys, hxs, hrun]

end binary32

/-! ## Output pixels between the extremes of the input plane (binary32) -/

namespace binary32

/-- The fraction of every record of a table in range is a binary32 value in
`[0, 1)`. -/
theorem weightTable_lerp_unit32 (n H : Nat) (align_corners : Bool) (hn : 1 ≤ n)
    (hr : TableInRange (weightTable n H align_corners) n H)
    (i : Nat) (hi : i < n) (r : CachedInterpolation)
    (hri : (weightTable n H align_corners)[i]? = some r) :
    ∃ q, r.lerp = F32.fin q ∧ 0 ≤ q ∧ q < 1 ∧ round32 q = F32.fin q := by
  have hH : 1 ≤ H := by
    obtain ⟨r0, _, h0, h1, _⟩ := hr 0 (by omega)
    have : (0 : Int) < (H : Int) := lt_of_le_of_lt h0 h1
    omega
  rw [weightTable_entries32 n (H : Int) align_corners H hn hr i hi] at hri
  cases hsc : CalculateResizeScale (H : Int) (n : Int) align_corners with
  | fin s =>
    rw [hsc] at hri
    exact entry_lerp_unit32 _ s (scale_nonneg32 H n hH align_corners s hsc) i r hri
  | inf sg =>
    rw [hsc, entry_none_of_not_fin32 _ _ i (by intro s hs; cases hs)] at hri
    exact absurd hri (by simp)
  | nan =>
    rw [hsc, entry_none_of_not_fin32 _ _ i (by intro s hs; cases hs)] at hri
    exact absurd hri (by simp)

/-- An output pixel blended from four in-range samples of a plane whose samples
are binary32 values inside `[lo, hi]`, `|lo|, |hi| ≤ 2^126`, with fractions that
are binary32 values in `[0, 1)`, is finite and inside `[lo, hi]`. -/
theorem pixelValue_between32 (images : List F32) (B C H W b c y x : Nat)
    (xs ys : List CachedInterpolation) (cy cx : CachedInterpolation) (lo hi qy qx : ℚ)
    (himg : B * C * H * W ≤ images.length) (hb : b < B) (hc : c < C)
    (hlo : |lo| ≤ (2 : ℚ) ^ (126 : Int)) (hhi : |hi| ≤ (2 : ℚ) ^ (126 : Int))
    (hplane : ∀ r, r < H → ∀ q, q < W → ∃ v,
      images[((b * C + c) * H + r) * W + q]? = some (F32.fin v) ∧
      round32 v = F32.fin v ∧ lo ≤ v ∧ v ≤ hi)
    (hy : ys[y]? = some cy) (hx : xs[x]? = some cx)
    (hyl : 0 ≤ cy.lower ∧ cy.lower < (H : Int)) (hyu : 0 ≤ cy.upper ∧ cy.upper < (H : Int))
    (hxl : 0 ≤ cx.lower ∧ cx.lower < (W : Int)) (hxu : 0 ≤ cx.upper ∧ cx.upper < (W : Int))
    (hyq : cy.lerp = F32.fin qy) (hy0 : 0 ≤ qy) (hy1 : qy < 1) (hyr : round32 qy = F32.fin qy)
    (hxq : cx.lerp = F32.fin qx) (hx0 : 0 ≤ qx) (hx1 : qx < 1) (hxr : round32 qx = F32.fin qx) :
    ∃ r, ResizeImage.pixelValue images H W C xs ys b c y x = F32.fin r ∧ lo ≤ r ∧ r ≤ hi := by
  have hsample : ∀ r q : Int, 0 ≤ r → r < (H : Int) → 0 ≤ q → q < (W : Int) →
      ∃ v, inputAt images H W C b c r q = F32.fin v ∧ round32 v = F32.fin v ∧
        lo ≤ v ∧ v ≤ hi := by
    intro r q hr0 hr hq0 hq
    have h1 := getElem?_inputAt_toNat32 images B C H W b c r q himg hb hc hr0 hr hq0 hq
    obtain ⟨v, hv, hrest⟩ := hplane r.toNat (by omega) q.toNat (by omega)
    rw [hv] at h1
    exact ⟨v, (Option.some.inj h1).symm, hrest⟩
  obtain ⟨tl, htl, htlr, htlb⟩ := hsample _ _ hyl.1 hyl.2 hxl.1 hxl.2
  obtain ⟨tr, htr, htrr, htrb⟩ := hsample _ _ hyl.1 hyl.2 hxu.1 hxu.2
  obtain ⟨bl, hbl, hblr, hblb⟩ := hsample _ _ hyu.1 hyu.2 hxl.1 hxl.2
  obtain ⟨br, hbr, hbrr, hbrb⟩ := hsample _ _ hyu.1 hyu.2 hxu.1 hxu.2
  rw [pixelValue_eq32 images H W C xs ys b c y x cy cx hy hx, hyq, hxq, htl, htr, hbl, hbr]
  exact ComputeLerp_between32 lo hi tl tr bl br qx qy hlo hhi htlr htrr hblr hbrr
    htlb htrb hblb hbrb hx0 hx1 hxr hy0 hy1 hyr

/-- With a zero `x` fraction the blend is the one-axis blend of the two left
corners along `y`. -/
theorem ComputeLerp_zero_x32 (a b c d t : ℚ)
    (ha : round32 a = F32.fin a) (hc : round32 c = F32.fin c)
    (hA : |a| ≤ (2 : ℚ) ^ (126 : Int)) (hB : |b| ≤ (2 : ℚ) ^ (126 : Int))
    (hC : |c| ≤ (2 : ℚ) ^ (126 : Int)) (hD : |d| ≤ (2 : ℚ) ^ (126 : Int)) :
    ComputeLerp (F32.fin a) (F32.fin b) (F32.fin c) (F32.fin d) (F32.fin 0) (F32.fin t)
      = F32.add (F32.fin a) (F32.mul (F32.sub (F32.fin c) (F32.fin a)) (F32.fin t)) := by
  obtain ⟨d1, hd1⟩ := sub_finite32 b a hB hA
  obtain ⟨d2, hd2⟩ := sub_finite32 d c hD hC
  simp only [ComputeLerp, hd1, hd2, mul_zero32, add_zero32 a ha, add_zero32 c hc]

/-- With a zero `y` fraction the blend is the one-axis blend of the two top
corners along `x`. -/
theorem ComputeLerp_zero_y32 (a b c d t : ℚ)
    (ha : round32 a = F32.fin a) (hb : round32 b = F32.fin b)
    (hc : round32 c = F32.fin c) (hd : round32 d = F32.fin d)
    (hA : |a| ≤ (2 : ℚ) ^ (126 : Int)) (hB : |b| ≤ (2 : ℚ) ^ (126 : Int))
    (hC : |c| ≤ (2 : ℚ) ^ (126 : Int)) (hD : |d| ≤ (2 : ℚ) ^ (126 : Int))
    (ht0 : 0 ≤ t) (ht1 : t < 1) (ht : round32 t = F32.fin t) :
    ComputeLerp (F32.fin a) (F32.fin b) (F32.fin c) (F32.fin d) (F32.fin t) (F32.fin 0)
      = F32.add (F32.fin a) (F32.mul (F32.sub (F32.fin b) (F32.fin a)) (F32.fin t)) := by
  obtain ⟨r1, hr1, h1lo, h1hi, h1rep⟩ := lerp_between32 a b t ha hb hA hB ht0 ht1 ht
  obtain ⟨r2, hr2, h2lo, h2hi, _⟩ := lerp_between32 c d t hc hd hC hD ht0 ht1 ht
  have hmag : ∀ u v r : ℚ, |u| ≤ (2 : ℚ) ^ (126 : Int) → |v| ≤ (2 : ℚ) ^ (126 : Int) →
      min u v ≤ r → r ≤ max u v → |r| ≤ (2 : ℚ) ^ (126 : Int) := by
    intro u v r hu hv hlo hhi
    have a1 := abs_le.mp hu
    have a2 := abs_le.mp hv
    rw [abs_le]
    constructor
    · rcases min_cases u v with ⟨h, _⟩ | ⟨h, _⟩ <;> rw [h] at hlo <;> linarith
    · rcases max_cases u v with ⟨h, _⟩ | ⟨h, _⟩ <;> rw [h] at hhi <;> linarith
  obtain ⟨e, he⟩ := sub_finite32 r2 r1 (hmag c d r2 hC hD h2lo h2hi) (hmag a b r1 hA hB h1lo h1hi)
  unfold ComputeLerp
  simp only [hr1, hr2, he, mul_zero32, add_zero32 r1 h1rep]

/-- When one of the two fractions is zero, blending along `x` first and along
`y` first give the same binary32 value. -/
theorem ComputeLerp_swap_zero32 (tl tr bl br x y : ℚ)
    (h1 : round32 tl = F32.fin tl) (h2 : round32 tr = F32.fin tr)
    (h3 : round32 bl = F32.fin bl) (h4 : round32 br = F32.fin br)
    (b1 : |tl| ≤ (2 : ℚ) ^ (126 : Int)) (b2 : |tr| ≤ (2 : ℚ) ^ (126 : Int))
    (b3 : |bl| ≤ (2 : ℚ) ^ (126 : Int)) (b4 : |br| ≤ (2 : ℚ) ^ (126 : Int))
    (hx0 : 0 ≤ x) (hx1 : x < 1) (hx : round32 x = F32.fin x)
    (hy0 : 0 ≤ y) (hy1 : y < 1) (hy : round32 y = F32.fin y)
    (hz : x = 0 ∨ y = 0) :
    ComputeLerp (F32.fin tl) (F32.fin tr) (F32.fin bl) (F32.fin br) (F32.fin x) (F32.fin y)
      = ComputeLerp (F32.fin tl) (F32.fin bl) (F32.fin tr) (F32.fin br) (F32.fin y) (F32.fin x) := by
  rcases hz with rfl | rfl
  · rw [ComputeLerp_zero_x32 tl tr bl br y h1 h3 b1 b2 b3 b4,
      ComputeLerp_zero_y32 tl bl tr br y h1 h3 h2 h4 b1 b3 b2 b4 hy0 hy1 hy]
  · rw [ComputeLerp_zero_y32 tl tr bl br x h1 h2 h3 h4 b1 b2 b3 b4 hx0 hx1 hx,
      ComputeLerp_zero_x32 tl bl tr br x h1 h2 b1 b3 b2 b4]

end binary32

/-! ## Tables that stay in range (binary32) -/

namespace binary32

/-- In the normal range rounding increases a positive value by at most the
factor `1 + 2^-24`. -/
theorem round32_le_rel (q : ℚ) (hq0 : 0 < q) (hnorm : (2 : ℚ) ^ (-126 : Int) ≤ q)
    (hq1 : q ≤ (2 : ℚ) ^ (127 : Int)) :
    ∃ s, round32 q = F32.fin s ∧ 0 ≤ s ∧ s ≤ q * (1 + 1 / 16777216) := by
  obtain ⟨s, hs, _, hs0⟩ := round32_bound q 127 (by norm_num) (by norm_num)
    (by rw [abs_of_pos hq0]; exact hq1)
  refine ⟨s, hs, hs0 hq0.le, ?_⟩
  obtain ⟨n, _, hsn, hnr, _⟩ := round32_pos_fin q hq0 s hs
  have hE : -126 ≤ ilog2 q := ilog2_ge q hq0 (-126) hnorm
  have hp : max (ilog2 q) (-126) - 23 = ilog2 q - 23 := by
    rw [max_eq_left hE]
  rw [hp] at hsn hnr
  generalize hpdef : ilog2 q - 23 = p at hsn hnr
  have hppos : 0 < pow2 p := pow2_pos p
  have hhalf := roundNearestEven_le_add_half (q / pow2 p)
  rw [← hnr] at hhalf
  have hcast : ((n : Int) : ℚ) = (n : ℚ) := by norm_cast
  rw [hcast] at hhalf
  have h1 : s ≤ q + pow2 p / 2 := by
    rw [hsn]
    have : (n : ℚ) * pow2 p ≤ (q / pow2 p + 1 / 2) * pow2 p :=
      mul_le_mul_of_nonneg_right hhalf hppos.le
    have h2 : (q / pow2 p + 1 / 2) * pow2 p = q + pow2 p / 2 := by
      field_simp
      ring
    linarith
  have h2 : pow2 p * 8388608 ≤ q := by
    have hB : (2 : ℚ) ^ (ilog2 q) = pow2 p * 8388608 := by
      have : ilog2 q = p + 23 := by omega
      rw [this, zpow_add₀ (by norm_num : (2 : ℚ) ≠ 0), ← pow2_eq_zpow p]
      norm_num
    rw [← hB]
    exact (ilog2_spec q hq0).1
  linarith

/-- The scale computed for sizes up to 4096 (input) and 2048 (output) is finite
and non-negative, and every product `i * scale`, `i < out_size`, stays at least
`2^-12` below the input size. -/
theorem scale_small32 (n N : Nat) (a : Bool) (hN : 1 ≤ N) (hn : 1 ≤ n)
    (hN12 : N ≤ 4096) (hn11 : n ≤ 2048) :
    ∃ s, CalculateResizeScale (N : Int) (n : Int) a = F32.fin s ∧ 0 ≤ s ∧
      ∀ i : Nat, i < n → (i : ℚ) * s ≤ (N : ℚ) - 1 / 4096 := by
  -- the quotient the code rounds
  have key : ∀ A Bd : Nat, A ≤ 4096 → 1 ≤ Bd → Bd ≤ 2048 →
      ∃ s, F32.div (ofInt (A : Int)) (ofInt (Bd : Int)) = F32.fin s ∧ 0 ≤ s ∧
        s ≤ (A : ℚ) / (Bd : ℚ) * (1 + 1 / 16777216) := by
    intro A Bd hA hB1 hB2
    have hBq : (0 : ℚ) < (Bd : ℚ) := by exact_mod_cast hB1
    have hdiv : F32.div (ofInt (A : Int)) (ofInt (Bd : Int))
        = round32 ((A : ℚ) / (Bd : ℚ)) := by
      rw [ofInt_natCast A (by omega), ofInt_natCast Bd (by omega)]
      simp only [F32.div, hBq.ne', if_false]
    rw [hdiv]
    rcases Nat.eq_zero_or_pos A with hA0 | hA0
    · subst hA0
      simp only [Nat.cast_zero, zero_div, round32_zero, zero_mul]
      exact ⟨0, rfl, le_refl 0, le_refl 0⟩
    · have hAq : (1 : ℚ) ≤ (A : ℚ) := by exact_mod_cast hA0
      have hAq2 : (A : ℚ) ≤ 4096 := by exact_mod_cast hA
      have hBq2 : (Bd : ℚ) ≤ 2048 := by exact_mod_cast hB2
      have hBq1 : (1 : ℚ) ≤ (Bd : ℚ) := by exact_mod_cast hB1
      have hS0 : 0 < (A : ℚ) / (Bd : ℚ) := div_pos (by linarith) hBq
      have hSlo : (2 : ℚ) ^ (-126 : Int) ≤ (A : ℚ) / (Bd : ℚ) := by
        rw [le_div_iff₀ hBq]
        have h126 : (2 : ℚ) ^ (-126 : Int) ≤ 1 / 2048 := by norm_num
        calc (2 : ℚ) ^ (-126 : Int) * (Bd : ℚ) ≤ 1 / 2048 * (Bd : ℚ) :=
              mul_le_mul_of_nonneg_right h126 hBq.le
          _ ≤ 1 / 2048 * 2048 := mul_le_mul_of_nonneg_left hBq2 (by norm_num)
          _ = 1 := by norm_num
          _ ≤ (A : ℚ) := hAq
      have hShi : (A : ℚ) / (Bd : ℚ) ≤ (2 : ℚ) ^ (127 : Int) := by
        rw [div_le_iff₀ hBq]
        have h127 : (4096 : ℚ) ≤ (2 : ℚ) ^ (127 : Int) := by norm_num
        have hpos127 : (0 : ℚ) ≤ (2 : ℚ) ^ (127 : Int) := by positivity
        calc (A : ℚ) ≤ 4096 := hAq2
          _ ≤ (2 : ℚ) ^ (127 : Int) := h127
          _ = (2 : ℚ) ^ (127 : Int) * 1 := (mul_one _).symm
          _ ≤ (2 : ℚ) ^ (127 : Int) * (Bd : ℚ) := mul_le_mul_of_nonneg_left hBq1 hpos127
      exact round32_le_rel _ hS0 hSlo hShi
  have hNq : (1 : ℚ) ≤ (N : ℚ) := by exact_mod_cast hN
  have hNq2 : (N : ℚ) ≤ 4096 := by exact_mod_cast hN12
  have hnq : (1 : ℚ) ≤ (n : ℚ) := by exact_mod_cast hn
  have hnq2 : (n : ℚ) ≤ 2048 := by exact_mod_cast hn11
  by_cases hc : a = true ∧ 1 < n
  · -- `align_corners` with `out_size > 1`
    obtain ⟨ha, hn1⟩ := hc
    have hcond : (a && decide ((n : Int) > 1)) = true := by
      simp only [Bool.and_eq_true, decide_eq_true_eq]
      exact ⟨ha, by exact_mod_cast hn1⟩
    obtain ⟨s, hs, hs0, hsle⟩ := key (N - 1) (n - 1) (by omega) (by omega) (by omega)
    have hcN : (N : Int) - 1 = (((N - 1 : Nat)) : Int) := by omega
    have hcn : (n : Int) - 1 = (((n - 1 : Nat)) : Int) := by omega
    refine ⟨s, ?_, hs0, ?_⟩
    · unfold CalculateResizeScale
      rw [if_pos hcond, hcN, hcn]
      exact hs
    · intro i hi
      have hA : (((N - 1 : Nat)) : ℚ) = (N : ℚ) - 1 := by
        rw [Nat.cast_sub hN]; norm_num
      have hB : (((n - 1 : Nat)) : ℚ) = (n : ℚ) - 1 := by
        rw [Nat.cast_sub hn]; norm_num
      rw [hA, hB] at hsle
      have hiq : (i : ℚ) ≤ (n : ℚ) - 1 := by
        have : i ≤ n - 1 := by omega
        have h2 : (i : ℚ) ≤ (((n - 1 : Nat)) : ℚ) := by exact_mod_cast this
        rw [hB] at h2
        exact h2
      have hi0 : (0 : ℚ) ≤ (i : ℚ) := Nat.cast_nonneg i
      have hd : (0 : ℚ) < (n : ℚ) - 1 := by
        have : (1 : ℚ) < (n : ℚ) := by exact_mod_cast hn1
        linarith
      have h1 : (i : ℚ) * s ≤ ((n : ℚ) - 1) * s := mul_le_mul_of_nonneg_right hiq hs0
      have h2 : ((n : ℚ) - 1) * s
          ≤ ((n : ℚ) - 1) * (((N : ℚ) - 1) / ((n : ℚ) - 1) * (1 + 1 / 16777216)) :=
        mul_le_mul_of_nonneg_left hsle hd.le
      have h3 : ((n : ℚ) - 1) * (((N : ℚ) - 1) / ((n : ℚ) - 1) * (1 + 1 / 16777216))
          = ((N : ℚ) - 1) * (1 + 1 / 16777216) := by
        field_simp
        ring
      linarith
  · -- the plain quotient `in_size / out_size`
    have hcond : ¬ ((a && decide ((n : Int) > 1)) = true) := by
      simp only [Bool.and_eq_true, decide_eq_true_eq]
      rintro ⟨ha, hn1⟩
      exact hc ⟨ha, by exact_mod_cast hn1⟩
    obtain ⟨s, hs, hs0, hsle⟩ := key N n hN12 hn hn11
    refine ⟨s, ?_, hs0, ?_⟩
    · unfold CalculateResizeScale
      rw [if_neg hcond]
      exact hs
    · intro i hi
      have hiq : (i : ℚ) ≤ (n : ℚ) - 1 := by
        have : i + 1 ≤ n := by omega
        have h2 : ((i + 1 : Nat) : ℚ) ≤ (n : ℚ) := by exact_mod_cast this
        push_cast at h2
        linarith
      have hi0 : (0 : ℚ) ≤ (i : ℚ) := Nat.cast_nonneg i
      have hn0 : (0 : ℚ) < (n : ℚ) := by linarith
      have h1 : (i : ℚ) * s ≤ (i : ℚ) * ((N : ℚ) / (n : ℚ) * (1 + 1 / 16777216)) :=
        mul_le_mul_of_nonneg_left hsle hi0
      have hfac : (0 : ℚ) ≤ (N : ℚ) / (n : ℚ) * (1 + 1 / 16777216) := by positivity
      have h2 : (i : ℚ) * ((N : ℚ) / (n : ℚ) * (1 + 1 / 16777216))
          ≤ ((n : ℚ) - 1) * ((N : ℚ) / (n : ℚ) * (1 + 1 / 16777216)) :=
        mul_le_mul_of_nonneg_right hiq hfac
      have h3 : ((n : ℚ) - 1) * ((N : ℚ) / (n : ℚ) * (1 + 1 / 16777216))
          = ((N : ℚ) - (N : ℚ) / (n : ℚ)) * (1 + 1 / 16777216) := by
        field_simp
        ring
      have h4 : (1 : ℚ) / 2048 ≤ (N : ℚ) / (n : ℚ) := by
        rw [le_div_iff₀ hn0]
        nlinarith
      have h5 : (N : ℚ) / (n : ℚ) ≤ (N : ℚ) := by
        rw [div_le_iff₀ hn0]
        nlinarith
      nlinarith

/-- For input sizes up to 4096 and output sizes up to 2048 every record can be
formed and holds indices inside `[0, in_size)`: the table is in range. -/
theorem weightTable_inRange32 (n N : Nat) (a : Bool) (hN : 1 ≤ N) (hn : 1 ≤ n)
    (hN12 : N ≤ 4096) (hn11 : n ≤ 2048) :
    TableInRange (weightTable n N a) n N := by
  obtain ⟨s, hs, hs0, hprod⟩ := scale_small32 n N a hN hn hN12 hn11
  have hNq2 : (N : ℚ) ≤ 4096 := by exact_mod_cast hN12
  have hNq : (1 : ℚ) ≤ (N : ℚ) := by exact_mod_cast hN
  -- `N - 2^-12` is a binary32 value
  have hrrep : round32 ((N : ℚ) - 1 / 4096) = F32.fin ((N : ℚ) - 1 / 4096) := by
    have h12 : pow2 (-12) = 1 / 4096 := by
      rw [pow2_eq_zpow]
      norm_num
    have hval : (N : ℚ) - 1 / 4096 = (((N * 4096 - 1 : Nat)) : ℚ) * pow2 (-12) := by
      rw [h12, Nat.cast_sub (by omega)]
      push_cast
      ring
    rw [hval]
    apply round32_grid _ _ (by norm_num; omega) (by norm_num)
    rw [← hval]
    have : (4096 : ℚ) ≤ pow2 128 := by
      rw [pow2_eq_zpow]
      norm_num
    linarith
  have hentry : ∀ i, i < n → ∃ r, ComputeInterpolationWeights.entry (N : Int)
      (CalculateResizeScale (N : Int) (n : Int) a) i = some r ∧
      0 ≤ r.lower ∧ r.lower < (N : Int) ∧ 0 ≤ r.upper ∧ r.upper < (N : Int) := by
    intro i hi
    rw [hs]
    have hi24 : i < 2 ^ 24 := by
      have : (2048 : Nat) < 2 ^ 24 := by norm_num
      omega
    have hi0 : (0 : ℚ) ≤ (i : ℚ) := Nat.cast_nonneg i
    have hy0 : 0 ≤ (i : ℚ) * s := mul_nonneg hi0 hs0
    have hyb : |(i : ℚ) * s| ≤ (2 : ℚ) ^ (127 : Int) := by
      rw [abs_of_nonneg hy0]
      have : (4096 : ℚ) ≤ (2 : ℚ) ^ (127 : Int) := by norm_num
      linarith [hprod i hi]
    obtain ⟨p, hp, hple⟩ := round32_le_of_le ((i : ℚ) * s) _ hrrep hyb (hprod i hi)
    obtain ⟨p', hp', _, hp0'⟩ := round32_bound ((i : ℚ) * s) 127 (by norm_num) (by norm_num) hyb
    rw [hp] at hp'
    injection hp' with hpp
    have hp0 : 0 ≤ p := by rw [hpp]; exact hp0' hy0
    have hp62 : p ≤ (2 : ℚ) ^ (62 : Int) := by
      have : (4096 : ℚ) ≤ (2 : ℚ) ^ (62 : Int) := by norm_num
      linarith
    have hmul : F32.mul (ofInt (i : Int)) (F32.fin s) = F32.fin p := by
      rw [ofInt_natCast i hi24]
      simp only [F32.mul, hp]
    have hfl0 : (0 : Int) ≤ ⌊p⌋ := Int.floor_nonneg.mpr hp0
    have hflN : ⌊p⌋ < (N : Int) := by
      rw [Int.floor_lt]
      push_cast
      linarith
    have hN1 : (1 : Int) ≤ (N : Int) := by exact_mod_cast hN
    refine ⟨⟨⌊p⌋, min (⌊p⌋ + 1) ((N : Int) - 1), F32.sub (F32.fin p) (ofInt ⌊p⌋)⟩, ?_,
      hfl0, hflN, ?_, ?_⟩
    · simp only [ComputeInterpolationWeights.entry, hmul, toIndex_of_nonneg p hp0 hp62]
    · exact le_min (by omega) (by omega)
    · exact lt_of_le_of_lt (min_le_right _ _) (by omega)
  obtain ⟨_, _, hval, _⟩ := weightTable_spec32 n (N : Int) a
    (fun i hi => ⟨_, (hentry i hi).choose_spec.1⟩)
  intro i hi
  obtain ⟨r, hr, hb⟩ := hentry i hi
  exact ⟨r, by rw [hval i hi, hr], hb⟩

end binary32

/-! ## Records and reads outside the input axis -/

/-- Claim C7 does not hold of the `float` code: for `in_size = 1`,
`out_size = 13103685` and `align_corners = false` the scale is
`10740299 * 2^-47`, the table is built, and its record `13103684` is
`(lower, upper, lerp) = (1, 0, 0)`.  The product `13103684 * scale` rounds to
`1.0`, so `lower = in_size` and `lower > upper`, against
`lower ≤ upper ≤ in_size - 1`. -/
theorem C7_record_outside_axis :
    binary32.CalculateResizeScale 1 13103685 false
      = binary32.F32.fin (10740299 / 140737488355328) ∧
    ∃ t r, binary32.ComputeInterpolationWeights 13103685 1
        (binary32.CalculateResizeScale 1 13103685 false)
        (List.replicate 13103686 ⟨0, 0, binary32.F32.fin 0⟩) = some t ∧
      t[13103684]? = some r ∧ r = ⟨1, 0, binary32.F32.fin 0⟩ ∧
      ¬ (r.lower ≤ r.upper) ∧ ¬ (r.upper ≤ 1 - 1 ∧ r.lower ≤ 1 - 1) := by
  have hscale : binary32.CalculateResizeScale 1 13103685 false
      = binary32.F32.fin (10740299 / 140737488355328) := by decide!
  refine ⟨hscale, ?_⟩
  have hent : ∀ i, i < 13103685 → ∃ r, binary32.ComputeInterpolationWeights.entry 1
      (binary32.CalculateResizeScale 1 ((13103685 : Nat) : Int) false) i = some r := by
    intro i hi
    have hs : binary32.CalculateResizeScale 1 ((13103685 : Nat) : Int) false
        = binary32.F32.fin (10740299 / 140737488355328) := hscale
    rw [hs]
    obtain ⟨p, _, _, _, hp⟩ := binary32.entry_some32 1 (10740299 / 140737488355328) i
      (by norm_num) (by norm_num) (by omega)
    exact ⟨_, hp⟩
  obtain ⟨t, _, hrun, _, _, hval, _, _⟩ :=
    binary32.ComputeInterpolationWeights_spec32 13103685 1
      (binary32.CalculateResizeScale 1 ((13103685 : Nat) : Int) false)
      (List.replicate 13103686 ⟨0, 0, binary32.F32.fin 0⟩)
      (by rw [List.length_replicate]) hent
  have hlast : binary32.ComputeInterpolationWeights.entry 1
      (binary32.CalculateResizeScale 1 ((13103685 : Nat) : Int) false) 13103684
      = some ⟨1, 0, binary32.F32.fin 0⟩ := by decide!
  refine ⟨t, ⟨1, 0, binary32.F32.fin 0⟩, hrun, ?_, rfl, by decide, by decide⟩
  rw [hval 13103684 (by norm_num), hlast]

/-- Claim C14 does not hold of the `float` code: on an input of shape
`(1, 1, 1, 1)` with the static size `(1, 13103685)` and `align_corners = false`
the last record of the width table is `(1, 0, 0)`, and `ResizeImage` reads
offset `1` of the one-element input buffer: the out-of-range branch of the
checked-indexing embedding is reached and the call ends with
`Failure.outOfRange`. -/
theorem C14_read_outside_input (fill : Nat → binary32.F32) (v : binary32.F32)
    (output : Tensor binary32.F32) :
    binary32.operatorCall fill ⟨false, [1, 13103685]⟩ ⟨[1, 1, 1, 1], [v]⟩ none output
      = (Status.failed Failure.outOfRange, output.Resize fill [1, 1, 1, 13103685]) := by
  have hscale : binary32.CalculateResizeScale ((1 : Nat) : Int) (((13103684 + 1 : Nat)) : Int)
      false = binary32.F32.fin (10740299 / 140737488355328) := by decide!
  have hent : ∀ i, i < 13103684 + 1 → ∃ r, binary32.ComputeInterpolationWeights.entry
      ((1 : Nat) : Int)
      (binary32.CalculateResizeScale ((1 : Nat) : Int) (((13103684 + 1 : Nat)) : Int) false) i
        = some r := by
    intro i hi
    rw [hscale]
    obtain ⟨p, _, _, _, hp⟩ := binary32.entry_some32 ((1 : Nat) : Int)
      (10740299 / 140737488355328) i (by norm_num) (by norm_num) (by omega)
    exact ⟨_, hp⟩
  obtain ⟨hxs, _, hxval, _⟩ := binary32.weightTable_spec32 (13103684 + 1) ((1 : Nat) : Int) false
    hent
  have hlast : binary32.ComputeInterpolationWeights.entry ((1 : Nat) : Int)
      (binary32.CalculateResizeScale ((1 : Nat) : Int) (((13103684 + 1 : Nat)) : Int) false)
      13103684 = some ⟨1, 0, binary32.F32.fin 0⟩ := by decide!
  have hx := hxval 13103684 (by norm_num)
  rw [hlast] at hx
  have hys : binary32.ComputeInterpolationWeights (((0 + 1 : Nat)) : Int) ((1 : Nat) : Int)
      (binary32.CalculateResizeScale ((1 : Nat) : Int) (((0 + 1 : Nat)) : Int) false)
      (List.replicate ((((0 + 1 : Nat)) : Int) + 1).toNat
        (binary32.CachedInterpolation.mk 0 0 (.fin 0)))
      = some [⟨0, 0, binary32.F32.fin 0⟩, ⟨0, 0, binary32.F32.fin 0⟩] := by decide!
  exact binary32.operatorCall_fails32 fill ⟨false, [1, 13103685]⟩ 0 0 1 1 0 13103684 [v] none
    output _ _ ⟨0, 0, binary32.F32.fin 0⟩ ⟨1, 0, binary32.F32.fin 0⟩ (by decide)
    (GetOutputSize_static false 1 13103685 [] (by decide) (by decide) none) hys hxs rfl hx rfl

/-! ## The ends of an axis under `align_corners` in binary32 -/

/-- Claim C10 as stated does not hold of the `float` code: with
`align_corners = true`, `in_size = 32` and `out_size = 8` the scale `31 / 7` is
rounded down, the product `7 * scale` is below 31, and the last record is
`(lower, upper, lerp) = (30, 31, 524287/524288)` instead of `(31, 31, 0)`.
Resizing an input of shape `(1, 1, 2, 32)` whose rows are `0, 1, ..., 31` to
`(2, 8)` gives a top-right output pixel `31 - 2^-19`, not the input's 31. -/
theorem C10_last_record_not_pinned :
    (∃ t, binary32.ComputeInterpolationWeights 8 32
        (binary32.CalculateResizeScale 32 8 true)
        (List.replicate 9 ⟨0, 0, binary32.F32.fin 0⟩) = some t ∧
      t[8 - 1]? = some ⟨30, 31, binary32.F32.fin (524287 / 524288)⟩) ∧
    ((List.range 64).map (fun k => binary32.F32.fin (((k % 32 : Nat)) : ℚ)))[32 - 1]?
      = some (binary32.F32.fin 31) ∧
    ∃ d, binary32.operatorCall (fun _ => binary32.F32.fin 0) ⟨true, [2, 8]⟩
        ⟨[1, 1, 2, 32], (List.range 64).map (fun k => binary32.F32.fin (((k % 32 : Nat)) : ℚ))⟩
        none ⟨[], []⟩ = (Status.ok, ⟨[1, 1, 2, 8], d⟩) ∧
      d[8 - 1]? = some (binary32.F32.fin (31 - 1 / 524288)) := by
  refine ⟨⟨[⟨0, 1, .fin 0⟩, ⟨4, 5, .fin (898779 / 2097152)⟩, ⟨8, 9, .fin (898779 / 1048576)⟩,
      ⟨13, 14, .fin (37449 / 131072)⟩, ⟨17, 18, .fin (374491 / 524288)⟩,
      ⟨22, 23, .fin (37449 / 262144)⟩, ⟨26, 27, .fin (37449 / 65536)⟩,
      ⟨30, 31, .fin (524287 / 524288)⟩, ⟨0, 0, .fin 0⟩], by decide!, rfl⟩, by decide!,
    (binary32.operatorCall (fun _ => binary32.F32.fin 0) ⟨true, [2, 8]⟩
        ⟨[1, 1, 2, 32], (List.range 64).map (fun k => binary32.F32.fin (((k % 32 : Nat)) : ℚ))⟩
        none ⟨[], []⟩).2.data, by decide!, by decide!⟩

/-- Claim C10, amended for binary32.  With `align_corners = true`, input sizes
`H, W` in `[1, 2^24]`, output sizes `h, w > 1` different from `(H, W)`, and
tables whose indices are inside the input plane (which is proved for input
sizes up to 4096 and output sizes up to 2048, and a hypothesis beyond): record
0 of each table has
`lower = 0` and `lerp = 0`; record `out_size - 1` has
`lower = upper = in_size - 1` and `lerp = 0` whenever the binary32 product
`(out_size - 1) * scale` is exactly `in_size - 1`, which holds when
`out_size - 1` divides `in_size - 1` and `out_size ≤ 2^24`.  The call succeeds
and, for an input whose samples are finite binary32 values of magnitude at most
`2^126`, in every plane the top-left output pixel is the top-left input pixel,
and each other corner is pinned when the product of its axes is exact. -/
theorem C10_align_corners_ends_binary32 (fill : Nat → binary32.F32)
    (f : ResizeBilinearFunctor) (hf : f.align_corners_ = true)
    (B C H W h w : Nat) (data : List binary32.F32) (resize_dims : Option (Tensor Int))
    (output : Tensor binary32.F32)
    (hH : 1 ≤ H) (hW : 1 ≤ W) (hh : 1 < h) (hw : 1 < w) (hne : ¬ (h = H ∧ w = W))
    (hH24 : H ≤ 2 ^ 24) (hW24 : W ≤ 2 ^ 24)
    (hdata : data.length = B * C * H * W)
    (htame : ∀ v, v ∈ data → v.tame = true)
    (hres : f.GetOutputSize resize_dims = .ok ((h : Int), (w : Int)))
    (hrange : (H ≤ 4096 ∧ W ≤ 4096 ∧ h ≤ 2048 ∧ w ≤ 2048) ∨
      (binary32.TableInRange (binary32.weightTable h H true) h H ∧
        binary32.TableInRange (binary32.weightTable w W true) w W)) :
    (∃ u, (binary32.weightTable h H true)[0]? = some ⟨0, u, binary32.F32.fin 0⟩) ∧
    (∃ u, (binary32.weightTable w W true)[0]? = some ⟨0, u, binary32.F32.fin 0⟩) ∧
    (binary32.F32.mul (binary32.ofInt (((h - 1 : Nat)) : Int))
        (binary32.CalculateResizeScale (H : Int) (h : Int) true)
        = binary32.F32.fin (((H - 1 : Nat)) : ℚ) →
      (binary32.weightTable h H true)[h - 1]?
        = some ⟨(H : Int) - 1, (H : Int) - 1, binary32.F32.fin 0⟩) ∧
    (binary32.F32.mul (binary32.ofInt (((w - 1 : Nat)) : Int))
        (binary32.CalculateResizeScale (W : Int) (w : Int) true)
        = binary32.F32.fin (((W - 1 : Nat)) : ℚ) →
      (binary32.weightTable w W true)[w - 1]?
        = some ⟨(W : Int) - 1, (W : Int) - 1, binary32.F32.fin 0⟩) ∧
    (h ≤ 2 ^ 24 → (h - 1) ∣ (H - 1) →
      binary32.F32.mul (binary32.ofInt (((h - 1 : Nat)) : Int))
        (binary32.CalculateResizeScale (H : Int) (h : Int) true)
        = binary32.F32.fin (((H - 1 : Nat)) : ℚ)) ∧
    (w ≤ 2 ^ 24 → (w - 1) ∣ (W - 1) →
      binary32.F32.mul (binary32.ofInt (((w - 1 : Nat)) : Int))
        (binary32.CalculateResizeScale (W : Int) (w : Int) true)
        = binary32.F32.fin (((W - 1 : Nat)) : ℚ)) ∧
    ∃ d, binary32.operatorCall fill f ⟨[(B : Int), (C : Int), (H : Int), (W : Int)], data⟩
          resize_dims output
        = (Status.ok, ⟨[(B : Int), (C : Int), (h : Int), (w : Int)], d⟩) ∧
      d.length = B * C * h * w ∧
      ∀ b, b < B → ∀ c, c < C →
        d[((b * C + c) * h + 0) * w + 0]? = data[((b * C + c) * H + 0) * W + 0]? ∧
        (binary32.F32.mul (binary32.ofInt (((w - 1 : Nat)) : Int))
            (binary32.CalculateResizeScale (W : Int) (w : Int) true)
            = binary32.F32.fin (((W - 1 : Nat)) : ℚ) →
          d[((b * C + c) * h + 0) * w + (w - 1)]?
            = data[((b * C + c) * H + 0) * W + (W - 1)]?) ∧
        (binary32.F32.mul (binary32.ofInt (((h - 1 : Nat)) : Int))
            (binary32.CalculateResizeScale (H : Int) (h : Int) true)
            = binary32.F32.fin (((H - 1 : Nat)) : ℚ) →
          d[((b * C + c) * h + (h - 1)) * w + 0]?
            = data[((b * C + c) * H + (H - 1)) * W + 0]?) ∧
        (binary32.F32.mul (binary32.ofInt (((h - 1 : Nat)) : Int))
            (binary32.CalculateResizeScale (H : Int) (h : Int) true)
            = binary32.F32.fin (((H - 1 : Nat)) : ℚ) →
          binary32.F32.mul (binary32.ofInt (((w - 1 : Nat)) : Int))
            (binary32.CalculateResizeScale (W : Int) (w : Int) true)
            = binary32.F32.fin (((W - 1 : Nat)) : ℚ) →
          d[((b * C + c) * h + (h - 1)) * w + (w - 1)]?
            = data[((b * C + c) * H + (H - 1)) * W + (W - 1)]?) := by
  have hys : binary32.TableInRange (binary32.weightTable h H true) h H := by
    rcases hrange with ⟨h1, _, h3, _⟩ | ⟨h1, _⟩
    · exact binary32.weightTable_inRange32 h H true hH (by omega) h1 h3
    · exact h1
  have hxs : binary32.TableInRange (binary32.weightTable w W true) w W := by
    rcases hrange with ⟨_, h2, _, h4⟩ | ⟨_, h2⟩
    · exact binary32.weightTable_inRange32 w W true hW (by omega) h2 h4
    · exact h2
  have hye := binary32.weightTable_entries32 h (H : Int) true H (by omega) hys
  have hxe := binary32.weightTable_entries32 w (W : Int) true W (by omega) hxs
  -- record 0 of each axis
  obtain ⟨cy0, hcy0, hcy0b⟩ := hys 0 (by omega)
  obtain ⟨cx0, hcx0, hcx0b⟩ := hxs 0 (by omega)
  have hcy0e : cy0 = ⟨0, min 1 ((H : Int) - 1), binary32.F32.fin 0⟩ := by
    apply binary32.entry_zero_of_some32 (H : Int)
      (binary32.CalculateResizeScale (H : Int) (h : Int) true)
    rw [← hye 0 (by omega)]
    exact hcy0
  have hcx0e : cx0 = ⟨0, min 1 ((W : Int) - 1), binary32.F32.fin 0⟩ := by
    apply binary32.entry_zero_of_some32 (W : Int)
      (binary32.CalculateResizeScale (W : Int) (w : Int) true)
    rw [← hxe 0 (by omega)]
    exact hcx0
  -- the last record of each axis, when the product is exact
  have hylast : binary32.F32.mul (binary32.ofInt (((h - 1 : Nat)) : Int))
        (binary32.CalculateResizeScale (H : Int) (h : Int) true)
        = binary32.F32.fin (((H - 1 : Nat)) : ℚ) →
      (binary32.weightTable h H true)[h - 1]?
        = some ⟨(H : Int) - 1, (H : Int) - 1, binary32.F32.fin 0⟩ := by
    intro hex
    rw [hye (h - 1) (by omega)]
    exact binary32.entry_last_exact32 H h hH hH24 _ hex
  have hxlast : binary32.F32.mul (binary32.ofInt (((w - 1 : Nat)) : Int))
        (binary32.CalculateResizeScale (W : Int) (w : Int) true)
        = binary32.F32.fin (((W - 1 : Nat)) : ℚ) →
      (binary32.weightTable w W true)[w - 1]?
        = some ⟨(W : Int) - 1, (W : Int) - 1, binary32.F32.fin 0⟩ := by
    intro hex
    rw [hxe (w - 1) (by omega)]
    exact binary32.entry_last_exact32 W w hW hW24 _ hex
  refine ⟨⟨_, by rw [hcy0, hcy0e]⟩, ⟨_, by rw [hcx0, hcx0e]⟩, hylast, hxlast,
    fun h24 hd => binary32.align_product_exact32 H h hH hh hH24 h24 hd,
    fun w24 hd => binary32.align_product_exact32 W w hW hw hW24 w24 hd, ?_⟩
  have hys' : binary32.TableInRange (binary32.weightTable h H f.align_corners_) h H := by
    rw [hf]; exact hys
  have hxs' : binary32.TableInRange (binary32.weightTable w W f.align_corners_) w W := by
    rw [hf]; exact hxs
  obtain ⟨d, hcall, hlen, hval⟩ :=
    binary32.operatorCall_interp32 fill f B C H W h w data resize_dims output
      (by omega) (by omega) hne hdata.ge hres hys' hxs'
  refine ⟨d, hcall, hlen, ?_⟩
  intro b hb c hc
  rw [hf] at hval
  have hHc : (H : Int) - 1 = (((H - 1 : Nat)) : Int) := by omega
  have hWc : (W : Int) - 1 = (((W - 1 : Nat)) : Int) := by omega
  have hHr : (0 : Int) ≤ (H : Int) - 1 ∧ (H : Int) - 1 < (H : Int) := by omega
  have hWr : (0 : Int) ≤ (W : Int) - 1 ∧ (W : Int) - 1 < (W : Int) := by omega
  have hy0l := And.intro hcy0b.1 hcy0b.2.1
  have hy0u := hcy0b.2.2
  have hx0l := And.intro hcx0b.1 hcx0b.2.1
  have hx0u := hcx0b.2.2
  subst hcy0e
  subst hcx0e
  refine ⟨?_, ?_, ?_, ?_⟩
  · rw [hval b hb c hc 0 (by omega) 0 (by omega)]
    exact binary32.pixelValue_sample32 data B C H W b c 0 0 0 0 _ _ _ _ hdata.ge hb hc htame
      hcy0 hcx0 hy0l hy0u hx0l hx0u rfl rfl rfl rfl
  · intro hxex
    rw [hval b hb c hc 0 (by omega) (w - 1) (by omega)]
    exact binary32.pixelValue_sample32 data B C H W b c 0 (w - 1) 0 (W - 1) _ _ _ _ hdata.ge
      hb hc htame hcy0 (hxlast hxex) hy0l hy0u hWr hWr rfl rfl rfl hWc
  · intro hyex
    rw [hval b hb c hc (h - 1) (by omega) 0 (by omega)]
    exact binary32.pixelValue_sample32 data B C H W b c (h - 1) 0 (H - 1) 0 _ _ _ _ hdata.ge
      hb hc htame (hylast hyex) hcx0 hHr hHr hx0l hx0u rfl rfl hHc rfl
  · intro hyex hxex
    rw [hval b hb c hc (h - 1) (by omega) (w - 1) (by omega)]
    exact binary32.pixelValue_sample32 data B C H W b c (h - 1) (w - 1) (H - 1) (W - 1) _ _ _ _
      hdata.ge hb hc htame (hylast hyex) (hxlast hxex) hHr hHr hWr hWr rfl rfl hHc hWc

theorem C10_align_corners_ends_binary32_witness :
    ∃ d, binary32.operatorCall (fun _ => binary32.F32.fin 0) ⟨true, [3, 3]⟩
          ⟨[((1 : Nat) : Int), ((1 : Nat) : Int), ((2 : Nat) : Int), ((2 : Nat) : Int)],
            [.fin 1, .fin 2, .fin 3, .fin 4]⟩ none ⟨[], []⟩
        = (Status.ok,
            ⟨[((1 : Nat) : Int), ((1 : Nat) : Int), ((3 : Nat) : Int), ((3 : Nat) : Int)], d⟩) ∧
      d.length = 9 ∧
      d[0]? = some (binary32.F32.fin 1) ∧ d[2]? = some (binary32.F32.fin 2) ∧
      d[6]? = some (binary32.F32.fin 3) ∧ d[8]? = some (binary32.F32.fin 4) := by
  obtain ⟨_, _, _, _, _, _, d, hcall, hlen, hval⟩ :=
    C10_align_corners_ends_binary32 (fun _ => binary32.F32.fin 0) ⟨true, [3, 3]⟩ rfl
      1 1 2 2 3 3 [.fin 1, .fin 2, .fin 3, .fin 4] none ⟨[], []⟩
      (by decide) (by decide) (by decide) (by decide) (by decide) (by norm_num) (by norm_num)
      rfl (by decide!) rfl (Or.inl ⟨by norm_num, by norm_num, by norm_num, by norm_num⟩)
  obtain ⟨h1, h2, h3, h4⟩ := hval 0 (by decide) 0 (by decide)
  have hex : binary32.F32.mul (binary32.ofInt (((3 - 1 : Nat)) : Int))
      (binary32.CalculateResizeScale ((2 : Nat) : Int) ((3 : Nat) : Int) true)
      = binary32.F32.fin (((2 - 1 : Nat)) : ℚ) := by decide!
  exact ⟨d, hcall, hlen, h1, h2 hex, h3 hex, h4 hex hex⟩

/-! ## Contents of the weight table in binary32 -/

/-- Claim C12 as stated does not hold of the `float` code: for the binary32
scale `13981013 / 8388608` and `i = 3` the exact product is just below 5, so
`floor(i * scale) = 4`, but the product is rounded to `5.0` before the
conversion and the record stored is `(lower, upper, lerp) = (5, 6, 0)`.  For the
scale `2^100` and `out_size = 2` the product `1 * scale` is outside the range
of `index_t`: the conversion is undefined and no table is built. -/
theorem C12_rounded_product_changes_lower :
    binary32.round32 (13981013 / 8388608) = binary32.F32.fin (13981013 / 8388608) ∧
    ⌊(3 : ℚ) * (13981013 / 8388608)⌋ = 4 ∧
    (∃ t, binary32.ComputeInterpolationWeights 4 100 (binary32.F32.fin (13981013 / 8388608))
        (List.replicate 5 ⟨0, 0, binary32.F32.fin 0⟩) = some t ∧
      t[3]? = some ⟨5, 6, binary32.F32.fin 0⟩) ∧
    binary32.round32 1267650600228229401496703205376
      = binary32.F32.fin 1267650600228229401496703205376 ∧
    binary32.ComputeInterpolationWeights 2 100 (binary32.F32.fin 1267650600228229401496703205376)
        (List.replicate 3 ⟨0, 0, binary32.F32.fin 0⟩) = none := by
  refine ⟨by decide!, by decide!,
    ⟨[⟨0, 1, .fin 0⟩, ⟨1, 2, .fin (5592405 / 8388608)⟩, ⟨3, 4, .fin (1398101 / 4194304)⟩,
      ⟨5, 6, .fin 0⟩, ⟨0, 0, .fin 0⟩], by decide!, rfl⟩, by decide!, by decide!⟩

/-- Claim C12, amended for binary32: for `out_size ≤ 2^24`, any `in_size` and a
finite scale in `[0, 2^38]`, `ComputeInterpolationWeights` fills a table of
the same length in which, for each `i < out_size`, with `p` the product
`i * scale` rounded once to binary32, `lower = floor(p)`,
`upper = min(lower + 1, in_size - 1)` and `lerp = p - lower` exactly, a value in
`[0, 1)`; the record at index `out_size` has `lower = upper = 0`; and the
ascending build yields the same table. -/
theorem C12_weight_table_contents_binary32 (out_size : Nat) (in_size : Int) (scale : ℚ)
    (interpolation : List binary32.CachedInterpolation)
    (hout : out_size ≤ 2 ^ 24) (hs0 : 0 ≤ scale) (hs1 : scale ≤ (2 : ℚ) ^ (38 : Int))
    (hlen : interpolation.length = out_size + 1) :
    ∃ t, binary32.ComputeInterpolationWeights (out_size : Int) in_size (binary32.F32.fin scale)
        interpolation = some t ∧
      t.length = out_size + 1 ∧
      (∀ i, i < out_size → ∃ r p, t[i]? = some r ∧
        binary32.round32 ((i : ℚ) * scale) = binary32.F32.fin p ∧
        r.lower = ⌊p⌋ ∧ r.upper = min (r.lower + 1) (in_size - 1) ∧
        r.lerp = binary32.F32.fin (p - (r.lower : ℚ)) ∧
        0 ≤ p - (r.lower : ℚ) ∧ p - (r.lower : ℚ) < 1) ∧
      (∃ r, t[out_size]? = some r ∧ r.lower = 0 ∧ r.upper = 0) ∧
      binary32.ComputeInterpolationWeights.ascending (out_size : Int) in_size
        (binary32.F32.fin scale) interpolation = some t := by
  have hent : ∀ i, i < out_size → ∃ r, binary32.ComputeInterpolationWeights.entry in_size
      (binary32.F32.fin scale) i = some r := by
    intro i hi
    obtain ⟨p, _, _, _, hp⟩ := binary32.entry_some32 in_size scale i hs0 hs1 (by omega)
    exact ⟨_, hp⟩
  obtain ⟨t, r0, hrun, hlen', _, hval, hsent, _⟩ :=
    binary32.ComputeInterpolationWeights_spec32 out_size in_size (binary32.F32.fin scale)
      interpolation (by omega) hent
  refine ⟨t, hrun, by rw [hlen', hlen], ?_, ⟨_, hsent, rfl, rfl⟩, ?_⟩
  · intro i hi
    obtain ⟨p, hp, hp0, _, hentry⟩ := binary32.entry_some32 in_size scale i hs0 hs1 (by omega)
    obtain ⟨hsub, _⟩ := binary32.fract_exact32 p hp0 (binary32.round32_idem _ p hp)
    refine ⟨(⟨⌊p⌋, min (⌊p⌋ + 1) (in_size - 1),
      binary32.F32.sub (binary32.F32.fin p) (binary32.ofInt ⌊p⌋)⟩ :
        binary32.CachedInterpolation), p, ?_, hp, rfl, rfl, hsub, ?_, ?_⟩
    · rw [hval i hi, hentry]
    · have := Int.floor_le p
      show 0 ≤ p - ((⌊p⌋ : Int) : ℚ)
      linarith
    · have := Int.lt_floor_add_one p
      show p - ((⌊p⌋ : Int) : ℚ) < 1
      linarith
  · rw [binary32.ascending_eq32, hrun]

theorem C12_weight_table_contents_binary32_witness :
    ∃ t, binary32.ComputeInterpolationWeights ((4 : Nat) : Int) 100
        (binary32.F32.fin (13981013 / 8388608))
        (List.replicate 5 ⟨0, 0, binary32.F32.fin 0⟩) = some t ∧
      t.length = 4 + 1 ∧
      (∀ i : Nat, i < 4 → ∃ r p, t[i]? = some r ∧
        binary32.round32 ((i : ℚ) * (13981013 / 8388608)) = binary32.F32.fin p ∧
        r.lower = ⌊p⌋ ∧ r.upper = min (r.lower + 1) (100 - 1) ∧
        r.lerp = binary32.F32.fin (p - (r.lower : ℚ)) ∧
        0 ≤ p - (r.lower : ℚ) ∧ p - (r.lower : ℚ) < 1) ∧
      (∃ r, t[4]? = some r ∧ r.lower = 0 ∧ r.upper = 0) ∧
      binary32.ComputeInterpolationWeights.ascending ((4 : Nat) : Int) 100
        (binary32.F32.fin (13981013 / 8388608))
        (List.replicate 5 ⟨0, 0, binary32.F32.fin 0⟩) = some t :=
  C12_weight_table_contents_binary32 4 100 (13981013 / 8388608)
    (List.replicate 5 ⟨0, 0, binary32.F32.fin 0⟩) (by norm_num) (by norm_num) (by norm_num) rfl

/-! ## The blend in binary32 -/

/-- Claim C16 as stated does not hold of the `float` code.  The samples
`-3 * 2^126` and `3 * 2^126` are finite binary32 values, but their difference
overflows to infinity and `inf * 0` is NaN: `ComputeLerp` with both fractions
zero returns NaN instead of its top-left corner, and resizing the plane
`[-3 * 2^126, 3 * 2^126]` from `1 x 2` to `1 x 3` gives `[NaN, NaN, 3 * 2^126]`,
so an output pixel is not between the minimum and the maximum of the plane.
A plane that is constant `+inf` is resized to a plane of NaN.  Without any
overflow, the fraction `x_lerp = 1` takes the blend of the corners `-1` and
`2^-24 + 2^-40` to `2^-23`, above both corners. -/
theorem C16_blend_leaves_sample_range :
    binary32.round32 (-255211775190703847597530955573826158592)
      = binary32.F32.fin (-255211775190703847597530955573826158592) ∧
    binary32.round32 255211775190703847597530955573826158592
      = binary32.F32.fin 255211775190703847597530955573826158592 ∧
    binary32.ComputeLerp (.fin (-255211775190703847597530955573826158592))
      (.fin 255211775190703847597530955573826158592)
      (.fin (-255211775190703847597530955573826158592))
      (.fin 255211775190703847597530955573826158592) (.fin 0) (.fin 0) = binary32.F32.nan ∧
    (binary32.operatorCall (fun _ => binary32.F32.fin 0) ⟨false, [1, 3]⟩
        ⟨[1, 1, 1, 2], [.fin (-255211775190703847597530955573826158592),
          .fin 255211775190703847597530955573826158592]⟩ none ⟨[], []⟩).1 = Status.ok ∧
    (binary32.operatorCall (fun _ => binary32.F32.fin 0) ⟨false, [1, 3]⟩
        ⟨[1, 1, 1, 2], [.fin (-255211775190703847597530955573826158592),
          .fin 255211775190703847597530955573826158592]⟩ none ⟨[], []⟩).2.data
      = [.nan, .nan, .fin 255211775190703847597530955573826158592] ∧
    (binary32.operatorCall (fun _ => binary32.F32.fin 0) ⟨false, [1, 3]⟩
        ⟨[1, 1, 1, 2], [.inf false, .inf false]⟩ none ⟨[], []⟩).2.data
      = [.nan, .nan, .nan] ∧
    binary32.round32 (65537 / 1099511627776) = binary32.F32.fin (65537 / 1099511627776) ∧
    binary32.ComputeLerp (.fin (-1)) (.fin (65537 / 1099511627776)) (.fin (-1))
      (.fin (65537 / 1099511627776)) (.fin 1) (.fin 0) = binary32.F32.fin (1 / 8388608) ∧
    (65537 / 1099511627776 : ℚ) < 1 / 8388608 := by
  refine ⟨by decide!, by decide!, by decide!, by decide!, by decide!, by decide!, by decide!,
    by decide!, by norm_num⟩

/-- Claim C16, amended for binary32.  `ComputeLerp` evaluates
`top + (bottom - top) * y_lerp` with `top = tl + (tr - tl) * x_lerp` and
`bottom = bl + (br - bl) * x_lerp`, every operation rounded to binary32.  For
corners that are binary32 values inside `[lo, hi]`, `|lo|, |hi| ≤ 2^126`, and
fractions that are binary32 values in `[0, 1)`, the result is finite and inside
`[lo, hi]`; four equal finite corners blend to the same value for all finite
fractions.  On the interpolation path, for input sizes up to 4096 and output
sizes up to 2048, or whenever the indices of both tables are inside the input
plane, the call succeeds; every output pixel of a plane whose
samples are binary32 values inside `[lo, hi]` is finite and inside `[lo, hi]`
(so between the minimum and the maximum of the plane), and a plane constant
with a finite binary32 value yields an output plane constant with that value. -/
theorem C16_blend_binary32 (fill : Nat → binary32.F32) (f : ResizeBilinearFunctor)
    (B C H W h w : Nat) (data : List binary32.F32) (resize_dims : Option (Tensor Int))
    (output : Tensor binary32.F32)
    (hH : 1 ≤ H) (hW : 1 ≤ W) (hh : 1 ≤ h) (hw : 1 ≤ w) (hne : ¬ (h = H ∧ w = W))
    (hdata : data.length = B * C * H * W)
    (hres : f.GetOutputSize resize_dims = .ok ((h : Int), (w : Int)))
    (hrange : (H ≤ 4096 ∧ W ≤ 4096 ∧ h ≤ 2048 ∧ w ≤ 2048) ∨
      (binary32.TableInRange (binary32.weightTable h H f.align_corners_) h H ∧
        binary32.TableInRange (binary32.weightTable w W f.align_corners_) w W)) :
    (∀ tl tr bl br x y : binary32.F32, binary32.ComputeLerp tl tr bl br x y =
      binary32.F32.add (binary32.F32.add tl (binary32.F32.mul (binary32.F32.sub tr tl) x))
        (binary32.F32.mul
          (binary32.F32.sub
            (binary32.F32.add bl (binary32.F32.mul (binary32.F32.sub br bl) x))
            (binary32.F32.add tl (binary32.F32.mul (binary32.F32.sub tr tl) x))) y)) ∧
    (∀ lo hi tl tr bl br x y : ℚ,
      |lo| ≤ (2 : ℚ) ^ (126 : Int) → |hi| ≤ (2 : ℚ) ^ (126 : Int) →
      binary32.round32 tl = binary32.F32.fin tl → binary32.round32 tr = binary32.F32.fin tr →
      binary32.round32 bl = binary32.F32.fin bl → binary32.round32 br = binary32.F32.fin br →
      lo ≤ tl ∧ tl ≤ hi → lo ≤ tr ∧ tr ≤ hi → lo ≤ bl ∧ bl ≤ hi → lo ≤ br ∧ br ≤ hi →
      0 ≤ x → x < 1 → binary32.round32 x = binary32.F32.fin x →
      0 ≤ y → y < 1 → binary32.round32 y = binary32.F32.fin y →
      ∃ r, binary32.ComputeLerp (.fin tl) (.fin tr) (.fin bl) (.fin br) (.fin x) (.fin y)
          = binary32.F32.fin r ∧ lo ≤ r ∧ r ≤ hi) ∧
    (∀ v x y : ℚ, binary32.round32 v = binary32.F32.fin v →
      binary32.ComputeLerp (.fin v) (.fin v) (.fin v) (.fin v) (.fin x) (.fin y)
        = binary32.F32.fin v) ∧
    ∃ d, binary32.operatorCall fill f ⟨[(B : Int), (C : Int), (H : Int), (W : Int)], data⟩
          resize_dims output
        = (Status.ok, ⟨[(B : Int), (C : Int), (h : Int), (w : Int)], d⟩) ∧
      d.length = B * C * h * w ∧
      (∀ b, b < B → ∀ c, c < C → ∀ lo hi : ℚ,
        |lo| ≤ (2 : ℚ) ^ (126 : Int) → |hi| ≤ (2 : ℚ) ^ (126 : Int) →
        (∀ r, r < H → ∀ q, q < W → ∃ v,
          data[((b * C + c) * H + r) * W + q]? = some (binary32.F32.fin v) ∧
          binary32.round32 v = binary32.F32.fin v ∧ lo ≤ v ∧ v ≤ hi) →
        ∀ y, y < h → ∀ x, x < w →
          ∃ r, d[((b * C + c) * h + y) * w + x]? = some (binary32.F32.fin r) ∧
            lo ≤ r ∧ r ≤ hi) ∧
      ∀ b, b < B → ∀ c, c < C → ∀ v : ℚ, binary32.round32 v = binary32.F32.fin v →
        (∀ r, r < H → ∀ q, q < W →
          data[((b * C + c) * H + r) * W + q]? = some (binary32.F32.fin v)) →
        ∀ y, y < h → ∀ x, x < w →
          d[((b * C + c) * h + y) * w + x]? = some (binary32.F32.fin v) := by
  refine ⟨fun _ _ _ _ _ _ => rfl,
    fun lo hi tl tr bl br x y hlo hhi h1 h2 h3 h4 b1 b2 b3 b4 hx0 hx1 hx hy0 hy1 hy =>
      binary32.ComputeLerp_between32 lo hi tl tr bl br x y hlo hhi h1 h2 h3 h4 b1 b2 b3 b4
        hx0 hx1 hx hy0 hy1 hy,
    fun v x y hv => binary32.ComputeLerp_const32 v x y hv, ?_⟩
  have hys : binary32.TableInRange (binary32.weightTable h H f.align_corners_) h H := by
    rcases hrange with ⟨h1, _, h3, _⟩ | ⟨h1, _⟩
    · exact binary32.weightTable_inRange32 h H _ hH hh h1 h3
    · exact h1
  have hxs : binary32.TableInRange (binary32.weightTable w W f.align_corners_) w W := by
    rcases hrange with ⟨_, h2, _, h4⟩ | ⟨_, h2⟩
    · exact binary32.weightTable_inRange32 w W _ hW hw h2 h4
    · exact h2
  obtain ⟨d, hcall, hlen, hval⟩ :=
    binary32.operatorCall_interp32 fill f B C H W h w data resize_dims output
      hh hw hne hdata.ge hres hys hxs
  refine ⟨d, hcall, hlen, ?_, ?_⟩
  · intro b hb c hc lo hi hlo hhi hplane y hy x hx
    obtain ⟨cy, hcy, hyl0, hyl, hyu0, hyu⟩ := hys y hy
    obtain ⟨cx, hcx, hxl0, hxl, hxu0, hxu⟩ := hxs x hx
    obtain ⟨qy, hqy, hqy0, hqy1, hqyr⟩ :=
      binary32.weightTable_lerp_unit32 h H f.align_corners_ hh hys y hy cy hcy
    obtain ⟨qx, hqx, hqx0, hqx1, hqxr⟩ :=
      binary32.weightTable_lerp_unit32 w W f.align_corners_ hw hxs x hx cx hcx
    obtain ⟨r, hr, hr1, hr2⟩ :=
      binary32.pixelValue_between32 data B C H W b c y x _ _ cy cx lo hi qy qx hdata.ge hb hc
        hlo hhi hplane hcy hcx ⟨hyl0, hyl⟩ ⟨hyu0, hyu⟩ ⟨hxl0, hxl⟩ ⟨hxu0, hxu⟩
        hqy hqy0 hqy1 hqyr hqx hqx0 hqx1 hqxr
    exact ⟨r, by rw [hval b hb c hc y hy x hx, hr], hr1, hr2⟩
  · intro b hb c hc v hv hconst y hy x hx
    obtain ⟨cy, hcy, hyl0, hyl, hyu0, hyu⟩ := hys y hy
    obtain ⟨cx, hcx, hxl0, hxl, hxu0, hxu⟩ := hxs x hx
    obtain ⟨qy, hqy⟩ := binary32.weightTable_lerp_finite32 h (H : Int) f.align_corners_ H hh hys
      y hy cy hcy
    obtain ⟨qx, hqx⟩ := binary32.weightTable_lerp_finite32 w (W : Int) f.align_corners_ W hw hxs
      x hx cx hcx
    rw [hval b hb c hc y hy x hx]
    congr 1
    exact binary32.pixelValue_const32 data B C H W b c y x _ _ cy cx v qy qx hdata.ge hb hc hv
      hconst hcy hcx ⟨hyl0, hyl⟩ ⟨hyu0, hyu⟩ ⟨hxl0, hxl⟩ ⟨hxu0, hxu⟩ hqy hqx

theorem C16_blend_binary32_witness :
    (∃ d, binary32.operatorCall (fun _ => binary32.F32.fin 0) ⟨false, [3, 3]⟩
          ⟨[((1 : Nat) : Int), ((1 : Nat) : Int), ((2 : Nat) : Int), ((2 : Nat) : Int)],
            [.fin 1, .fin 2, .fin 3, .fin 4]⟩ none ⟨[], []⟩
        = (Status.ok,
            ⟨[((1 : Nat) : Int), ((1 : Nat) : Int), ((3 : Nat) : Int), ((3 : Nat) : Int)], d⟩) ∧
      d.length = 1 * 1 * 3 * 3 ∧
      ∀ y, y < 3 → ∀ x, x < 3 →
        ∃ r, d[((0 * 1 + 0) * 3 + y) * 3 + x]? = some (binary32.F32.fin r) ∧ 1 ≤ r ∧ r ≤ 4) ∧
    ∃ d, binary32.operatorCall (fun _ => binary32.F32.fin 0) ⟨false, [3, 3]⟩
          ⟨[((1 : Nat) : Int), ((1 : Nat) : Int), ((2 : Nat) : Int), ((2 : Nat) : Int)],
            [.fin (1 / 4), .fin (1 / 4), .fin (1 / 4), .fin (1 / 4)]⟩ none ⟨[], []⟩
        = (Status.ok,
            ⟨[((1 : Nat) : Int), ((1 : Nat) : Int), ((3 : Nat) : Int), ((3 : Nat) : Int)], d⟩) ∧
      d.length = 1 * 1 * 3 * 3 ∧
      ∀ y, y < 3 → ∀ x, x < 3 →
        d[((0 * 1 + 0) * 3 + y) * 3 + x]? = some (binary32.F32.fin (1 / 4)) := by
  constructor
  · obtain ⟨_, _, _, d, hcall, hlen, hbound, _⟩ :=
      C16_blend_binary32 (fun _ => binary32.F32.fin 0) ⟨false, [3, 3]⟩
        1 1 2 2 3 3 [.fin 1, .fin 2, .fin 3, .fin 4] none ⟨[], []⟩
        (by decide) (by decide) (by decide) (by decide) (by decide) rfl rfl
        (Or.inl ⟨by norm_num, by norm_num, by norm_num, by norm_num⟩)
    refine ⟨d, hcall, hlen, hbound 0 (by decide) 0 (by decide) 1 4 (by norm_num) (by norm_num) ?_⟩
    intro r hr q hq
    have hr' : r = 0 ∨ r = 1 := by omega
    have hq' : q = 0 ∨ q = 1 := by omega
    rcases hr' with rfl | rfl <;> rcases hq' with rfl | rfl
    · exact ⟨1, rfl, by decide!, by norm_num, by norm_num⟩
    · exact ⟨2, rfl, by decide!, by norm_num, by norm_num⟩
    · exact ⟨3, rfl, by decide!, by norm_num, by norm_num⟩
    · exact ⟨4, rfl, by decide!, by norm_num, by norm_num⟩
  · obtain ⟨_, _, _, d, hcall, hlen, _, hconst⟩ :=
      C16_blend_binary32 (fun _ => binary32.F32.fin 0) ⟨false, [3, 3]⟩
        1 1 2 2 3 3 [.fin (1 / 4), .fin (1 / 4), .fin (1 / 4), .fin (1 / 4)] none ⟨[], []⟩
        (by decide) (by decide) (by decide) (by decide) (by decide) rfl rfl
        (Or.inl ⟨by norm_num, by norm_num, by norm_num, by norm_num⟩)
    exact ⟨d, hcall, hlen, hconst 0 (by decide) 0 (by decide) (1 / 4) (by decide!) (by decide!)⟩

/-! ## Transposition in binary32 -/

/-- Claim C17 as stated does not hold of the `float` code: for the plane
`[[1, 2], [3, 4]]` resized from `2 x 2` to `3 x 3` with `align_corners = false`,
the centre pixel of the resized plane is `3`, while the centre pixel of the
resized transpose is `3 + 2^-22`: blending along `x` first and along `y` first
round differently. -/
theorem C17_transpose_changes_rounding :
    (binary32.operatorCall (fun _ => binary32.F32.fin 0) ⟨false, [3, 3]⟩
        ⟨[1, 1, 2, 2], [.fin 1, .fin 2, .fin 3, .fin 4]⟩ none ⟨[], []⟩).1 = Status.ok ∧
    (binary32.operatorCall (fun _ => binary32.F32.fin 0) ⟨false, [3, 3]⟩
        ⟨[1, 1, 2, 2], binary32.transposePlane [.fin 1, .fin 2, .fin 3, .fin 4] 2 2⟩
        none ⟨[], []⟩).1 = Status.ok ∧
    (binary32.operatorCall (fun _ => binary32.F32.fin 0) ⟨false, [3, 3]⟩
        ⟨[1, 1, 2, 2], [.fin 1, .fin 2, .fin 3, .fin 4]⟩ none ⟨[], []⟩).2.data[1 * 3 + 1]?
      = some (binary32.F32.fin 3) ∧
    (binary32.operatorCall (fun _ => binary32.F32.fin 0) ⟨false, [3, 3]⟩
        ⟨[1, 1, 2, 2], binary32.transposePlane [.fin 1, .fin 2, .fin 3, .fin 4] 2 2⟩
        none ⟨[], []⟩).2.data[1 * 3 + 1]?
      = some (binary32.F32.fin (3 + 1 / 4194304)) := by
  refine ⟨by decide!, by decide!, by decide!, by decide!⟩

/-- Claim C17, amended for binary32.  For a single plane `P` of size `H x W`,
output sizes `h, w ≥ 1`, with input sizes up to 4096 and output sizes up to 2048
or, beyond that, tables whose indices are inside the plane, resizing
`P` to `(h, w)` and resizing the transpose of `P` to `(w, h)` both succeed, with
`h*w` output elements each.  When `(h, w) = (H, W)` element `(x, y)` of the
second result is element `(y, x)` of the first.  Otherwise element `(y, x)` of
the first is `ComputeLerp(tl, tr, bl, br, x_lerp, y_lerp)` and element `(x, y)`
of the second is `ComputeLerp(tl, bl, tr, br, y_lerp, x_lerp)`, for the same
four samples of `P` and the same two fractions: the two results differ only by
the order of the two rounded blends, and they are equal when one of the two
fractions is zero and the samples of `P` are finite binary32 values of
magnitude at most `2^126`. -/
theorem C17_transpose_binary32 (fill fill' : Nat → binary32.F32) (align_corners : Bool)
    (H W h w : Nat) (P : List binary32.F32) (output output' : Tensor binary32.F32)
    (hH : 1 ≤ H) (hW : 1 ≤ W) (hh : 1 ≤ h) (hw : 1 ≤ w) (hP : P.length = H * W)
    (hrange : (H ≤ 4096 ∧ W ≤ 4096 ∧ h ≤ 2048 ∧ w ≤ 2048) ∨
      (binary32.TableInRange (binary32.weightTable h H align_corners) h H ∧
        binary32.TableInRange (binary32.weightTable w W align_corners) w W)) :
    ∃ d d',
      binary32.operatorCall fill ⟨align_corners, [(h : Int), (w : Int)]⟩
          ⟨[((1 : Nat) : Int), ((1 : Nat) : Int), (H : Int), (W : Int)], P⟩ none output
        = (Status.ok, ⟨[((1 : Nat) : Int), ((1 : Nat) : Int), (h : Int), (w : Int)], d⟩) ∧
      binary32.operatorCall fill' ⟨align_corners, [(w : Int), (h : Int)]⟩
          ⟨[((1 : Nat) : Int), ((1 : Nat) : Int), (W : Int), (H : Int)],
            binary32.transposePlane P H W⟩ none output'
        = (Status.ok, ⟨[((1 : Nat) : Int), ((1 : Nat) : Int), (w : Int), (h : Int)], d'⟩) ∧
      d.length = h * w ∧ d'.length = w * h ∧
      ((h = H ∧ w = W) → ∀ y, y < h → ∀ x, x < w →
        ∃ v, d[y * w + x]? = some v ∧ d'[x * h + y]? = some v) ∧
      (¬ (h = H ∧ w = W) → ∀ y, y < h → ∀ x, x < w →
        ∃ cy cx, (binary32.weightTable h H align_corners)[y]? = some cy ∧
          (binary32.weightTable w W align_corners)[x]? = some cx ∧
          d[y * w + x]? = some (binary32.ComputeLerp
            (binary32.inputAt P H W 1 0 0 cy.lower cx.lower)
            (binary32.inputAt P H W 1 0 0 cy.lower cx.upper)
            (binary32.inputAt P H W 1 0 0 cy.upper cx.lower)
            (binary32.inputAt P H W 1 0 0 cy.upper cx.upper) cx.lerp cy.lerp) ∧
          d'[x * h + y]? = some (binary32.ComputeLerp
            (binary32.inputAt P H W 1 0 0 cy.lower cx.lower)
            (binary32.inputAt P H W 1 0 0 cy.upper cx.lower)
            (binary32.inputAt P H W 1 0 0 cy.lower cx.upper)
            (binary32.inputAt P H W 1 0 0 cy.upper cx.upper) cy.lerp cx.lerp) ∧
          ((∀ v, v ∈ P → v.tame = true) →
            (cy.lerp = binary32.F32.fin 0 ∨ cx.lerp = binary32.F32.fin 0) →
            d'[x * h + y]? = d[y * w + x]?)) := by
  have hres : (ResizeBilinearFunctor.mk align_corners [(h : Int), (w : Int)]).GetOutputSize none
      = .ok ((h : Int), (w : Int)) :=
    GetOutputSize_static align_corners h w [] (Int.natCast_nonneg h) (Int.natCast_nonneg w) none
  have hres' : (ResizeBilinearFunctor.mk align_corners [(w : Int), (h : Int)]).GetOutputSize none
      = .ok ((w : Int), (h : Int)) :=
    GetOutputSize_static align_corners w h [] (Int.natCast_nonneg w) (Int.natCast_nonneg h) none
  have hPT : (binary32.transposePlane P H W).length = W * H :=
    binary32.transposePlane_length32 P H W
  have hys : binary32.TableInRange (binary32.weightTable h H align_corners) h H := by
    rcases hrange with ⟨h1, _, h3, _⟩ | ⟨h1, _⟩
    · exact binary32.weightTable_inRange32 h H _ hH hh h1 h3
    · exact h1
  have hxs : binary32.TableInRange (binary32.weightTable w W align_corners) w W := by
    rcases hrange with ⟨_, h2, _, h4⟩ | ⟨_, h2⟩
    · exact binary32.weightTable_inRange32 w W _ hW hw h2 h4
    · exact h2
  by_cases heq : h = H ∧ w = W
  · obtain ⟨rfl, rfl⟩ := heq
    obtain ⟨d, hcall, hlen, hval, _⟩ :=
      binary32.operatorCall_copy32 fill _ 1 1 h w P none output (le_refl 1) hH hW
        (by rw [hP]; simp) hres
    obtain ⟨d', hcall', hlen', hval', _⟩ :=
      binary32.operatorCall_copy32 fill' _ 1 1 w h (binary32.transposePlane P h w) none output'
        (le_refl 1) hW hH (by rw [hPT]; simp) hres'
    refine ⟨d, d', hcall, hcall', by simpa using hlen, by simpa using hlen', ?_,
      fun hc => absurd ⟨rfl, rfl⟩ hc⟩
    intro _ y hy x hx
    have hk : y * w + x < 1 * h * w := by
      have := lt_mul_add hy hx
      simpa using this
    have hk' : x * h + y < 1 * w * h := by
      have := lt_mul_add hx hy
      simpa using this
    have hlt : y * w + x < P.length := by rw [hP]; exact lt_mul_add hy hx
    refine ⟨P[y * w + x], ?_, ?_⟩
    · rw [hval _ hk, List.getElem?_eq_getElem hlt]
    · rw [hval' _ hk', binary32.transposePlane_getElem?32 P h w x y hx hy,
        List.getD_eq_getElem?_getD, List.getElem?_eq_getElem hlt]
      rfl
  · have heq' : ¬ (w = W ∧ h = H) := fun hc => heq ⟨hc.2, hc.1⟩
    obtain ⟨d, hcall, hlen, hval⟩ :=
      binary32.operatorCall_interp32 fill ⟨align_corners, [(h : Int), (w : Int)]⟩ 1 1 H W h w P
        none output hh hw heq (by rw [hP]; simp) hres hys hxs
    obtain ⟨d', hcall', hlen', hval'⟩ :=
      binary32.operatorCall_interp32 fill' ⟨align_corners, [(w : Int), (h : Int)]⟩ 1 1 W H w h
        (binary32.transposePlane P H W) none output' hw hh heq' (by rw [hPT]; simp) hres'
        hxs hys
    refine ⟨d, d', hcall, hcall', by simpa using hlen, by simpa using hlen',
      fun hc => absurd hc heq, ?_⟩
    intro _ y hy x hx
    obtain ⟨cy, hcy, hl0, hl, hu0, hu⟩ := hys y hy
    obtain ⟨cx, hcx, hxl0, hxl, hxu0, hxu⟩ := hxs x hx
    have h1 := hval 0 (by decide) 0 (by decide) y hy x hx
    have h2 := hval' 0 (by decide) 0 (by decide) x hx y hy
    simp only [Nat.zero_mul, Nat.zero_add] at h1 h2
    have e1 : d[y * w + x]? = some (binary32.ComputeLerp
        (binary32.inputAt P H W 1 0 0 cy.lower cx.lower)
        (binary32.inputAt P H W 1 0 0 cy.lower cx.upper)
        (binary32.inputAt P H W 1 0 0 cy.upper cx.lower)
        (binary32.inputAt P H W 1 0 0 cy.upper cx.upper) cx.lerp cy.lerp) := by
      rw [h1, binary32.pixelValue_eq32 P H W 1 _ _ 0 0 y x cy cx hcy hcx]
      simp only [Nat.cast_one]
    have e2 : d'[x * h + y]? = some (binary32.ComputeLerp
        (binary32.inputAt P H W 1 0 0 cy.lower cx.lower)
        (binary32.inputAt P H W 1 0 0 cy.upper cx.lower)
        (binary32.inputAt P H W 1 0 0 cy.lower cx.upper)
        (binary32.inputAt P H W 1 0 0 cy.upper cx.upper) cy.lerp cx.lerp) := by
      rw [h2, binary32.pixelValue_eq32 (binary32.transposePlane P H W) W H 1 _ _ 0 0 x y cx cy
        hcx hcy]
      simp only [Nat.cast_one]
      rw [binary32.inputAt_transpose32 P H W cx.lower cy.lower hP hxl0 hxl hl0 hl,
        binary32.inputAt_transpose32 P H W cx.lower cy.upper hP hxl0 hxl hu0 hu,
        binary32.inputAt_transpose32 P H W cx.upper cy.lower hP hxu0 hxu hl0 hl,
        binary32.inputAt_transpose32 P H W cx.upper cy.upper hP hxu0 hxu hu0 hu]
    refine ⟨cy, cx, hcy, hcx, e1, e2, ?_⟩
    intro htame hzero
    obtain ⟨qy, hqy, hqy0, hqy1, hqyr⟩ :=
      binary32.weightTable_lerp_unit32 h H align_corners hh hys y hy cy hcy
    obtain ⟨qx, hqx, hqx0, hqx1, hqxr⟩ :=
      binary32.weightTable_lerp_unit32 w W align_corners hw hxs x hx cx hcx
    have hPlen : 1 * 1 * H * W ≤ P.length := by rw [hP]; simp
    have hmem : ∀ r q : Int, 0 ≤ r → r < (H : Int) → 0 ≤ q → q < (W : Int) →
        ∃ v, binary32.inputAt P H W 1 0 0 r q = binary32.F32.fin v ∧
          binary32.round32 v = binary32.F32.fin v ∧ |v| ≤ (2 : ℚ) ^ (126 : Int) := by
      intro r q hr0 hr hq0 hq
      have hm := binary32.inputAt_mem32 P 1 1 H W 0 0 r q hPlen (by decide) (by decide)
        hr0 hr hq0 hq
      simp only [Nat.cast_one] at hm
      exact binary32.tame_spec32 _ (htame _ hm)
    obtain ⟨tl, htl, htlr, htlb⟩ := hmem _ _ hl0 hl hxl0 hxl
    obtain ⟨tr, htr, htrr, htrb⟩ := hmem _ _ hl0 hl hxu0 hxu
    obtain ⟨bl, hbl, hblr, hblb⟩ := hmem _ _ hu0 hu hxl0 hxl
    obtain ⟨br, hbr, hbrr, hbrb⟩ := hmem _ _ hu0 hu hxu0 hxu
    have hz : qx = 0 ∨ qy = 0 := by
      rcases hzero with hz | hz
      · right
        rw [hqy] at hz
        injection hz
      · left
        rw [hqx] at hz
        injection hz
    rw [e1, e2, htl, htr, hbl, hbr, hqx, hqy]
    congr 1
    exact (binary32.ComputeLerp_swap_zero32 tl tr bl br qx qy htlr htrr hblr hbrr
      htlb htrb hblb hbrb hqx0 hqx1 hqxr hqy0 hqy1 hqyr hz).symm

theorem C17_transpose_binary32_witness :
    ∃ d d',
      binary32.operatorCall (fun _ => binary32.F32.fin 0)
          ⟨false, [((3 : Nat) : Int), ((3 : Nat) : Int)]⟩
          ⟨[((1 : Nat) : Int), ((1 : Nat) : Int), ((2 : Nat) : Int), ((2 : Nat) : Int)],
            [.fin 1, .fin 2, .fin 3, .fin 4]⟩ none ⟨[], []⟩
        = (Status.ok,
            ⟨[((1 : Nat) : Int), ((1 : Nat) : Int), ((3 : Nat) : Int), ((3 : Nat) : Int)], d⟩) ∧
      binary32.operatorCall (fun _ => binary32.F32.fin 0)
          ⟨false, [((3 : Nat) : Int), ((3 : Nat) : Int)]⟩
          ⟨[((1 : Nat) : Int), ((1 : Nat) : Int), ((2 : Nat) : Int), ((2 : Nat) : Int)],
            binary32.transposePlane [.fin 1, .fin 2, .fin 3, .fin 4] 2 2⟩ none ⟨[], []⟩
        = (Status.ok,
            ⟨[((1 : Nat) : Int), ((1 : Nat) : Int), ((3 : Nat) : Int), ((3 : Nat) : Int)], d'⟩) ∧
      d.length = 3 * 3 ∧ d'.length = 3 * 3 ∧
      ∀ y, y < 3 → ∀ x, x < 3 →
        ∃ cy cx, (binary32.weightTable ((3 : Nat) : Int) ((2 : Nat) : Int) false)[y]? = some cy ∧
          (binary32.weightTable ((3 : Nat) : Int) ((2 : Nat) : Int) false)[x]? = some cx ∧
          d[y * 3 + x]? = some (binary32.ComputeLerp
            (binary32.inputAt [.fin 1, .fin 2, .fin 3, .fin 4] ((2 : Nat) : Int) ((2 : Nat) : Int)
              1 0 0 cy.lower cx.lower)
            (binary32.inputAt [.fin 1, .fin 2, .fin 3, .fin 4] ((2 : Nat) : Int) ((2 : Nat) : Int)
              1 0 0 cy.lower cx.upper)
            (binary32.inputAt [.fin 1, .fin 2, .fin 3, .fin 4] ((2 : Nat) : Int) ((2 : Nat) : Int)
              1 0 0 cy.upper cx.lower)
            (binary32.inputAt [.fin 1, .fin 2, .fin 3, .fin 4] ((2 : Nat) : Int) ((2 : Nat) : Int)
              1 0 0 cy.upper cx.upper) cx.lerp cy.lerp) ∧
          d'[x * 3 + y]? = some (binary32.ComputeLerp
            (binary32.inputAt [.fin 1, .fin 2, .fin 3, .fin 4] ((2 : Nat) : Int) ((2 : Nat) : Int)
              1 0 0 cy.lower cx.lower)
            (binary32.inputAt [.fin 1, .fin 2, .fin 3, .fin 4] ((2 : Nat) : Int) ((2 : Nat) : Int)
              1 0 0 cy.upper cx.lower)
            (binary32.inputAt [.fin 1, .fin 2, .fin 3, .fin 4] ((2 : Nat) : Int) ((2 : Nat) : Int)
              1 0 0 cy.lower cx.upper)
            (binary32.inputAt [.fin 1, .fin 2, .fin 3, .fin 4] ((2 : Nat) : Int) ((2 : Nat) : Int)
              1 0 0 cy.upper cx.upper) cy.lerp cx.lerp) ∧
          ((∀ v, v ∈ [binary32.F32.fin 1, .fin 2, .fin 3, .fin 4] → v.tame = true) →
            (cy.lerp = binary32.F32.fin 0 ∨ cx.lerp = binary32.F32.fin 0) →
            d'[x * 3 + y]? = d[y * 3 + x]?) := by
  obtain ⟨d, d', h1, h2, h3, h4, _, h6⟩ :=
    C17_transpose_binary32 (fun _ => binary32.F32.fin 0) (fun _ => binary32.F32.fin 0) false
      2 2 3 3 [.fin 1, .fin 2, .fin 3, .fin 4] ⟨[], []⟩ ⟨[], []⟩
      (by decide) (by decide) (by decide) (by decide) rfl
      (Or.inr ⟨binary32.TableInRange_of_check32 _ _ _ (by decide!),
        binary32.TableInRange_of_check32 _ _ _ (by decide!)⟩)
  exact ⟨d, d', h1, h2, h3, h4, h6 (by decide)⟩

/-! ## Integer-factor downscaling in binary32 -/

/-- Claim C18 as stated does not hold of the `float` code.  With
`align_corners = false`, `in_w = 16777221 = 5592407 * 3` and `out_w = 3`, the
input size is not a binary32 value: the scale is `5592406.5` instead of
`5592407`, and record 1 is `(lower, upper, lerp) = (5592406, 5592407, 1/2)`
instead of `(5592407, _, 0)`.  And a neighbouring pixel does contribute:
downscaling the plane `[1, +inf]` from `1 x 2` to `1 x 1` gives NaN, not the
input pixel `1`. -/
theorem C18_integer_factor_not_subsampling :
    (16777221 : Int) = 5592407 * 3 ∧
    binary32.CalculateResizeScale 16777221 3 false = binary32.F32.fin (11184813 / 2) ∧
    (∃ t, binary32.ComputeInterpolationWeights 3 16777221
        (binary32.CalculateResizeScale 16777221 3 false)
        (List.replicate 4 ⟨0, 0, binary32.F32.fin 0⟩) = some t ∧
      t[1]? = some ⟨5592406, 5592407, binary32.F32.fin (1 / 2)⟩) ∧
    binary32.operatorCall (fun _ => binary32.F32.fin 0) ⟨false, [1, 1]⟩
        ⟨[1, 1, 1, 2], [.fin 1, .inf false]⟩ none ⟨[], []⟩
      = (Status.ok, ⟨[1, 1, 1, 1], [binary32.F32.nan]⟩) := by
  refine ⟨by decide, by decide!,
    ⟨[⟨0, 1, .fin 0⟩, ⟨5592406, 5592407, .fin (1 / 2)⟩, ⟨11184813, 11184814, .fin 0⟩,
      ⟨0, 0, .fin 0⟩], by decide!, rfl⟩, by decide!⟩

/-- Claim C18, amended for binary32.  With `align_corners = false`,
`out_h, out_w ≥ 1`, integer factors `ky, kx ≥ 1` not both 1, `in_h = ky*out_h`
and `in_w = kx*out_w` both below `2^24`: the scales are `ky` and `kx`, record
`i` of each table has `lower = k*i` and `lerp = 0`, the call succeeds, and for
an input whose samples are finite binary32 values of magnitude at most `2^126`
output element `(b, c, y, x)` is input element `(b, c, ky*y, kx*x)`. -/
theorem C18_integer_factor_subsampling_binary32 (fill : Nat → binary32.F32)
    (f : ResizeBilinearFunctor) (hf : f.align_corners_ = false)
    (B C h w ky kx : Nat) (data : List binary32.F32) (resize_dims : Option (Tensor Int))
    (output : Tensor binary32.F32)
    (hh : 1 ≤ h) (hw : 1 ≤ w) (hky : 1 ≤ ky) (hkx : 1 ≤ kx) (hk : ¬ (ky = 1 ∧ kx = 1))
    (hH24 : ky * h < 2 ^ 24) (hW24 : kx * w < 2 ^ 24)
    (hdata : data.length = B * C * (ky * h) * (kx * w))
    (htame : ∀ v, v ∈ data → v.tame = true)
    (hres : f.GetOutputSize resize_dims = .ok ((h : Int), (w : Int))) :
    binary32.CalculateResizeScale ((ky * h : Nat) : Int) (h : Int) false
      = binary32.F32.fin (ky : ℚ) ∧
    binary32.CalculateResizeScale ((kx * w : Nat) : Int) (w : Int) false
      = binary32.F32.fin (kx : ℚ) ∧
    (∀ i, i < h → ∃ r, (binary32.weightTable (h : Int) ((ky * h : Nat) : Int) false)[i]? = some r ∧
      r.lower = ((ky * i : Nat) : Int) ∧ r.lerp = binary32.F32.fin 0) ∧
    (∀ i, i < w → ∃ r, (binary32.weightTable (w : Int) ((kx * w : Nat) : Int) false)[i]? = some r ∧
      r.lower = ((kx * i : Nat) : Int) ∧ r.lerp = binary32.F32.fin 0) ∧
    ∃ d, binary32.operatorCall fill f
          ⟨[(B : Int), (C : Int), ((ky * h : Nat) : Int), ((kx * w : Nat) : Int)], data⟩
          resize_dims output
        = (Status.ok, ⟨[(B : Int), (C : Int), (h : Int), (w : Int)], d⟩) ∧
      d.length = B * C * h * w ∧
      ∀ b, b < B → ∀ c, c < C → ∀ y, y < h → ∀ x, x < w →
        d[((b * C + c) * h + y) * w + x]?
          = data[((b * C + c) * (ky * h) + ky * y) * (kx * w) + kx * x]? := by
  have hne : ¬ (h = ky * h ∧ w = kx * w) := by
    rintro ⟨h1, h2⟩
    have e1 : ky * h = 1 * h := by omega
    have e2 : kx * w = 1 * w := by omega
    exact hk ⟨Nat.eq_of_mul_eq_mul_right (by omega) e1,
      Nat.eq_of_mul_eq_mul_right (by omega) e2⟩
  obtain ⟨_, hyval⟩ := binary32.weightTable_integer_factor32 ky h hky hh hH24
  obtain ⟨_, hxval⟩ := binary32.weightTable_integer_factor32 kx w hkx hw hW24
  have hys := binary32.weightTable_integer_factor_inRange32 ky h hky hh hH24
  have hxs := binary32.weightTable_integer_factor_inRange32 kx w hkx hw hW24
  refine ⟨binary32.scale_integer_factor32 ky h hky hh hH24,
    binary32.scale_integer_factor32 kx w hkx hw hW24,
    fun i hi => ⟨_, hyval i hi, rfl, rfl⟩, fun i hi => ⟨_, hxval i hi, rfl, rfl⟩, ?_⟩
  obtain ⟨d, hcall, hlen, hval⟩ :=
    binary32.operatorCall_interp32 fill f B C (ky * h) (kx * w) h w data resize_dims output
      hh hw hne hdata.ge hres (by rw [hf]; exact hys) (by rw [hf]; exact hxs)
  refine ⟨d, hcall, hlen, ?_⟩
  intro b hb c hc y hy x hx
  rw [hval b hb c hc y hy x hx, hf]
  obtain ⟨cy, hcy, hyl0, hyl, hyu0, hyu⟩ := hys y hy
  obtain ⟨cx, hcx, hxl0, hxl, hxu0, hxu⟩ := hxs x hx
  have hcy' := hyval y hy
  have hcx' := hxval x hx
  rw [hcy] at hcy'
  rw [hcx] at hcx'
  have ecy := Option.some.inj hcy'
  have ecx := Option.some.inj hcx'
  exact binary32.pixelValue_sample32 data B C (ky * h) (kx * w) b c y x (ky * y) (kx * x) _ _
    cy cx hdata.ge hb hc htame hcy hcx ⟨hyl0, hyl⟩ ⟨hyu0, hyu⟩ ⟨hxl0, hxl⟩ ⟨hxu0, hxu⟩
    (by rw [ecy]) (by rw [ecx]) (by rw [ecy]) (by rw [ecx])

theorem C18_integer_factor_subsampling_binary32_witness :
    ∃ d, binary32.operatorCall (fun _ => binary32.F32.fin 0) ⟨false, [1, 2]⟩
          ⟨[((1 : Nat) : Int), ((1 : Nat) : Int), ((2 * 1 : Nat) : Int), ((1 * 2 : Nat) : Int)],
            [.fin 1, .fin 2, .fin 3, .fin 4]⟩ none ⟨[], []⟩
        = (Status.ok,
            ⟨[((1 : Nat) : Int), ((1 : Nat) : Int), ((1 : Nat) : Int), ((2 : Nat) : Int)], d⟩) ∧
      d.length = 1 * 1 * 1 * 2 ∧
      ∀ b, b < 1 → ∀ c, c < 1 → ∀ y, y < 1 → ∀ x, x < 2 →
        d[((b * 1 + c) * 1 + y) * 2 + x]?
          = [binary32.F32.fin 1, .fin 2, .fin 3, .fin 4][
              ((b * 1 + c) * (2 * 1) + 2 * y) * (1 * 2) + 1 * x]? :=
  (C18_integer_factor_subsampling_binary32 (fun _ => binary32.F32.fin 0) ⟨false, [1, 2]⟩ rfl
    1 1 1 2 2 1 [.fin 1, .fin 2, .fin 3, .fin 4] none ⟨[], []⟩ (by decide) (by decide)
    (by decide) (by decide) (by decide) (by norm_num) (by norm_num) rfl (by decide!) rfl).2.2.2.2

end mace.kernels
